import Mathlib

/-!
# Super-access rewriting in `internal/transformers/estransforms/utilities.go`

A shallow embedding of the syntax tree, of the node factory, node visitor and
emit context the transform relies on, and of the functions of the file:
`superAccessState` with its operations, the class conversion and the not-null
condition, followed by theorems about them.

Conventions of the embedding:

* a Go pointer (`*ast.Node`, `*ast.NodeList`, `*collections.OrderedSet`) is
  an `Option`, `none` being the nil pointer;
* a Go run-time panic (nil dereference, failed type assertion) is the error
  case of `Except Fatal`;
* nodes are values: "the same node" is equality of trees.
-/

namespace EsTransforms

/-! ## Syntax kinds, spans, flags -/

/-- Modelled from the spec: the syntax kinds (`ast.Kind`) are declared outside
`utilities.go`.  The kinds named by the transform, the ones needed to write its
inputs and outputs and the kinds of the modifiers are listed; `Unlisted n`
stands for any other kind. -/
inductive Kind where
  | SuperKeyword
  | ThisKeyword
  | NullKeyword
  | Identifier
  | StringLiteral
  | NumericLiteral
  | PropertyAccessExpression
  | ElementAccessExpression
  | CallExpression
  | BinaryExpression
  | PrefixUnaryExpression
  | PostfixUnaryExpression
  | ObjectLiteralExpression
  | FunctionExpression
  | FunctionDeclaration
  | MethodDeclaration
  | GetAccessor
  | SetAccessor
  | Constructor
  | ClassDeclaration
  | ClassExpression
  | ArrowFunction
  | PropertyAssignment
  | Parameter
  | VariableDeclaration
  | VariableDeclarationList
  | VariableStatement
  | Block
  | ExpressionStatement
  | ReturnStatement
  | VoidExpression
  | EqualsToken
  | PlusEqualsToken
  | MinusEqualsToken
  | AsteriskEqualsToken
  | AsteriskAsteriskEqualsToken
  | SlashEqualsToken
  | PercentEqualsToken
  | LessThanLessThanEqualsToken
  | GreaterThanGreaterThanEqualsToken
  | GreaterThanGreaterThanGreaterThanEqualsToken
  | AmpersandEqualsToken
  | BarEqualsToken
  | BarBarEqualsToken
  | AmpersandAmpersandEqualsToken
  | QuestionQuestionEqualsToken
  | CaretEqualsToken
  | PlusPlusToken
  | MinusMinusToken
  | PlusToken
  | MinusToken
  | ExclamationToken
  | TildeToken
  | QuestionDotToken
  | EqualsGreaterThanToken
  | ExclamationEqualsEqualsToken
  | EqualsEqualsEqualsToken
  | AmpersandAmpersandToken
  | BarBarToken
  | ExportKeyword
  | DefaultKeyword
  | StaticKeyword
  | PublicKeyword
  | ProtectedKeyword
  | PrivateKeyword
  | AbstractKeyword
  | AccessorKeyword
  | DeclareKeyword
  | ConstKeyword
  | AsyncKeyword
  | ReadonlyKeyword
  | OverrideKeyword
  | InKeyword
  | OutKeyword
  | Decorator
  | Unlisted (n : Nat)
deriving Repr

/-- A numbering of the kinds, used only to decide equality of kinds. -/
def Kind.code : Kind → Nat
  | .SuperKeyword => 0
  | .ThisKeyword => 1
  | .NullKeyword => 2
  | .Identifier => 3
  | .StringLiteral => 4
  | .NumericLiteral => 5
  | .PropertyAccessExpression => 6
  | .ElementAccessExpression => 7
  | .CallExpression => 8
  | .BinaryExpression => 9
  | .PrefixUnaryExpression => 10
  | .PostfixUnaryExpression => 11
  | .ObjectLiteralExpression => 12
  | .FunctionExpression => 13
  | .FunctionDeclaration => 14
  | .MethodDeclaration => 15
  | .GetAccessor => 16
  | .SetAccessor => 17
  | .Constructor => 18
  | .ClassDeclaration => 19
  | .ClassExpression => 20
  | .ArrowFunction => 21
  | .PropertyAssignment => 22
  | .Parameter => 23
  | .VariableDeclaration => 24
  | .VariableDeclarationList => 25
  | .VariableStatement => 26
  | .Block => 27
  | .ExpressionStatement => 28
  | .ReturnStatement => 29
  | .VoidExpression => 30
  | .EqualsToken => 31
  | .PlusEqualsToken => 32
  | .MinusEqualsToken => 33
  | .AsteriskEqualsToken => 34
  | .AsteriskAsteriskEqualsToken => 35
  | .SlashEqualsToken => 36
  | .PercentEqualsToken => 37
  | .LessThanLessThanEqualsToken => 38
  | .GreaterThanGreaterThanEqualsToken => 39
  | .GreaterThanGreaterThanGreaterThanEqualsToken => 40
  | .AmpersandEqualsToken => 41
  | .BarEqualsToken => 42
  | .BarBarEqualsToken => 43
  | .AmpersandAmpersandEqualsToken => 44
  | .QuestionQuestionEqualsToken => 45
  | .CaretEqualsToken => 46
  | .PlusPlusToken => 47
  | .MinusMinusToken => 48
  | .PlusToken => 49
  | .MinusToken => 50
  | .ExclamationToken => 51
  | .TildeToken => 52
  | .QuestionDotToken => 53
  | .EqualsGreaterThanToken => 54
  | .ExclamationEqualsEqualsToken => 55
  | .EqualsEqualsEqualsToken => 56
  | .AmpersandAmpersandToken => 57
  | .BarBarToken => 58
  | .ExportKeyword => 59
  | .DefaultKeyword => 60
  | .StaticKeyword => 61
  | .PublicKeyword => 62
  | .ProtectedKeyword => 63
  | .PrivateKeyword => 64
  | .AbstractKeyword => 65
  | .AccessorKeyword => 66
  | .DeclareKeyword => 67
  | .ConstKeyword => 68
  | .AsyncKeyword => 69
  | .ReadonlyKeyword => 70
  | .OverrideKeyword => 71
  | .InKeyword => 72
  | .OutKeyword => 73
  | .Decorator => 74
  | .Unlisted n => n + 75

/-- The kind with a given number. -/
def Kind.ofCode : Nat → Kind
  | 0 => .SuperKeyword
  | 1 => .ThisKeyword
  | 2 => .NullKeyword
  | 3 => .Identifier
  | 4 => .StringLiteral
  | 5 => .NumericLiteral
  | 6 => .PropertyAccessExpression
  | 7 => .ElementAccessExpression
  | 8 => .CallExpression
  | 9 => .BinaryExpression
  | 10 => .PrefixUnaryExpression
  | 11 => .PostfixUnaryExpression
  | 12 => .ObjectLiteralExpression
  | 13 => .FunctionExpression
  | 14 => .FunctionDeclaration
  | 15 => .MethodDeclaration
  | 16 => .GetAccessor
  | 17 => .SetAccessor
  | 18 => .Constructor
  | 19 => .ClassDeclaration
  | 20 => .ClassExpression
  | 21 => .ArrowFunction
  | 22 => .PropertyAssignment
  | 23 => .Parameter
  | 24 => .VariableDeclaration
  | 25 => .VariableDeclarationList
  | 26 => .VariableStatement
  | 27 => .Block
  | 28 => .ExpressionStatement
  | 29 => .ReturnStatement
  | 30 => .VoidExpression
  | 31 => .EqualsToken
  | 32 => .PlusEqualsToken
  | 33 => .MinusEqualsToken
  | 34 => .AsteriskEqualsToken
  | 35 => .AsteriskAsteriskEqualsToken
  | 36 => .SlashEqualsToken
  | 37 => .PercentEqualsToken
  | 38 => .LessThanLessThanEqualsToken
  | 39 => .GreaterThanGreaterThanEqualsToken
  | 40 => .GreaterThanGreaterThanGreaterThanEqualsToken
  | 41 => .AmpersandEqualsToken
  | 42 => .BarEqualsToken
  | 43 => .BarBarEqualsToken
  | 44 => .AmpersandAmpersandEqualsToken
  | 45 => .QuestionQuestionEqualsToken
  | 46 => .CaretEqualsToken
  | 47 => .PlusPlusToken
  | 48 => .MinusMinusToken
  | 49 => .PlusToken
  | 50 => .MinusToken
  | 51 => .ExclamationToken
  | 52 => .TildeToken
  | 53 => .QuestionDotToken
  | 54 => .EqualsGreaterThanToken
  | 55 => .ExclamationEqualsEqualsToken
  | 56 => .EqualsEqualsEqualsToken
  | 57 => .AmpersandAmpersandToken
  | 58 => .BarBarToken
  | 59 => .ExportKeyword
  | 60 => .DefaultKeyword
  | 61 => .StaticKeyword
  | 62 => .PublicKeyword
  | 63 => .ProtectedKeyword
  | 64 => .PrivateKeyword
  | 65 => .AbstractKeyword
  | 66 => .AccessorKeyword
  | 67 => .DeclareKeyword
  | 68 => .ConstKeyword
  | 69 => .AsyncKeyword
  | 70 => .ReadonlyKeyword
  | 71 => .OverrideKeyword
  | 72 => .InKeyword
  | 73 => .OutKeyword
  | 74 => .Decorator
  | n + 75 => .Unlisted n

instance : DecidableEq Kind := fun a b =>
  have back : ∀ k : Kind, Kind.ofCode k.code = k := fun k => by cases k <;> rfl
  decidable_of_iff (a.code = b.code)
    ⟨fun h => by rw [← back a, ← back b, h], fun h => by rw [h]⟩

/-- Modelled from the spec: the source span of a node (`core.TextRange`) is
declared outside `utilities.go`; `unset` is the span of a node the factory has just
built. -/
inductive TextRange where
  | unset
  | range (pos : Nat) (stop : Nat)
deriving DecidableEq, Repr

/-- Modelled from the spec: node flags (`ast.NodeFlags`), a bit set. -/
abbrev NodeFlags := Nat

/-- Modelled from the spec: the empty flag set, `ast.NodeFlagsNone`. -/
def NodeFlagsNone : NodeFlags := 0

/-- Modelled from the spec: the value of `ast.NodeFlagsConst` is declared
outside `utilities.go`; it is the flag that makes a declaration list a
`const` list, here bit 1. -/
def NodeFlagsConst : NodeFlags := 2

/-- The outcome of a Go run-time panic. -/
inductive Fatal where
  | abort
deriving DecidableEq, Repr

/-! ## Syntax trees -/

mutual
/-- Modelled from the spec (section 3): a syntax tree node (`ast.Node`) has a
kind, flags, a span and kind-specific data. -/
inductive Node where
  | mk (Kind : Kind) (Flags : NodeFlags) (Loc : TextRange) (data : NodeData)
/-- Modelled from the spec (section 3): kind-specific node data.  The node
types the transform inspects or builds field by field have a constructor of
their own, with the children in source order; every other node type is
`Other`, the list of its child slots in source order. -/
inductive NodeData where
  | Token
  | Identifier (Text : String)
  | StringLiteral (Text : String)
  | NumericLiteral (Text : String)
  | PropertyAccessExpression (Expression : Option Node) (QuestionDotToken : Option Node)
      (Name : Option Node)
  | ElementAccessExpression (Expression : Option Node) (QuestionDotToken : Option Node)
      (ArgumentExpression : Option Node)
  | CallExpression (Expression : Option Node) (QuestionDotToken : Option Node)
      (TypeArguments : Option (List (Option Node))) (Arguments : Option (List (Option Node)))
  | BinaryExpression (Modifiers : Option (List (Option Node))) (Left : Option Node)
      (TypeNode : Option Node) (OperatorToken : Option Node) (Right : Option Node)
  | PrefixUnaryExpression (Operator : Kind) (Operand : Option Node)
  | PostfixUnaryExpression (Operand : Option Node) (Operator : Kind)
  | ObjectLiteralExpression (Properties : Option (List (Option Node))) (MultiLine : Bool)
  | Other (slots : List Slot)
/-- Modelled from the spec: a child slot of a node, a single node pointer or a
node-list pointer. -/
inductive Slot where
  | node (n : Option Node)
  | list (ns : Option (List (Option Node)))
end

/-- Modelled from the spec: a node list pointer (`*ast.NodeList`). -/
abbrev NodeList := Option (List (Option Node))

/-- The kind field of a node. -/
def Node.Kind : Node → Kind
  | .mk k _ _ _ => k

/-- The flags field of a node. -/
def Node.Flags : Node → NodeFlags
  | .mk _ f _ _ => f

/-- The span field of a node. -/
def Node.Loc : Node → TextRange
  | .mk _ _ l _ => l

/-- The kind-specific data of a node. -/
def Node.data : Node → NodeData
  | .mk _ _ _ d => d

/-- Assignment `node.Loc = loc`. -/
def Node.setLoc (loc : TextRange) : Node → Node
  | .mk k f _ d => .mk k f loc d

/-- `node.Kind` through a pointer: a nil pointer cannot be dereferenced. -/
def kindOf : Option Node → Except Fatal Kind
  | none => .error .abort
  | some n => .ok n.Kind

/-- Modelled from the spec: `ast.Node.Expression()` is declared outside
`utilities.go`; it is the `expression` child of a property access, element
access or call, and is fatal on any other node. -/
def Node.Expression : Node → Except Fatal (Option Node)
  | .mk .PropertyAccessExpression _ _ (.PropertyAccessExpression e _ _) => .ok e
  | .mk .ElementAccessExpression _ _ (.ElementAccessExpression e _ _) => .ok e
  | .mk .CallExpression _ _ (.CallExpression e _ _ _) => .ok e
  | _ => .error .abort

/-- Modelled from the spec: `ast.Node.Text()` is declared outside
`utilities.go`; it is the text of an identifier or literal, and is fatal on a
node that carries no text and on a nil pointer. -/
def textOf : Option Node → Except Fatal String
  | some (.mk _ _ _ (.Identifier t)) => .ok t
  | some (.mk _ _ _ (.StringLiteral t)) => .ok t
  | some (.mk _ _ _ (.NumericLiteral t)) => .ok t
  | _ => .error .abort

/-- Modelled from the spec: `ast.IsPropertyAccessExpression`, the kind test. -/
def IsPropertyAccessExpression (node : Option Node) : Except Fatal Bool := do
  return (← kindOf node) == Kind.PropertyAccessExpression

/-- Modelled from the spec: `ast.IsElementAccessExpression`, the kind test. -/
def IsElementAccessExpression (node : Option Node) : Except Fatal Bool := do
  return (← kindOf node) == Kind.ElementAccessExpression

/-- Modelled from the spec: `ast.IsSuperProperty` is declared outside
`utilities.go`; by the glossary a super access is a property access (`super.x`)
or element access (`super[x]`) rooted at the `super` keyword. -/
def IsSuperProperty (node : Option Node) : Except Fatal Bool := do
  match node with
  | none => throw Fatal.abort
  | some n =>
    if n.Kind = Kind.PropertyAccessExpression ∨ n.Kind = Kind.ElementAccessExpression then
      return (← kindOf (← n.Expression)) == Kind.SuperKeyword
    else
      return false

/-! ## Node factory

Modelled from the spec (section 4.3): the factory is declared outside
`utilities.go`; each constructor builds a new node of the fixed kind from the
caller-supplied children and fields, with an unset span. -/

/-- Modelled from the spec: `NodeFactory.NewToken`. -/
def NewToken (kind : Kind) : Node :=
  .mk kind NodeFlagsNone .unset .Token

/-- Modelled from the spec: `NodeFactory.NewKeywordExpression`. -/
def NewKeywordExpression (kind : Kind) : Node :=
  .mk kind NodeFlagsNone .unset .Token

/-- Modelled from the spec: `NodeFactory.NewThisExpression`. -/
def NewThisExpression : Node :=
  NewKeywordExpression Kind.ThisKeyword

/-- Modelled from the spec: `NodeFactory.NewIdentifier`. -/
def NewIdentifier (text : String) : Node :=
  .mk Kind.Identifier NodeFlagsNone .unset (.Identifier text)

/-- Modelled from the spec: `NodeFactory.NewNodeList`, a non-nil list. -/
def NewNodeList (nodes : List (Option Node)) : NodeList :=
  some nodes

/-- Modelled from the spec: `NodeFactory.NewPropertyAccessExpression`. -/
def NewPropertyAccessExpression (expression questionDotToken name : Option Node)
    (flags : NodeFlags) : Node :=
  .mk Kind.PropertyAccessExpression flags .unset
    (.PropertyAccessExpression expression questionDotToken name)

/-- Modelled from the spec: `NodeFactory.NewCallExpression`. -/
def NewCallExpression (expression questionDotToken : Option Node)
    (typeArguments arguments : NodeList) (flags : NodeFlags) : Node :=
  .mk Kind.CallExpression flags .unset
    (.CallExpression expression questionDotToken typeArguments arguments)

/-- Modelled from the spec: `NodeFactory.NewBinaryExpression`. -/
def NewBinaryExpression (modifiers : NodeList) (left typeNode operatorToken right : Option Node) :
    Node :=
  .mk Kind.BinaryExpression NodeFlagsNone .unset
    (.BinaryExpression modifiers left typeNode operatorToken right)

/-- Modelled from the spec: `NodeFactory.NewAssignmentExpression`, the binary
expression `left = right`. -/
def NewAssignmentExpression (left right : Option Node) : Node :=
  NewBinaryExpression none left none (some (NewToken Kind.EqualsToken)) right

/-- Modelled from the spec: `NodeFactory.NewArrowFunction`. -/
def NewArrowFunction (modifiers typeParameters parameters : NodeList)
    (returnType fullSignature equalsGreaterThanToken body : Option Node) : Node :=
  .mk Kind.ArrowFunction NodeFlagsNone .unset
    (.Other [.list modifiers, .list typeParameters, .list parameters, .node returnType,
      .node fullSignature, .node equalsGreaterThanToken, .node body])

/-- Modelled from the spec: `NodeFactory.NewPropertyAssignment`. -/
def NewPropertyAssignment (modifiers : NodeList)
    (name postfixToken typeNode initializer : Option Node) : Node :=
  .mk Kind.PropertyAssignment NodeFlagsNone .unset
    (.Other [.list modifiers, .node name, .node postfixToken, .node typeNode,
      .node initializer])

/-- Modelled from the spec: `NodeFactory.NewParameterDeclaration`. -/
def NewParameterDeclaration (modifiers : NodeList)
    (dotDotDotToken name questionToken typeNode initializer : Option Node) : Node :=
  .mk Kind.Parameter NodeFlagsNone .unset
    (.Other [.list modifiers, .node dotDotDotToken, .node name, .node questionToken,
      .node typeNode, .node initializer])

/-- Modelled from the spec: `NodeFactory.NewObjectLiteralExpression`. -/
def NewObjectLiteralExpression (properties : NodeList) (multiLine : Bool) : Node :=
  .mk Kind.ObjectLiteralExpression NodeFlagsNone .unset
    (.ObjectLiteralExpression properties multiLine)

/-- Modelled from the spec: `NodeFactory.NewVariableDeclaration`. -/
def NewVariableDeclaration (name exclamationToken typeNode initializer : Option Node) : Node :=
  .mk Kind.VariableDeclaration NodeFlagsNone .unset
    (.Other [.node name, .node exclamationToken, .node typeNode, .node initializer])

/-- Modelled from the spec: `NodeFactory.NewVariableDeclarationList`. -/
def NewVariableDeclarationList (flags : NodeFlags) (declarations : NodeList) : Node :=
  .mk Kind.VariableDeclarationList flags .unset (.Other [.list declarations])

/-- Modelled from the spec: `NodeFactory.NewVariableStatement`. -/
def NewVariableStatement (modifiers : NodeList) (declarationList : Option Node) : Node :=
  .mk Kind.VariableStatement NodeFlagsNone .unset
    (.Other [.list modifiers, .node declarationList])

/-! ## Ordered set of captured names -/

/-- Modelled from the spec: `collections.OrderedSet[string]` is declared
outside `utilities.go`; by the spec it is an insertion-ordered set of distinct
names, here the list of its values in insertion order. -/
structure OrderedSet where
  values : List String
deriving DecidableEq, Repr

/-- Modelled from the spec: `OrderedSet.Add`, which appends a name that is not
yet in the set and leaves the set alone otherwise. -/
def OrderedSet.Add (set : OrderedSet) (name : String) : OrderedSet :=
  if name ∈ set.values then set else ⟨set.values ++ [name]⟩

/-- Modelled from the spec: `OrderedSet.Values`, the names in insertion order. -/
def OrderedSet.Values (set : OrderedSet) : List String :=
  set.values

/-! ## The super-access state -/

/-- Modelled from the spec: the node factory a state points to
(`*printer.NodeFactory`).  The factory functions above are pure, so only the
identity of the factory is kept. -/
structure NodeFactory where
  id : Nat
deriving DecidableEq, Repr

/-- The state `superAccessState`.  The field `superAccessVisitor` is the
visitor built from `visitSuperAccessNode` by `initSuperAccessVisitor`; it is
the recursion of the visitor functions below and holds no data. -/
structure superAccessState where
  factory : NodeFactory
  capturedSuperProperties : Option OrderedSet
  hasSuperElementAccess : Bool
  hasSuperPropertyAssignment : Bool
  superBinding : Option Node
  superIndexBinding : Option Node

/-- The function `createSuperElementAccessInAsyncMethod`: `_superIndex(x)`, or
`_superIndex(x).value` when a super property assignment was seen. -/
def createSuperElementAccessInAsyncMethod (s : superAccessState)
    (argumentExpression : Option Node) : Node :=
  let superIndexCall := NewCallExpression s.superIndexBinding none none
    (NewNodeList [argumentExpression]) NodeFlagsNone
  if s.hasSuperPropertyAssignment then
    NewPropertyAccessExpression (some superIndexCall) none (some (NewIdentifier "value"))
      NodeFlagsNone
  else
    superIndexCall

/-! ## Node visitor and substitution

Modelled from the spec (section 4.1): the visitor functions `VisitNode`,
`VisitNodes` and `VisitEachChild` are declared outside `utilities.go`.  They apply
the rewrite function to one node, to the nodes of a list, and to all children
of a node in source order, and rebuild the node around the results, keeping
its kind, flags and span.  `VisitEachChild` works on the data of the node, as
the per-type `VisitEachChild` methods do. -/

mutual
/-- The function `visitSuperAccessNode`: replaces super property and element
accesses by references to the bindings, and does not enter non-arrow function
scopes or classes. -/
def visitSuperAccessNode (s : superAccessState) : Node → Except Fatal Node
  | .mk kind flags loc data =>
    match kind with
    | .CallExpression =>
      match data with
      | .CallExpression expression _ _ _ => do
        if (← IsSuperProperty expression) then
          substituteCallExpressionWithSuperAccess s kind flags loc data
        else
          VisitEachChild s kind flags loc data
      | _ => throw Fatal.abort
    | .PropertyAccessExpression =>
      match data with
      | .PropertyAccessExpression expression _ name => do
        if (← kindOf expression) = Kind.SuperKeyword then
          -- super.x → _super.x
          return NewPropertyAccessExpression s.superBinding none name NodeFlagsNone
        else
          VisitEachChild s kind flags loc data
      | _ => throw Fatal.abort
    | .ElementAccessExpression =>
      match data with
      | .ElementAccessExpression expression _ argumentExpression => do
        if (← kindOf expression) = Kind.SuperKeyword then
          -- super[x] → _superIndex(x) or _superIndex(x).value
          return createSuperElementAccessInAsyncMethod s argumentExpression
        else
          VisitEachChild s kind flags loc data
      | _ => throw Fatal.abort
    -- Don't recurse into non-arrow function scopes or classes
    | .FunctionExpression | .FunctionDeclaration | .MethodDeclaration | .GetAccessor
    | .SetAccessor | .Constructor | .ClassDeclaration | .ClassExpression =>
      return .mk kind flags loc data
    | _ => VisitEachChild s kind flags loc data
/-- The function `substituteCallExpressionWithSuperAccess`, which handles
`super.x(args)` and `super[x](args)`; `kind`, `flags` and `loc` are those of
the call node and `data` is the call. -/
def substituteCallExpressionWithSuperAccess (s : superAccessState) (kind : Kind)
    (flags : NodeFlags) (loc : TextRange) : NodeData → Except Fatal Node
  | .CallExpression expression questionDotToken typeArguments arguments => do
    if (← IsPropertyAccessExpression expression) then
      -- super.x(args) → _super.x.call(this, args)
      let name ← match expression with
        | some (.mk _ _ _ (.PropertyAccessExpression _ _ name)) => pure name
        | _ => throw Fatal.abort
      let target := NewPropertyAccessExpression s.superBinding none name NodeFlagsNone
      let callTarget := NewPropertyAccessExpression (some target) none
        (some (NewIdentifier "call")) NodeFlagsNone
      let visitedArgs ← VisitNodes s arguments
      let allArgs := [some NewThisExpression] ++ (visitedArgs.getD [])
      let result := NewCallExpression (some callTarget) none none (NewNodeList allArgs)
        NodeFlagsNone
      return result.setLoc loc
    else if (← IsElementAccessExpression expression) then
      -- super[x](args) → _superIndex(x).call(this, args) or _superIndex(x).value.call(this, args)
      let argumentExpression ← match expression with
        | some (.mk _ _ _ (.ElementAccessExpression _ _ argumentExpression)) =>
          pure argumentExpression
        | _ => throw Fatal.abort
      let target := createSuperElementAccessInAsyncMethod s argumentExpression
      let callTarget := NewPropertyAccessExpression (some target) none
        (some (NewIdentifier "call")) NodeFlagsNone
      let visitedArgs ← VisitNodes s arguments
      let allArgs := [some NewThisExpression] ++ (visitedArgs.getD [])
      let result := NewCallExpression (some callTarget) none none (NewNodeList allArgs)
        NodeFlagsNone
      return result.setLoc loc
    else
      -- visitor.VisitEachChild(call.AsNode())
      return .mk kind flags loc (.CallExpression (← VisitNode s expression)
        (← VisitNode s questionDotToken) (← VisitNodes s typeArguments)
        (← VisitNodes s arguments))
  | _ => throw Fatal.abort
/-- Modelled from the spec: `NodeVisitor.VisitEachChild`, which visits every
child of a node in source order and rebuilds the node around the results. -/
def VisitEachChild (s : superAccessState) (kind : Kind) (flags : NodeFlags)
    (loc : TextRange) : NodeData → Except Fatal Node
  | .Token => return .mk kind flags loc .Token
  | .Identifier text => return .mk kind flags loc (.Identifier text)
  | .StringLiteral text => return .mk kind flags loc (.StringLiteral text)
  | .NumericLiteral text => return .mk kind flags loc (.NumericLiteral text)
  | .PropertyAccessExpression expression questionDotToken name =>
    return .mk kind flags loc (.PropertyAccessExpression (← VisitNode s expression)
      (← VisitNode s questionDotToken) (← VisitNode s name))
  | .ElementAccessExpression expression questionDotToken argumentExpression =>
    return .mk kind flags loc (.ElementAccessExpression (← VisitNode s expression)
      (← VisitNode s questionDotToken) (← VisitNode s argumentExpression))
  | .CallExpression expression questionDotToken typeArguments arguments =>
    return .mk kind flags loc (.CallExpression (← VisitNode s expression)
      (← VisitNode s questionDotToken) (← VisitNodes s typeArguments)
      (← VisitNodes s arguments))
  | .BinaryExpression modifiers left typeNode operatorToken right =>
    return .mk kind flags loc (.BinaryExpression (← VisitNodes s modifiers)
      (← VisitNode s left) (← VisitNode s typeNode) (← VisitNode s operatorToken)
      (← VisitNode s right))
  | .PrefixUnaryExpression operator operand =>
    return .mk kind flags loc (.PrefixUnaryExpression operator (← VisitNode s operand))
  | .PostfixUnaryExpression operand operator =>
    return .mk kind flags loc (.PostfixUnaryExpression (← VisitNode s operand) operator)
  | .ObjectLiteralExpression properties multiLine =>
    return .mk kind flags loc (.ObjectLiteralExpression (← VisitNodes s properties) multiLine)
  | .Other slots => return .mk kind flags loc (.Other (← visitSlots s slots))
/-- Modelled from the spec: `NodeVisitor.VisitNode`, which applies the rewrite
function to a node and returns a nil pointer as it is. -/
def VisitNode (s : superAccessState) : Option Node → Except Fatal (Option Node)
  | none => return none
  | some node => return some (← visitSuperAccessNode s node)
/-- Modelled from the spec: `NodeVisitor.VisitNodes`, which visits the nodes of
a list and returns a nil list as it is. -/
def VisitNodes (s : superAccessState) :
    Option (List (Option Node)) → Except Fatal (Option (List (Option Node)))
  | none => return none
  | some nodes => return some (← visitSlice s nodes)
/-- Modelled from the spec: the visitor applied to each node of a slice, from
left to right; the rewrite function dereferences its argument, so a nil
element is fatal. -/
def visitSlice (s : superAccessState) :
    List (Option Node) → Except Fatal (List (Option Node))
  | [] => return []
  | none :: _ => throw Fatal.abort
  | some node :: rest => do
    let visited ← visitSuperAccessNode s node
    let visitedRest ← visitSlice s rest
    return some visited :: visitedRest
/-- Modelled from the spec: the visitor applied to one child slot, a step of
`VisitEachChild`. -/
def visitSlot (s : superAccessState) : Slot → Except Fatal Slot
  | .node n => return .node (← VisitNode s n)
  | .list ns => return .list (← VisitNodes s ns)
/-- Modelled from the spec: the visitor applied to the child slots of a node,
in source order, a step of `VisitEachChild`. -/
def visitSlots (s : superAccessState) : List Slot → Except Fatal (List Slot)
  | [] => return []
  | slot :: rest => do
    let visited ← visitSlot s slot
    let visitedRest ← visitSlots s rest
    return visited :: visitedRest
end

/-- The function `substituteSuperAccessesInBody`. -/
def substituteSuperAccessesInBody (s : superAccessState) (body : Option Node) :
    Except Fatal (Option Node) :=
  VisitNode s body

/-! ## The accessor declaration -/

/-- The descriptor properties built for one captured name in the loop of
`createSuperAccessVariableStatement`: the getter `get: () => super.name` and,
when a super property assignment was seen, the setter `set: v => super.name = v`. -/
def descriptorProperties (s : superAccessState) (name : String) : List (Option Node) :=
  -- getter: get: () => super.name
  let getterBody := NewPropertyAccessExpression (some (NewKeywordExpression Kind.SuperKeyword))
    none (some (NewIdentifier name)) NodeFlagsNone
  let getterArrow := NewArrowFunction none none (NewNodeList []) none none
    (some (NewToken Kind.EqualsGreaterThanToken)) (some getterBody)
  let getter := NewPropertyAssignment none (some (NewIdentifier "get")) none none
    (some getterArrow)
  if s.hasSuperPropertyAssignment then
    -- setter: set: v => super.name = v
    let vParam := NewParameterDeclaration none none (some (NewIdentifier "v")) none none none
    let superProp := NewPropertyAccessExpression (some (NewKeywordExpression Kind.SuperKeyword))
      none (some (NewIdentifier name)) NodeFlagsNone
    let assignExpr := NewAssignmentExpression (some superProp) (some (NewIdentifier "v"))
    let setterArrow := NewArrowFunction none none (NewNodeList [some vParam]) none none
      (some (NewToken Kind.EqualsGreaterThanToken)) (some assignExpr)
    let setter := NewPropertyAssignment none (some (NewIdentifier "set")) none none
      (some setterArrow)
    [some getter, some setter]
  else
    [some getter]

/-- The accessor built for one captured name in the loop of
`createSuperAccessVariableStatement`: `name: descriptor`. -/
def accessorFor (s : superAccessState) (name : String) : Node :=
  let descriptor := NewObjectLiteralExpression (NewNodeList (descriptorProperties s name)) false
  NewPropertyAssignment none (some (NewIdentifier name)) none none (some descriptor)

/-- The function `createSuperAccessVariableStatement`: the statement
`const _super = Object.create(null, descriptors)` with one accessor per
captured name.  Ranging over the values of a nil set is fatal. -/
def createSuperAccessVariableStatement (s : superAccessState) : Except Fatal Node := do
  let captured ← match s.capturedSuperProperties with
    | none => throw Fatal.abort
    | some set => pure set
  let accessors := captured.Values.map (fun name => some (accessorFor s name))
  let descriptorsObject := NewObjectLiteralExpression (NewNodeList accessors) true
  let objectCreateCall := NewCallExpression
    (some (NewPropertyAccessExpression (some (NewIdentifier "Object")) none
      (some (NewIdentifier "create")) NodeFlagsNone))
    none none
    (NewNodeList [some (NewKeywordExpression Kind.NullKeyword), some descriptorsObject])
    NodeFlagsNone
  let decl := NewVariableDeclaration s.superBinding none none (some objectCreateCall)
  let declList := NewVariableDeclarationList NodeFlagsConst (NewNodeList [some decl])
  return NewVariableStatement none (some declList)

/-! ## Tracking -/

/-- Modelled from the spec: `ast.IsAssignmentOperator` is declared outside
`utilities.go`; it holds of the assignment operator tokens, `=` and the
compound assignments. -/
def IsAssignmentOperator : Kind → Bool
  | .EqualsToken | .PlusEqualsToken | .MinusEqualsToken | .AsteriskEqualsToken
  | .AsteriskAsteriskEqualsToken | .SlashEqualsToken | .PercentEqualsToken
  | .LessThanLessThanEqualsToken | .GreaterThanGreaterThanEqualsToken
  | .GreaterThanGreaterThanGreaterThanEqualsToken | .AmpersandEqualsToken | .BarEqualsToken
  | .BarBarEqualsToken | .AmpersandAmpersandEqualsToken | .QuestionQuestionEqualsToken
  | .CaretEqualsToken => true
  | _ => false

/-- Modelled from the spec: `isUpdateExpression` is declared outside `utilities.go`;
it holds of a prefix or postfix unary expression whose operator is `++` or
`--` (an increment or decrement). -/
def isUpdateExpression : Node → Bool
  | .mk _ _ _ (.PrefixUnaryExpression .PlusPlusToken _) => true
  | .mk _ _ _ (.PrefixUnaryExpression .MinusMinusToken _) => true
  | .mk _ _ _ (.PostfixUnaryExpression _ .PlusPlusToken) => true
  | .mk _ _ _ (.PostfixUnaryExpression _ .MinusMinusToken) => true
  | _ => false

/-- The function `trackSuperAccess`, returning the state after the call.  The
helper `assignmentTargetContainsSuperProperty` is declared outside `utilities.go`
and is a parameter. -/
def trackSuperAccess (assignmentTargetContainsSuperProperty : Option Node → Bool)
    (s : superAccessState) (node : Node) : Except Fatal superAccessState :=
  match s.capturedSuperProperties with
  | none => return s
  | some captured =>
    match node with
    | .mk kind _ _ data =>
      match kind with
      | .PropertyAccessExpression =>
        match data with
        | .PropertyAccessExpression expression _ name => do
          if (← kindOf expression) = Kind.SuperKeyword then
            let text ← textOf name
            return { s with capturedSuperProperties := some (captured.Add text) }
          else
            return s
        | _ => throw Fatal.abort
      | .ElementAccessExpression =>
        match data with
        | .ElementAccessExpression expression _ _ => do
          if (← kindOf expression) = Kind.SuperKeyword then
            return { s with hasSuperElementAccess := true }
          else
            return s
        | _ => throw Fatal.abort
      | .BinaryExpression =>
        match data with
        | .BinaryExpression _ left _ operatorToken _ => do
          if IsAssignmentOperator (← kindOf operatorToken)
              && assignmentTargetContainsSuperProperty left then
            return { s with hasSuperPropertyAssignment := true }
          else
            return s
        | _ => throw Fatal.abort
      | .PrefixUnaryExpression =>
        if isUpdateExpression node then
          match data with
          | .PrefixUnaryExpression _ operand =>
            if assignmentTargetContainsSuperProperty operand then
              return { s with hasSuperPropertyAssignment := true }
            else
              return s
          | _ => throw Fatal.abort
        else
          return s
      | .PostfixUnaryExpression =>
        if isUpdateExpression node then
          match data with
          | .PostfixUnaryExpression operand _ =>
            if assignmentTargetContainsSuperProperty operand then
              return { s with hasSuperPropertyAssignment := true }
            else
              return s
          | _ => throw Fatal.abort
        else
          return s
      | _ => return s

/-- The scan of a sequence of nodes: `trackSuperAccess` called on each node in
turn, the state threaded through. -/
def trackAll (assignmentTargetContainsSuperProperty : Option Node → Bool) :
    superAccessState → List Node → Except Fatal superAccessState
  | s, [] => return s
  | s, node :: rest => do
    let next ← trackSuperAccess assignmentTargetContainsSuperProperty s node
    trackAll assignmentTargetContainsSuperProperty next rest

/-- A state at the start of an async body: an empty captured set, both flags
off, and the two bindings allocated. -/
def freshState (factory : NodeFactory) (superBinding superIndexBinding : Option Node) :
    superAccessState :=
  { factory := factory
    capturedSuperProperties := some ⟨[]⟩
    hasSuperElementAccess := false
    hasSuperPropertyAssignment := false
    superBinding := superBinding
    superIndexBinding := superIndexBinding }

/-! ## The not-null condition -/

/-- Modelled from the spec: `NodeFactory.NewNumericLiteral`. -/
def NewNumericLiteral (text : String) : Node :=
  .mk Kind.NumericLiteral NodeFlagsNone .unset (.NumericLiteral text)

/-- Modelled from the spec: `NodeFactory.NewVoidExpression`. -/
def NewVoidExpression (expression : Option Node) : Node :=
  .mk Kind.VoidExpression NodeFlagsNone .unset (.Other [.node expression])

/-- Modelled from the spec: `NodeFactory.NewVoidZeroExpression`, the expression
`void 0`. -/
def NewVoidZeroExpression : Node :=
  NewVoidExpression (some (NewNumericLiteral "0"))

/-- The function `createNotNullCondition`.  The emit context only supplies the
factory. -/
def createNotNullCondition (left right : Option Node) (invert : Bool) : Node :=
  let token := if invert then Kind.EqualsEqualsEqualsToken else Kind.ExclamationEqualsEqualsToken
  let op := if invert then Kind.BarBarToken else Kind.AmpersandAmpersandToken
  NewBinaryExpression none
    (some (NewBinaryExpression none left none (some (NewToken token))
      (some (NewKeywordExpression Kind.NullKeyword))))
    none (some (NewToken op))
    (some (NewBinaryExpression none right none (some (NewToken token))
      (some NewVoidZeroExpression)))

/-! ## The emit context and the class conversion -/

/-- Modelled from the spec (sections 2, 3 and 4.4): the emit context
(`printer.EmitContext`) is declared outside `utilities.go`; it owns the table
of original-node links, from a synthesized node to the node it replaces.  The
table is the list of the registrations, the newest first.  It is keyed by node
identity; nodes being values here, a registration is kept under the value the
node has when it is returned. -/
structure EmitContext where
  original : List (Node × Node)

/-- Modelled from the spec (section 4.4): `EmitContext.SetOriginal`, which
registers an original-node link; a later registration for the same node
prevails. -/
def EmitContext.SetOriginal (emitContext : EmitContext) (node original : Node) : EmitContext :=
  ⟨(node, original) :: emitContext.original⟩

/-- Modelled from the spec: the class declaration node type
(`ast.ClassDeclaration`) is declared outside `utilities.go`; it has modifiers, a
name, type parameters, heritage clauses and members. -/
structure ClassDeclaration where
  Flags : NodeFlags
  Loc : TextRange
  Modifiers : NodeList
  Name : Option Node
  TypeParameters : NodeList
  HeritageClauses : NodeList
  Members : NodeList

/-- Modelled from the spec: `ClassDeclaration.AsNode`, the declaration as a
node. -/
def ClassDeclaration.AsNode (node : ClassDeclaration) : Node :=
  .mk Kind.ClassDeclaration node.Flags node.Loc
    (.Other [.list node.Modifiers, .node node.Name, .list node.TypeParameters,
      .list node.HeritageClauses, .list node.Members])

/-- Modelled from the spec: `NodeFactory.NewClassExpression`. -/
def NewClassExpression (modifiers : NodeList) (name : Option Node)
    (typeParameters heritageClauses members : NodeList) : Node :=
  .mk Kind.ClassExpression NodeFlagsNone .unset
    (.Other [.list modifiers, .node name, .list typeParameters, .list heritageClauses,
      .list members])

/-- Modelled from the spec: modifier flags (`ast.ModifierFlags`) are declared
outside `utilities.go`; a set of bits in an unsigned 32-bit integer, one bit
for each modifier. -/
abbrev ModifierFlags := Nat

/-- Modelled from the spec: the empty set of modifier flags,
`ast.ModifierFlagsNone`. -/
def ModifierFlagsNone : ModifierFlags := 0

/-- Modelled from the spec: the flag of the modifier `export`,
`ast.ModifierFlagsExport`. -/
def ModifierFlagsExport : ModifierFlags := 1 <<< 5

/-- Modelled from the spec: the flag of the modifier `default`,
`ast.ModifierFlagsDefault`. -/
def ModifierFlagsDefault : ModifierFlags := 1 <<< 11

/-- Modelled from the spec: `ast.ModifierFlagsExportDefault`, the flags of
`export` and `default` together. -/
def ModifierFlagsExportDefault : ModifierFlags :=
  ModifierFlagsExport ||| ModifierFlagsDefault

/-- The operator `^` of Go on modifier flags: the bitwise complement of an
unsigned 32-bit integer. -/
def ModifierFlags.complement (flags : ModifierFlags) : ModifierFlags :=
  (flags ^^^ (2 ^ 32 - 1)) % 2 ^ 32

/-- Modelled from the spec: `ast.ModifierToFlag` is declared outside
`utilities.go`; it gives the flag of a modifier by its kind, and the empty set
for a kind that is not a modifier. -/
def ModifierToFlag : Kind → ModifierFlags
  | .PublicKeyword => 1 <<< 0
  | .PrivateKeyword => 1 <<< 1
  | .ProtectedKeyword => 1 <<< 2
  | .ReadonlyKeyword => 1 <<< 3
  | .OverrideKeyword => 1 <<< 4
  | .ExportKeyword => ModifierFlagsExport
  | .AbstractKeyword => 1 <<< 6
  | .DeclareKeyword => 1 <<< 7
  | .StaticKeyword => 1 <<< 8
  | .AccessorKeyword => 1 <<< 9
  | .AsyncKeyword => 1 <<< 10
  | .DefaultKeyword => ModifierFlagsDefault
  | .ConstKeyword => 1 <<< 12
  | .InKeyword => 1 <<< 13
  | .OutKeyword => 1 <<< 14
  | .Decorator => 1 <<< 15
  | _ => ModifierFlagsNone

/-- The function `convertClassDeclarationToClassExpression`, returning the
class expression and the emit context after the call.  The parameter
`ExtractModifiers` stands for `transformers.ExtractModifiers`, which is
declared outside `utilities.go`; it is called with the emit context, the
modifiers of the declaration and the mask `^ast.ModifierFlagsExportDefault`.
The link is registered for the node `updated`, whose identity the assignment
of the span does not change, so it is entered under the node as it is
returned. -/
def convertClassDeclarationToClassExpression
    (ExtractModifiers : EmitContext → NodeList → ModifierFlags → NodeList)
    (emitContext : EmitContext) (node : ClassDeclaration) : Node × EmitContext :=
  let updated := NewClassExpression
    (ExtractModifiers emitContext node.Modifiers
      (ModifierFlags.complement ModifierFlagsExportDefault))
    node.Name node.TypeParameters node.HeritageClauses node.Members
  let updated := updated.setLoc node.Loc
  (updated, emitContext.SetOriginal updated node.AsNode)

/-! ## Notions used to state the properties -/

/-- The eight kinds at which `visitSuperAccessNode` stops: non-arrow function
scopes and classes. -/
def isScopeBoundary : Kind → Bool
  | .FunctionExpression | .FunctionDeclaration | .MethodDeclaration | .GetAccessor
  | .SetAccessor | .Constructor | .ClassDeclaration | .ClassExpression => true
  | _ => false

/-- The nodes a node list points to, in order. -/
def listChildren (ns : Option (List (Option Node))) : List Node :=
  (ns.getD []).filterMap id

/-- The nodes a child slot points to, in order. -/
def Slot.children : Slot → List Node
  | .node n => n.toList
  | .list ns => listChildren ns

/-- The children of a node given by its data, in source order. -/
def NodeData.children : NodeData → List Node
  | .Token => []
  | .Identifier _ => []
  | .StringLiteral _ => []
  | .NumericLiteral _ => []
  | .PropertyAccessExpression expression questionDotToken name =>
    expression.toList ++ questionDotToken.toList ++ name.toList
  | .ElementAccessExpression expression questionDotToken argumentExpression =>
    expression.toList ++ questionDotToken.toList ++ argumentExpression.toList
  | .CallExpression expression questionDotToken typeArguments arguments =>
    expression.toList ++ questionDotToken.toList ++ listChildren typeArguments
      ++ listChildren arguments
  | .BinaryExpression modifiers left typeNode operatorToken right =>
    listChildren modifiers ++ left.toList ++ typeNode.toList ++ operatorToken.toList
      ++ right.toList
  | .PrefixUnaryExpression _ operand => operand.toList
  | .PostfixUnaryExpression operand _ => operand.toList
  | .ObjectLiteralExpression properties _ => listChildren properties
  | .Other slots => slots.flatMap Slot.children

/-- The children of a node, in source order. -/
def Node.children (n : Node) : List Node :=
  n.data.children

/-- The subtree at a position, a position being the list of child indices that
lead to it from the root. -/
def subtreeAt : Node → List Nat → Option Node
  | n, [] => some n
  | n, i :: rest =>
    match n.children[i]? with
    | none => none
    | some child => subtreeAt child rest

/-- A property access whose expression is the `super` keyword (`super.x`). -/
def isSuperPropertyAccess : Node → Bool
  | .mk .PropertyAccessExpression _ _
      (.PropertyAccessExpression (some (.mk .SuperKeyword _ _ _)) _ _) => true
  | _ => false

/-- An element access whose expression is the `super` keyword (`super[x]`). -/
def isSuperElementAccess : Node → Bool
  | .mk .ElementAccessExpression _ _
      (.ElementAccessExpression (some (.mk .SuperKeyword _ _ _)) _ _) => true
  | _ => false

/-- A call whose callee is a property or element access on `super`
(`super.x(...)`, `super[x](...)`). -/
def isSuperCall : Node → Bool
  | .mk .CallExpression _ _ (.CallExpression (some callee) _ _ _) =>
    isSuperPropertyAccess callee || isSuperElementAccess callee
  | _ => false

/-- The nodes `visitSuperAccessNode` replaces by a newly built node. -/
def isSuperAccessSite (n : Node) : Bool :=
  isSuperPropertyAccess n || isSuperElementAccess n || isSuperCall n

/-- No node strictly above the position is replaced by the substitution. -/
def keptAbove : Node → List Nat → Bool
  | _, [] => true
  | n, i :: rest =>
    !isSuperAccessSite n &&
      match n.children[i]? with
      | none => true
      | some child => keptAbove child rest

mutual
/-- The nodes of a tree in source order, the root first, without entering the
nodes whose kind satisfies `stop`. -/
def nodesOf (stop : Kind → Bool) : Node → List Node
  | .mk kind flags loc data =>
    .mk kind flags loc data :: (if stop kind then [] else dataNodes stop data)
/-- The nodes below a node with the given data. -/
def dataNodes (stop : Kind → Bool) : NodeData → List Node
  | .Token => []
  | .Identifier _ => []
  | .StringLiteral _ => []
  | .NumericLiteral _ => []
  | .PropertyAccessExpression expression questionDotToken name =>
    pointerNodes stop expression ++ pointerNodes stop questionDotToken ++ pointerNodes stop name
  | .ElementAccessExpression expression questionDotToken argumentExpression =>
    pointerNodes stop expression ++ pointerNodes stop questionDotToken
      ++ pointerNodes stop argumentExpression
  | .CallExpression expression questionDotToken typeArguments arguments =>
    pointerNodes stop expression ++ pointerNodes stop questionDotToken
      ++ listNodes stop typeArguments ++ listNodes stop arguments
  | .BinaryExpression modifiers left typeNode operatorToken right =>
    listNodes stop modifiers ++ pointerNodes stop left ++ pointerNodes stop typeNode
      ++ pointerNodes stop operatorToken ++ pointerNodes stop right
  | .PrefixUnaryExpression _ operand => pointerNodes stop operand
  | .PostfixUnaryExpression operand _ => pointerNodes stop operand
  | .ObjectLiteralExpression properties _ => listNodes stop properties
  | .Other slots => slotsNodes stop slots
/-- The nodes of the tree a pointer leads to. -/
def pointerNodes (stop : Kind → Bool) : Option Node → List Node
  | none => []
  | some n => nodesOf stop n
/-- The nodes of the trees of a node list. -/
def listNodes (stop : Kind → Bool) : Option (List (Option Node)) → List Node
  | none => []
  | some ns => sliceNodes stop ns
/-- The nodes of the trees of a slice. -/
def sliceNodes (stop : Kind → Bool) : List (Option Node) → List Node
  | [] => []
  | n :: rest => pointerNodes stop n ++ sliceNodes stop rest
/-- The nodes of the trees of a child slot. -/
def slotNodes (stop : Kind → Bool) : Slot → List Node
  | .node n => pointerNodes stop n
  | .list ns => listNodes stop ns
/-- The nodes of the trees of a list of child slots. -/
def slotsNodes (stop : Kind → Bool) : List Slot → List Node
  | [] => []
  | slot :: rest => slotNodes stop slot ++ slotsNodes stop rest
end

/-- Every node of a tree. -/
def allNodes (n : Node) : List Node :=
  nodesOf (fun _ => false) n

/-- The nodes of a body that belong to its own scope: those not inside a nested
non-arrow function, method, accessor, constructor or class. -/
def scopeNodes (n : Node) : List Node :=
  nodesOf isScopeBoundary n

/-- The kind that goes with node data of a specific node type. -/
def NodeData.kind? : NodeData → Option Kind
  | .Token => none
  | .Identifier _ => some .Identifier
  | .StringLiteral _ => some .StringLiteral
  | .NumericLiteral _ => some .NumericLiteral
  | .PropertyAccessExpression _ _ _ => some .PropertyAccessExpression
  | .ElementAccessExpression _ _ _ => some .ElementAccessExpression
  | .CallExpression _ _ _ _ => some .CallExpression
  | .BinaryExpression _ _ _ _ _ => some .BinaryExpression
  | .PrefixUnaryExpression _ _ => some .PrefixUnaryExpression
  | .PostfixUnaryExpression _ _ => some .PostfixUnaryExpression
  | .ObjectLiteralExpression _ _ => some .ObjectLiteralExpression
  | .Other _ => none

/-- The kinds whose data has a constructor of its own in `NodeData`. -/
def hasOwnData : Kind → Bool
  | .Identifier | .StringLiteral | .NumericLiteral | .PropertyAccessExpression
  | .ElementAccessExpression | .CallExpression | .BinaryExpression
  | .PrefixUnaryExpression | .PostfixUnaryExpression | .ObjectLiteralExpression => true
  | _ => false

/-- A node list without nil elements. -/
def noNilElement (ns : Option (List (Option Node))) : Bool :=
  (ns.getD []).all Option.isSome

/-- The pointer leads to a node that carries text, an identifier or a literal. -/
def hasText (node : Option Node) : Bool :=
  match textOf node with
  | .ok _ => true
  | .error _ => false

/-- The children the grammar requires are present, the name of a property
access is a node with text, and no node list has a nil element. -/
def NodeData.requiredPresent : NodeData → Bool
  | .Token => true
  | .Identifier _ => true
  | .StringLiteral _ => true
  | .NumericLiteral _ => true
  | .PropertyAccessExpression expression _ name => expression.isSome && hasText name
  | .ElementAccessExpression expression _ argumentExpression =>
    expression.isSome && argumentExpression.isSome
  | .CallExpression expression _ typeArguments arguments =>
    expression.isSome && noNilElement typeArguments && noNilElement arguments
  | .BinaryExpression modifiers left _ operatorToken right =>
    noNilElement modifiers && left.isSome && operatorToken.isSome && right.isSome
  | .PrefixUnaryExpression _ operand => operand.isSome
  | .PostfixUnaryExpression operand _ => operand.isSome
  | .ObjectLiteralExpression properties _ => noNilElement properties
  | .Other slots => slots.all (fun slot =>
      match slot with
      | .node _ => true
      | .list ns => noNilElement ns)

/-- A node as the parser builds it: the data is of the node type its kind names
and the required children are present. -/
def Node.wellBuilt (n : Node) : Bool :=
  (match n.data.kind? with
    | some kind => decide (n.Kind = kind)
    | none => !hasOwnData n.Kind)
  && n.data.requiredPresent

/-- A well-formed tree: every node of it is as the parser builds it. -/
def wellFormed (n : Node) : Bool :=
  (allNodes n).all Node.wellBuilt

/-! ## The node visitor for an arbitrary rewrite function

Modelled from the spec (section 4.1): the visitor is generic in the rewrite
function.  The functions of the substitution above are these, taken at
`visitSuperAccessNode` (theorems `VisitNode_eq` to `VisitEachChild_eq`). -/

namespace NodeVisitor

/-- Modelled from the spec: `NodeVisitor.VisitNode` for the rewrite function
`visit`. -/
def VisitNode (visit : Node → Except Fatal Node) : Option Node → Except Fatal (Option Node)
  | none => return none
  | some node => return some (← visit node)

/-- Modelled from the spec: the visitor applied to each node of a slice. -/
def visitSlice (visit : Node → Except Fatal Node) :
    List (Option Node) → Except Fatal (List (Option Node))
  | [] => return []
  | none :: _ => throw Fatal.abort
  | some node :: rest => do
    let visited ← visit node
    let visitedRest ← visitSlice visit rest
    return some visited :: visitedRest

/-- Modelled from the spec: `NodeVisitor.VisitNodes` for the rewrite function
`visit`. -/
def VisitNodes (visit : Node → Except Fatal Node) :
    Option (List (Option Node)) → Except Fatal (Option (List (Option Node)))
  | none => return none
  | some nodes => return some (← visitSlice visit nodes)

/-- Modelled from the spec: the visitor applied to one child slot, a step of
`VisitEachChild`. -/
def visitSlot (visit : Node → Except Fatal Node) : Slot → Except Fatal Slot
  | .node n => return .node (← VisitNode visit n)
  | .list ns => return .list (← VisitNodes visit ns)

/-- Modelled from the spec: the visitor applied to the child slots of a node,
in source order, a step of `VisitEachChild`. -/
def visitSlots (visit : Node → Except Fatal Node) : List Slot → Except Fatal (List Slot)
  | [] => return []
  | slot :: rest => do
    let visited ← visitSlot visit slot
    let visitedRest ← visitSlots visit rest
    return visited :: visitedRest

/-- Modelled from the spec: `NodeVisitor.VisitEachChild` for the rewrite
function `visit`. -/
def VisitEachChild (visit : Node → Except Fatal Node) : Node → Except Fatal Node
  | .mk kind flags loc data =>
    match data with
    | .Token => return .mk kind flags loc .Token
    | .Identifier text => return .mk kind flags loc (.Identifier text)
    | .StringLiteral text => return .mk kind flags loc (.StringLiteral text)
    | .NumericLiteral text => return .mk kind flags loc (.NumericLiteral text)
    | .PropertyAccessExpression expression questionDotToken name =>
      return .mk kind flags loc (.PropertyAccessExpression (← VisitNode visit expression)
        (← VisitNode visit questionDotToken) (← VisitNode visit name))
    | .ElementAccessExpression expression questionDotToken argumentExpression =>
      return .mk kind flags loc (.ElementAccessExpression (← VisitNode visit expression)
        (← VisitNode visit questionDotToken) (← VisitNode visit argumentExpression))
    | .CallExpression expression questionDotToken typeArguments arguments =>
      return .mk kind flags loc (.CallExpression (← VisitNode visit expression)
        (← VisitNode visit questionDotToken) (← VisitNodes visit typeArguments)
        (← VisitNodes visit arguments))
    | .BinaryExpression modifiers left typeNode operatorToken right =>
      return .mk kind flags loc (.BinaryExpression (← VisitNodes visit modifiers)
        (← VisitNode visit left) (← VisitNode visit typeNode) (← VisitNode visit operatorToken)
        (← VisitNode visit right))
    | .PrefixUnaryExpression operator operand =>
      return .mk kind flags loc (.PrefixUnaryExpression operator (← VisitNode visit operand))
    | .PostfixUnaryExpression operand operator =>
      return .mk kind flags loc (.PostfixUnaryExpression (← VisitNode visit operand) operator)
    | .ObjectLiteralExpression properties multiLine =>
      return .mk kind flags loc
        (.ObjectLiteralExpression (← VisitNodes visit properties) multiLine)
    | .Other slots => return .mk kind flags loc (.Other (← visitSlots visit slots))

end NodeVisitor

/-! ## Notions used to state the properties of the scan and of the declaration -/

/-- A tree has a property or element access on `super` in its own scope, that
is, outside nested non-arrow functions, methods, accessors, constructors and
classes. -/
def containsSuperAccess (n : Node) : Bool :=
  (scopeNodes n).any (fun m => isSuperPropertyAccess m || isSuperElementAccess m)

/-- The name the scan records at a node: the text of the name of a property
access on `super`, and nothing at any other node. -/
def superPropertyName : Node → Option String
  | .mk .PropertyAccessExpression _ _
      (.PropertyAccessExpression (some (.mk .SuperKeyword _ _ _)) _ name) =>
    match textOf name with
    | .ok text => some text
    | .error _ => none
  | _ => none

/-- The distinct elements of a list, each at the place of its first
occurrence. -/
def firstOccurrences : List String → List String
  | [] => []
  | x :: rest => x :: (firstOccurrences rest).filter (fun y => y != x)

/-- A write to a super property: an assignment whose left side, or a prefix or
postfix `++` or `--` whose operand, contains a super property according to
`contains`. -/
def isSuperWrite (contains : Option Node → Bool) : Node → Bool
  | .mk .BinaryExpression _ _ (.BinaryExpression _ left _ (some operatorToken) _) =>
    IsAssignmentOperator operatorToken.Kind && contains left
  | .mk .PrefixUnaryExpression _ _ (.PrefixUnaryExpression .PlusPlusToken operand) =>
    contains operand
  | .mk .PrefixUnaryExpression _ _ (.PrefixUnaryExpression .MinusMinusToken operand) =>
    contains operand
  | .mk .PostfixUnaryExpression _ _ (.PostfixUnaryExpression operand .PlusPlusToken) =>
    contains operand
  | .mk .PostfixUnaryExpression _ _ (.PostfixUnaryExpression operand .MinusMinusToken) =>
    contains operand
  | _ => false

/-- The descriptor property `get: () => super.name`. -/
def expectedGetter (name : String) : Node :=
  NewPropertyAssignment none (some (NewIdentifier "get")) none none
    (some (NewArrowFunction none none (NewNodeList []) none none
      (some (NewToken Kind.EqualsGreaterThanToken))
      (some (NewPropertyAccessExpression (some (NewKeywordExpression Kind.SuperKeyword)) none
        (some (NewIdentifier name)) NodeFlagsNone))))

/-- The descriptor property `set: v => super.name = v`. -/
def expectedSetter (name : String) : Node :=
  NewPropertyAssignment none (some (NewIdentifier "set")) none none
    (some (NewArrowFunction none none
      (NewNodeList [some (NewParameterDeclaration none none (some (NewIdentifier "v")) none
        none none)])
      none none (some (NewToken Kind.EqualsGreaterThanToken))
      (some (NewBinaryExpression none
        (some (NewPropertyAccessExpression (some (NewKeywordExpression Kind.SuperKeyword)) none
          (some (NewIdentifier name)) NodeFlagsNone))
        none (some (NewToken Kind.EqualsToken)) (some (NewIdentifier "v"))))))

/-- The property `name: descriptor` of the accessor object, the descriptor
being the object literal of the given properties. -/
def expectedAccessor (name : String) (descriptor : List Node) : Node :=
  NewPropertyAssignment none (some (NewIdentifier name)) none none
    (some (NewObjectLiteralExpression (NewNodeList (descriptor.map some)) false))

/-- The statement `const binding = Object.create(null, accessors)`, the second
argument being the object literal of the given properties. -/
def expectedDeclaration (binding : Option Node) (accessors : List Node) : Node :=
  NewVariableStatement none (some (NewVariableDeclarationList NodeFlagsConst
    (NewNodeList [some (NewVariableDeclaration binding none none
      (some (NewCallExpression
        (some (NewPropertyAccessExpression (some (NewIdentifier "Object")) none
          (some (NewIdentifier "create")) NodeFlagsNone))
        none none
        (NewNodeList [some (NewKeywordExpression Kind.NullKeyword),
          some (NewObjectLiteralExpression (NewNodeList (accessors.map some)) true)])
        NodeFlagsNone)))])))

/-! ## Example trees

Trees as the parser builds them, with spans, and the states used with them. -/

/-- The node `n` at the span from `pos` to `stop`. -/
def spanned (pos stop : Nat) (n : Node) : Node :=
  n.setLoc (.range pos stop)

/-- The keyword `super`. -/
def exampleSuper (pos : Nat) : Node :=
  spanned pos (pos + 5) (NewKeywordExpression Kind.SuperKeyword)

/-- The identifier `name`. -/
def exampleName (pos stop : Nat) (name : String) : Node :=
  spanned pos stop (NewIdentifier name)

/-- The property access `super.name`. -/
def exampleSuperDot (pos stop : Nat) (name : String) : Node :=
  spanned pos stop (NewPropertyAccessExpression (some (exampleSuper pos)) none
    (some (exampleName (pos + 6) stop name)) NodeFlagsNone)

/-- The element access `super[argument]`. -/
def exampleSuperIndex (pos stop : Nat) (argument : Node) : Node :=
  .mk Kind.ElementAccessExpression NodeFlagsNone (.range pos stop)
    (.ElementAccessExpression (some (exampleSuper pos)) none (some argument))

/-- The call `callee(arguments)`. -/
def exampleCall (pos stop : Nat) (callee : Node) (arguments : List Node) : Node :=
  spanned pos stop (NewCallExpression (some callee) none none
    (NewNodeList (arguments.map some)) NodeFlagsNone)

/-- The expression statement `expression;`. -/
def exampleStatement (pos stop : Nat) (expression : Node) : Node :=
  .mk Kind.ExpressionStatement NodeFlagsNone (.range pos stop) (.Other [.node (some expression)])

/-- The statement `return expression;`. -/
def exampleReturn (pos stop : Nat) (expression : Node) : Node :=
  .mk Kind.ReturnStatement NodeFlagsNone (.range pos stop) (.Other [.node (some expression)])

/-- The block of the given statements. -/
def exampleBlock (pos stop : Nat) (statements : List Node) : Node :=
  .mk Kind.Block NodeFlagsNone (.range pos stop) (.Other [.list (some (statements.map some))])

/-- The function expression `function () body`, its slots being modifiers,
asterisk token, name, type parameters, parameters, return type, full
signature and body. -/
def exampleFunction (pos stop : Nat) (body : Node) : Node :=
  .mk Kind.FunctionExpression NodeFlagsNone (.range pos stop)
    (.Other [.list none, .node none, .node none, .list none, .list (some []), .node none,
      .node none, .node (some body)])

/-- The arrow function `() => body`. -/
def exampleArrow (pos stop : Nat) (body : Node) : Node :=
  spanned pos stop (NewArrowFunction none none (NewNodeList []) none none
    (some (NewToken Kind.EqualsGreaterThanToken)) (some body))

/-- A state with both bindings allocated, `_super` and `_superIndex`. -/
def exampleState (hasSuperPropertyAssignment : Bool) : superAccessState :=
  { freshState ⟨0⟩ (some (NewIdentifier "_super")) (some (NewIdentifier "_superIndex")) with
    hasSuperPropertyAssignment := hasSuperPropertyAssignment }

/-- The nested function `function () { super.b; }`. -/
def exampleNestedFunction : Node :=
  exampleFunction 10 36 (exampleBlock 22 36 [exampleStatement 24 34 (exampleSuperDot 24 31 "b")])

/-- The body `{ super.a; function () { super.b; } }`. -/
def exampleBodyWithFunction : Node :=
  exampleBlock 0 38 [exampleStatement 2 10 (exampleSuperDot 2 9 "a"), exampleNestedFunction]

/-- The numeric literal `text`. -/
def exampleNumber (pos stop : Nat) (text : String) : Node :=
  .mk Kind.NumericLiteral NodeFlagsNone (.range pos stop) (.NumericLiteral text)

/-- The string literal `text`. -/
def exampleString (pos stop : Nat) (text : String) : Node :=
  .mk Kind.StringLiteral NodeFlagsNone (.range pos stop) (.StringLiteral text)

/-- The expression `super[super.x]`. -/
def exampleIndexBySuper : Node :=
  exampleSuperIndex 0 14 (exampleSuperDot 6 13 "x")

/-- The expression `super[super.y](1)`. -/
def exampleCallIndexBySuper : Node :=
  exampleCall 0 17 (exampleSuperIndex 0 14 (exampleSuperDot 6 13 "y")) [exampleNumber 15 16 "1"]

/-- The call `super.m(a, super.y)`. -/
def exampleSuperMethodCall : Node :=
  exampleCall 0 21 (exampleSuperDot 0 7 "m") [exampleName 8 9 "a", exampleSuperDot 11 18 "y"]

/-- The assignment `left = right`. -/
def exampleAssignment (pos stop : Nat) (left right : Node) : Node :=
  .mk Kind.BinaryExpression NodeFlagsNone (.range pos stop)
    (.BinaryExpression none (some left) none (some (NewToken Kind.EqualsToken)) (some right))

/-- The sum `left + right`. -/
def exampleSum (pos stop : Nat) (left right : Node) : Node :=
  .mk Kind.BinaryExpression NodeFlagsNone (.range pos stop)
    (.BinaryExpression none (some left) none (some (NewToken Kind.PlusToken)) (some right))

/-- The update `operand++`. -/
def exampleIncrement (pos stop : Nat) (operand : Node) : Node :=
  .mk Kind.PostfixUnaryExpression NodeFlagsNone (.range pos stop)
    (.PostfixUnaryExpression (some operand) Kind.PlusPlusToken)

/-- The statements `super.x = 5; super.x++; super["y"];`. -/
def exampleScanStatements : List Node :=
  [exampleStatement 0 12 (exampleAssignment 0 11 (exampleSuperDot 0 7 "x")
      (exampleNumber 10 11 "5")),
    exampleStatement 13 23 (exampleIncrement 13 22 (exampleSuperDot 13 20 "x")),
    exampleStatement 24 35 (exampleSuperIndex 24 34 (exampleString 30 33 "y"))]

/-- An implementation of `assignmentTargetContainsSuperProperty` used in the
examples: the target is itself a property or element access on `super`. -/
def exampleTargetTest : Option Node → Bool
  | some n => isSuperPropertyAccess n || isSuperElementAccess n
  | none => false

/-- The nodes `super.b`, `super.a`, `super.b`, in the order of a scan. -/
def exampleReads : List Node :=
  [exampleSuperDot 0 7 "b", exampleSuperDot 10 17 "a", exampleSuperDot 20 27 "b"]

/-- The body `{ super.x = 5; return super.x + super["y"](1); }`. -/
def exampleEndToEndBody : Node :=
  exampleBlock 0 48
    [exampleStatement 2 14 (exampleAssignment 2 13 (exampleSuperDot 2 9 "x")
        (exampleNumber 12 13 "5")),
      exampleReturn 15 46 (exampleSum 22 45 (exampleSuperDot 22 29 "x")
        (exampleCall 32 45 (exampleSuperIndex 32 42 (exampleString 38 41 "y"))
          [exampleNumber 43 44 "1"]))]

/-- The body `{ acc.x = 5; return acc.x + idx("y").value.call(this, 1); }`,
the nodes kept from `exampleEndToEndBody` at their spans and the nodes built
by the substitution without a span, but for the call, which has the span of
the call it replaces. -/
def exampleEndToEndResult (acc idx : Node) : Node :=
  exampleBlock 0 48
    [exampleStatement 2 14 (exampleAssignment 2 13
        (NewPropertyAccessExpression (some acc) none (some (exampleName 8 9 "x")) NodeFlagsNone)
        (exampleNumber 12 13 "5")),
      exampleReturn 15 46 (exampleSum 22 45
        (NewPropertyAccessExpression (some acc) none (some (exampleName 28 29 "x"))
          NodeFlagsNone)
        (spanned 32 45 (NewCallExpression
          (some (NewPropertyAccessExpression
            (some (NewPropertyAccessExpression
              (some (NewCallExpression (some idx) none none
                (NewNodeList [some (exampleString 38 41 "y")]) NodeFlagsNone))
              none (some (NewIdentifier "value")) NodeFlagsNone))
            none (some (NewIdentifier "call")) NodeFlagsNone))
          none none
          (NewNodeList [some NewThisExpression, some (exampleNumber 43 44 "1")])
          NodeFlagsNone)))]

/-- The body `{ super.a; function () { super["q"]; } }`: a read of a named
super property, and an element access on `super` only inside a nested
function. -/
def exampleReadsBody : Node :=
  exampleBlock 0 42 [exampleStatement 2 10 (exampleSuperDot 2 9 "a"),
    exampleFunction 11 40 (exampleBlock 23 40
      [exampleStatement 25 38 (exampleSuperIndex 25 37 (exampleString 31 34 "q"))])]

/-- A state whose index binding is not allocated and whose assignment flag is
on. -/
def exampleStateWithoutIndex : superAccessState :=
  { freshState ⟨0⟩ (some (NewIdentifier "_super")) none with
    hasSuperPropertyAssignment := true }

/-! ## Notions for the not-null condition and the class conversion -/

/-- The binary expression `left operator right` as the factory builds it. -/
def binaryOf (operator : Kind) (left right : Option Node) : Node :=
  .mk Kind.BinaryExpression NodeFlagsNone .unset
    (.BinaryExpression none left none (some (.mk operator NodeFlagsNone .unset .Token)) right)

/-- The keyword `null`. -/
def nullKeyword : Node :=
  .mk Kind.NullKeyword NodeFlagsNone .unset .Token

/-- The expression `void 0`. -/
def voidZero : Node :=
  .mk Kind.VoidExpression NodeFlagsNone .unset
    (.Other [.node (some (.mk Kind.NumericLiteral NodeFlagsNone .unset (.NumericLiteral "0")))])

/-- The truth value of a strict comparison `left === right` or
`left !== right`, where `same left right` tells whether the two operands are
strictly equal; `none` for any other node. -/
def comparisonValue (same : Option Node → Option Node → Bool) : Option Node → Option Bool
  | some (.mk .BinaryExpression _ _
      (.BinaryExpression _ left _ (some (.mk .EqualsEqualsEqualsToken _ _ _)) right)) =>
    some (same left right)
  | some (.mk .BinaryExpression _ _
      (.BinaryExpression _ left _ (some (.mk .ExclamationEqualsEqualsToken _ _ _)) right)) =>
    some (!same left right)
  | _ => none

/-- The truth value of a conjunction `a && b` or a disjunction `a || b` of two
strict comparisons; `none` for any other node. -/
def conditionValue (same : Option Node → Option Node → Bool) : Node → Option Bool
  | .mk .BinaryExpression _ _
      (.BinaryExpression _ left _ (some (.mk .AmpersandAmpersandToken _ _ _)) right) => do
    let a ← comparisonValue same left
    let b ← comparisonValue same right
    return a && b
  | .mk .BinaryExpression _ _
      (.BinaryExpression _ left _ (some (.mk .BarBarToken _ _ _)) right) => do
    let a ← comparisonValue same left
    let b ← comparisonValue same right
    return a || b
  | _ => none

/-- A modifier other than `export` and `default`. -/
def isKeptModifier (modifier : Node) : Bool :=
  !(decide (modifier.Kind = Kind.ExportKeyword) || decide (modifier.Kind = Kind.DefaultKeyword))

/-- A node of a modifier list passes the mask `allowed`: it is not a modifier,
or its flag is one of the allowed flags. -/
def isAllowedModifier (allowed : ModifierFlags) (modifier : Node) : Bool :=
  ModifierToFlag modifier.Kind == ModifierFlagsNone
    || (ModifierToFlag modifier.Kind &&& allowed) != 0

/-- An implementation of `ExtractModifiers` used in the examples: the list
without the modifiers that do not pass the mask, the others in their order. -/
def exampleExtractModifiers (_ : EmitContext) (modifiers : NodeList) (allowed : ModifierFlags) :
    NodeList :=
  modifiers.map (fun list => list.filter (fun modifier =>
    match modifier with
    | some m => isAllowedModifier allowed m
    | none => true))

/-- The original-node link of `node` in the emit context is `original`: the
newest registration for `node` names `original`. -/
def EmitContext.linked (emitContext : EmitContext) (node original : Node) : Prop :=
  ∃ newer older, emitContext.original = newer ++ (node, original) :: older
    ∧ ∀ entry ∈ newer, entry.1 ≠ node

/-- The modifier `export`, `default` or, for any other kind, the modifier of
that kind. -/
def exampleModifier (kind : Kind) (pos stop : Nat) : Node :=
  spanned pos stop (NewToken kind)

/-- The declaration `export default abstract class C {}`. -/
def exampleClassDeclaration : ClassDeclaration :=
  { Flags := NodeFlagsNone
    Loc := .range 0 34
    Modifiers := some [some (exampleModifier Kind.ExportKeyword 0 6),
      some (exampleModifier Kind.DefaultKeyword 7 14),
      some (exampleModifier Kind.AbstractKeyword 15 23)]
    Name := some (spanned 30 31 (NewIdentifier "C"))
    TypeParameters := none
    HeritageClauses := none
    Members := some [] }

/-- An emit context with one earlier registration. -/
def exampleEmitContext : EmitContext :=
  ⟨[(NewIdentifier "_a", spanned 3 4 (NewIdentifier "a"))]⟩

/-- A state outside an async method: the captured set is nil. -/
def exampleStateOutsideAsync : superAccessState :=
  { exampleState false with capturedSuperProperties := none }

/-- The call `(argument)` whose callee is absent. -/
def callWithoutCallee (argument : Option Node) : Node :=
  .mk Kind.CallExpression NodeFlagsNone .unset
    (.CallExpression none none none (some [argument]))

/-! ## The substitution as the visitor of the emit context runs it

Modelled from the spec (sections 3, 4.1 and 4.4): the node visitor is created
by the emit context (`emitContext.NewNodeVisitor`) and is declared outside
`utilities.go`.  It skips a subtree whose cached transform flags show nothing to
rewrite, and the emit context registers original-node links for the nodes the
visitor rebuilds.  Both are parameters here: `prune` tells which subtrees are
skipped, `onUpdate updated original` gives the links registered when
`VisitEachChild` has rebuilt `original` as `updated`.  The functions below are
those of the substitution above, returning in addition the links registered
on the way, the newest first. -/

/-- Original-node links, from a node to the node it replaces, the newest
first. -/
abbrev Links := List (Node × Node)

/-- Modelled from the spec: what the visitor of the emit context adds to the
traversal, the subtrees it skips and the links it registers for a rebuilt
node. -/
structure VisitorHooks where
  prune : Node → Bool
  onUpdate : Node → Node → Links

namespace EmitVisitor

/-- The node `updated` rebuilt from `original`, with the links registered for
it put before the links registered at its children. -/
def rebuilt (hooks : VisitorHooks) (original updated : Node) (links : Links) : Node × Links :=
  (updated, hooks.onUpdate updated original ++ links)

mutual
/-- The function `visitSuperAccessNode`, with the links registered. -/
def visitSuperAccessNode (hooks : VisitorHooks) (s : superAccessState) :
    Node → Except Fatal (Node × Links)
  | .mk kind flags loc data =>
    match kind with
    | .CallExpression =>
      match data with
      | .CallExpression expression _ _ _ => do
        if (← IsSuperProperty expression) then
          substituteCallExpressionWithSuperAccess hooks s kind flags loc data
        else
          VisitEachChild hooks s kind flags loc data
      | _ => throw Fatal.abort
    | .PropertyAccessExpression =>
      match data with
      | .PropertyAccessExpression expression _ name => do
        if (← kindOf expression) = Kind.SuperKeyword then
          -- super.x → _super.x
          return (NewPropertyAccessExpression s.superBinding none name NodeFlagsNone, [])
        else
          VisitEachChild hooks s kind flags loc data
      | _ => throw Fatal.abort
    | .ElementAccessExpression =>
      match data with
      | .ElementAccessExpression expression _ argumentExpression => do
        if (← kindOf expression) = Kind.SuperKeyword then
          -- super[x] → _superIndex(x) or _superIndex(x).value
          return (createSuperElementAccessInAsyncMethod s argumentExpression, [])
        else
          VisitEachChild hooks s kind flags loc data
      | _ => throw Fatal.abort
    -- Don't recurse into non-arrow function scopes or classes
    | .FunctionExpression | .FunctionDeclaration | .MethodDeclaration | .GetAccessor
    | .SetAccessor | .Constructor | .ClassDeclaration | .ClassExpression =>
      return (.mk kind flags loc data, [])
    | _ => VisitEachChild hooks s kind flags loc data
/-- The function `substituteCallExpressionWithSuperAccess`, with the links
registered. -/
def substituteCallExpressionWithSuperAccess (hooks : VisitorHooks) (s : superAccessState)
    (kind : Kind) (flags : NodeFlags) (loc : TextRange) : NodeData → Except Fatal (Node × Links)
  | .CallExpression expression questionDotToken typeArguments arguments => do
    if (← IsPropertyAccessExpression expression) then
      -- super.x(args) → _super.x.call(this, args)
      let name ← match expression with
        | some (.mk _ _ _ (.PropertyAccessExpression _ _ name)) => pure name
        | _ => throw Fatal.abort
      let target := NewPropertyAccessExpression s.superBinding none name NodeFlagsNone
      let callTarget := NewPropertyAccessExpression (some target) none
        (some (NewIdentifier "call")) NodeFlagsNone
      let visitedArgs ← VisitNodes hooks s arguments
      let allArgs := [some NewThisExpression] ++ (visitedArgs.1.getD [])
      let result := NewCallExpression (some callTarget) none none (NewNodeList allArgs)
        NodeFlagsNone
      return (result.setLoc loc, visitedArgs.2)
    else if (← IsElementAccessExpression expression) then
      -- super[x](args) → _superIndex(x).call(this, args) or _superIndex(x).value.call(this, args)
      let argumentExpression ← match expression with
        | some (.mk _ _ _ (.ElementAccessExpression _ _ argumentExpression)) =>
          pure argumentExpression
        | _ => throw Fatal.abort
      let target := createSuperElementAccessInAsyncMethod s argumentExpression
      let callTarget := NewPropertyAccessExpression (some target) none
        (some (NewIdentifier "call")) NodeFlagsNone
      let visitedArgs ← VisitNodes hooks s arguments
      let allArgs := [some NewThisExpression] ++ (visitedArgs.1.getD [])
      let result := NewCallExpression (some callTarget) none none (NewNodeList allArgs)
        NodeFlagsNone
      return (result.setLoc loc, visitedArgs.2)
    else do
      -- visitor.VisitEachChild(call.AsNode())
      let expression2 ← VisitNode hooks s expression
      let questionDotToken2 ← VisitNode hooks s questionDotToken
      let typeArguments2 ← VisitNodes hooks s typeArguments
      let arguments2 ← VisitNodes hooks s arguments
      return rebuilt hooks
        (.mk kind flags loc (.CallExpression expression questionDotToken typeArguments arguments))
        (.mk kind flags loc
          (.CallExpression expression2.1 questionDotToken2.1 typeArguments2.1 arguments2.1))
        (arguments2.2 ++ typeArguments2.2 ++ questionDotToken2.2 ++ expression2.2)
  | _ => throw Fatal.abort
/-- Modelled from the spec: `NodeVisitor.VisitEachChild`, with the links
registered. -/
def VisitEachChild (hooks : VisitorHooks) (s : superAccessState) (kind : Kind)
    (flags : NodeFlags) (loc : TextRange) : NodeData → Except Fatal (Node × Links)
  | .Token => return (.mk kind flags loc .Token, [])
  | .Identifier text => return (.mk kind flags loc (.Identifier text), [])
  | .StringLiteral text => return (.mk kind flags loc (.StringLiteral text), [])
  | .NumericLiteral text => return (.mk kind flags loc (.NumericLiteral text), [])
  | .PropertyAccessExpression expression questionDotToken name => do
    let expression2 ← VisitNode hooks s expression
    let questionDotToken2 ← VisitNode hooks s questionDotToken
    let name2 ← VisitNode hooks s name
    return rebuilt hooks
      (.mk kind flags loc (.PropertyAccessExpression expression questionDotToken name))
      (.mk kind flags loc
        (.PropertyAccessExpression expression2.1 questionDotToken2.1 name2.1))
      (name2.2 ++ questionDotToken2.2 ++ expression2.2)
  | .ElementAccessExpression expression questionDotToken argumentExpression => do
    let expression2 ← VisitNode hooks s expression
    let questionDotToken2 ← VisitNode hooks s questionDotToken
    let argumentExpression2 ← VisitNode hooks s argumentExpression
    return rebuilt hooks
      (.mk kind flags loc
        (.ElementAccessExpression expression questionDotToken argumentExpression))
      (.mk kind flags loc
        (.ElementAccessExpression expression2.1 questionDotToken2.1 argumentExpression2.1))
      (argumentExpression2.2 ++ questionDotToken2.2 ++ expression2.2)
  | .CallExpression expression questionDotToken typeArguments arguments => do
    let expression2 ← VisitNode hooks s expression
    let questionDotToken2 ← VisitNode hooks s questionDotToken
    let typeArguments2 ← VisitNodes hooks s typeArguments
    let arguments2 ← VisitNodes hooks s arguments
    return rebuilt hooks
      (.mk kind flags loc (.CallExpression expression questionDotToken typeArguments arguments))
      (.mk kind flags loc
        (.CallExpression expression2.1 questionDotToken2.1 typeArguments2.1 arguments2.1))
      (arguments2.2 ++ typeArguments2.2 ++ questionDotToken2.2 ++ expression2.2)
  | .BinaryExpression modifiers left typeNode operatorToken right => do
    let modifiers2 ← VisitNodes hooks s modifiers
    let left2 ← VisitNode hooks s left
    let typeNode2 ← VisitNode hooks s typeNode
    let operatorToken2 ← VisitNode hooks s operatorToken
    let right2 ← VisitNode hooks s right
    return rebuilt hooks
      (.mk kind flags loc (.BinaryExpression modifiers left typeNode operatorToken right))
      (.mk kind flags loc
        (.BinaryExpression modifiers2.1 left2.1 typeNode2.1 operatorToken2.1 right2.1))
      (right2.2 ++ operatorToken2.2 ++ typeNode2.2 ++ left2.2 ++ modifiers2.2)
  | .PrefixUnaryExpression operator operand => do
    let operand2 ← VisitNode hooks s operand
    return rebuilt hooks (.mk kind flags loc (.PrefixUnaryExpression operator operand))
      (.mk kind flags loc (.PrefixUnaryExpression operator operand2.1)) operand2.2
  | .PostfixUnaryExpression operand operator => do
    let operand2 ← VisitNode hooks s operand
    return rebuilt hooks (.mk kind flags loc (.PostfixUnaryExpression operand operator))
      (.mk kind flags loc (.PostfixUnaryExpression operand2.1 operator)) operand2.2
  | .ObjectLiteralExpression properties multiLine => do
    let properties2 ← VisitNodes hooks s properties
    return rebuilt hooks (.mk kind flags loc (.ObjectLiteralExpression properties multiLine))
      (.mk kind flags loc (.ObjectLiteralExpression properties2.1 multiLine)) properties2.2
  | .Other slots => do
    let slots2 ← visitSlots hooks s slots
    return rebuilt hooks (.mk kind flags loc (.Other slots))
      (.mk kind flags loc (.Other slots2.1)) slots2.2
/-- Modelled from the spec: `NodeVisitor.VisitNode`; a subtree that `prune`
marks is returned as it is, without a call of the rewrite function. -/
def VisitNode (hooks : VisitorHooks) (s : superAccessState) :
    Option Node → Except Fatal (Option Node × Links)
  | none => return (none, [])
  | some node =>
    if hooks.prune node then
      return (some node, [])
    else do
      let visited ← visitSuperAccessNode hooks s node
      return (some visited.1, visited.2)
/-- Modelled from the spec: `NodeVisitor.VisitNodes`, with the links
registered. -/
def VisitNodes (hooks : VisitorHooks) (s : superAccessState) :
    Option (List (Option Node)) → Except Fatal (Option (List (Option Node)) × Links)
  | none => return (none, [])
  | some nodes => do
    let visited ← visitSlice hooks s nodes
    return (some visited.1, visited.2)
/-- Modelled from the spec: the visitor applied to each node of a slice, from
left to right; an element that `prune` marks is kept as it is. -/
def visitSlice (hooks : VisitorHooks) (s : superAccessState) :
    List (Option Node) → Except Fatal (List (Option Node) × Links)
  | [] => return ([], [])
  | none :: _ => throw Fatal.abort
  | some node :: rest =>
    if hooks.prune node then do
      let visitedRest ← visitSlice hooks s rest
      return (some node :: visitedRest.1, visitedRest.2)
    else do
      let visited ← visitSuperAccessNode hooks s node
      let visitedRest ← visitSlice hooks s rest
      return (some visited.1 :: visitedRest.1, visitedRest.2 ++ visited.2)
/-- Modelled from the spec: the visitor applied to one child slot, a step of
`VisitEachChild`. -/
def visitSlot (hooks : VisitorHooks) (s : superAccessState) : Slot → Except Fatal (Slot × Links)
  | .node n => do
    let visited ← VisitNode hooks s n
    return (.node visited.1, visited.2)
  | .list ns => do
    let visited ← VisitNodes hooks s ns
    return (.list visited.1, visited.2)
/-- Modelled from the spec: the visitor applied to the child slots of a node,
in source order, a step of `VisitEachChild`. -/
def visitSlots (hooks : VisitorHooks) (s : superAccessState) :
    List Slot → Except Fatal (List Slot × Links)
  | [] => return ([], [])
  | slot :: rest => do
    let visited ← visitSlot hooks s slot
    let visitedRest ← visitSlots hooks s rest
    return (visited.1 :: visitedRest.1, visitedRest.2 ++ visited.2)
end

/-- The function `substituteSuperAccessesInBody`, returning the tree and the
emit context after the traversal. -/
def substituteSuperAccessesInBody (hooks : VisitorHooks) (emitContext : EmitContext)
    (s : superAccessState) (body : Option Node) : Except Fatal (Option Node × EmitContext) := do
  let visited ← VisitNode hooks s body
  return (visited.1, ⟨visited.2 ++ emitContext.original⟩)

end EmitVisitor

/-- The visitor that skips nothing and registers a link for every node it
rebuilds. -/
def exampleHooks : VisitorHooks :=
  { prune := fun _ => false
    onUpdate := fun updated original => [(updated, original)] }

/-- The visitor that skips the subtrees without a property or element access on
`super`, and registers a link for every node it rebuilds. -/
def examplePruningHooks : VisitorHooks :=
  { prune := fun n => !(allNodes n).any (fun m => isSuperPropertyAccess m || isSuperElementAccess m)
    onUpdate := fun updated original => [(updated, original)] }

/-- No node strictly above the position is a scope boundary. -/
def openAbove : Node → List Nat → Bool
  | _, [] => true
  | n, i :: rest =>
    !isScopeBoundary n.Kind &&
      match n.children[i]? with
      | none => true
      | some child => openAbove child rest

/-- At the node, the traversal with the hooks returns the tree the rewrite
function returns, also when the visitor skips the node. -/
def sameTreeAt (hooks : VisitorHooks) (s : superAccessState) (c : Node) : Prop :=
  (hooks.prune c = true → visitSuperAccessNode s c = .ok c)
    ∧ (EmitVisitor.visitSuperAccessNode hooks s c).map Prod.fst = visitSuperAccessNode s c

/-- The body `{ super.a; return 1 + 2; }`, whose second statement has no super
access. -/
def examplePrunableBody : Node :=
  exampleBlock 0 28 [exampleStatement 2 10 (exampleSuperDot 2 9 "a"),
    exampleReturn 11 26 (exampleSum 18 25 (exampleNumber 18 19 "1") (exampleNumber 24 25 "2"))]

/-- The expression `() => super.x`. -/
def exampleArrowOfSuper : Node :=
  exampleArrow 6 19 (exampleSuperDot 12 19 "x")

/-- The expression `super[() => super.x]`. -/
def exampleIndexByArrow : Node :=
  exampleSuperIndex 0 20 exampleArrowOfSuper

/-- The node `_super.name`, the name being the node of the source at the
given span. -/
def exampleRewrittenDot (pos stop : Nat) (name : String) : Node :=
  NewPropertyAccessExpression (some (NewIdentifier "_super")) none
    (some (exampleName pos stop name)) NodeFlagsNone

/-- The call `super.m(function () { super.b; })`. -/
def exampleSuperCallWithFunction : Node :=
  exampleCall 0 38 (exampleSuperDot 0 7 "m") [exampleNestedFunction]

/-! # Theorems -/

/-! ## The monad of fatal errors -/

theorem bind_eq_ok {α β : Type} (x : Except Fatal α) (f : α → Except Fatal β) (b : β) :
    (x >>= f) = .ok b ↔ ∃ a, x = .ok a ∧ f a = .ok b := by
  cases x <;> simp [bind, Except.bind]

theorem pure_eq_ok {α : Type} (a b : α) : (pure a : Except Fatal α) = .ok b ↔ a = b := by
  simp [pure, Except.pure]

/-! ## The substitution is the generic visitor at `visitSuperAccessNode` -/

theorem VisitNode_eq (s : superAccessState) (n : Option Node) :
    VisitNode s n = NodeVisitor.VisitNode (visitSuperAccessNode s) n := by
  cases n <;> simp [VisitNode, NodeVisitor.VisitNode]

theorem visitSlice_eq (s : superAccessState) (ns : List (Option Node)) :
    visitSlice s ns = NodeVisitor.visitSlice (visitSuperAccessNode s) ns := by
  induction ns with
  | nil => simp [visitSlice, NodeVisitor.visitSlice]
  | cons n rest ih => cases n <;> simp [visitSlice, NodeVisitor.visitSlice, ih]

theorem VisitNodes_eq (s : superAccessState) (ns : Option (List (Option Node))) :
    VisitNodes s ns = NodeVisitor.VisitNodes (visitSuperAccessNode s) ns := by
  cases ns <;> simp [VisitNodes, NodeVisitor.VisitNodes, visitSlice_eq]

theorem visitSlot_eq (s : superAccessState) (slot : Slot) :
    visitSlot s slot = NodeVisitor.visitSlot (visitSuperAccessNode s) slot := by
  cases slot <;> simp [visitSlot, NodeVisitor.visitSlot, VisitNode_eq, VisitNodes_eq]

theorem visitSlots_eq (s : superAccessState) (slots : List Slot) :
    visitSlots s slots = NodeVisitor.visitSlots (visitSuperAccessNode s) slots := by
  induction slots with
  | nil => simp [visitSlots, NodeVisitor.visitSlots]
  | cons slot rest ih => simp [visitSlots, NodeVisitor.visitSlots, ih, visitSlot_eq]

theorem VisitEachChild_eq (s : superAccessState) (kind : Kind) (flags : NodeFlags)
    (loc : TextRange) (data : NodeData) :
    VisitEachChild s kind flags loc data
      = NodeVisitor.VisitEachChild (visitSuperAccessNode s) (.mk kind flags loc data) := by
  cases data <;>
    simp [VisitEachChild, NodeVisitor.VisitEachChild, VisitNode_eq, VisitNodes_eq, visitSlots_eq]

/-! ## The generic visitor and the children of a node -/

namespace NodeVisitor

theorem VisitNode_children {g : Node → Except Fatal Node} {o o2 : Option Node}
    (h : VisitNode g o = .ok o2) :
    List.Forall₂ (fun c c2 => g c = .ok c2) o.toList o2.toList := by
  cases o with
  | none =>
    simp only [VisitNode, pure_eq_ok] at h
    subst h
    exact List.Forall₂.nil
  | some n =>
    simp only [VisitNode, bind_eq_ok, pure_eq_ok] at h
    obtain ⟨n2, hn, rfl⟩ := h
    exact List.Forall₂.cons hn List.Forall₂.nil

theorem visitSlice_children {g : Node → Except Fatal Node} :
    ∀ {l l2 : List (Option Node)}, visitSlice g l = .ok l2 →
      List.Forall₂ (fun c c2 => g c = .ok c2) (l.filterMap id) (l2.filterMap id)
  | [], l2, h => by
    simp only [visitSlice, pure_eq_ok] at h
    subst h
    exact List.Forall₂.nil
  | none :: rest, l2, h => by
    simp [visitSlice, throw, throwThe, MonadExceptOf.throw] at h
  | some n :: rest, l2, h => by
    simp only [visitSlice, bind_eq_ok, pure_eq_ok] at h
    obtain ⟨n2, hn, rest2, hrest, rfl⟩ := h
    have hcons : List.Forall₂ (fun c c2 => g c = .ok c2)
        (n :: rest.filterMap id) (n2 :: rest2.filterMap id) :=
      List.Forall₂.cons hn (visitSlice_children hrest)
    simpa using hcons

theorem VisitNodes_children {g : Node → Except Fatal Node}
    {ns ns2 : Option (List (Option Node))} (h : VisitNodes g ns = .ok ns2) :
    List.Forall₂ (fun c c2 => g c = .ok c2) (listChildren ns) (listChildren ns2) := by
  cases ns with
  | none =>
    simp only [VisitNodes, pure_eq_ok] at h
    subst h
    exact List.Forall₂.nil
  | some l =>
    simp only [VisitNodes, bind_eq_ok, pure_eq_ok] at h
    obtain ⟨l2, hl, rfl⟩ := h
    exact visitSlice_children hl

theorem visitSlot_children {g : Node → Except Fatal Node} {slot slot2 : Slot}
    (h : visitSlot g slot = .ok slot2) :
    List.Forall₂ (fun c c2 => g c = .ok c2) slot.children slot2.children := by
  cases slot with
  | node n =>
    simp only [visitSlot, bind_eq_ok, pure_eq_ok] at h
    obtain ⟨n2, hn, rfl⟩ := h
    exact VisitNode_children hn
  | list ns =>
    simp only [visitSlot, bind_eq_ok, pure_eq_ok] at h
    obtain ⟨ns2, hns, rfl⟩ := h
    exact VisitNodes_children hns

theorem visitSlots_children {g : Node → Except Fatal Node} :
    ∀ {slots slots2 : List Slot}, visitSlots g slots = .ok slots2 →
      List.Forall₂ (fun c c2 => g c = .ok c2)
        (slots.flatMap Slot.children) (slots2.flatMap Slot.children)
  | [], slots2, h => by
    simp only [visitSlots, pure_eq_ok] at h
    subst h
    exact List.Forall₂.nil
  | slot :: rest, slots2, h => by
    simp only [visitSlots, bind_eq_ok, pure_eq_ok] at h
    obtain ⟨slot2, hslot, rest2, hrest, rfl⟩ := h
    simpa using List.rel_append (visitSlot_children hslot) (visitSlots_children hrest)

/-- The node `VisitEachChild` returns has the kind, flags and span of the node
it was given, and its children are the visited children, one for one. -/
theorem VisitEachChild_children {g : Node → Except Fatal Node} {n r : Node}
    (h : VisitEachChild g n = .ok r) :
    r.Kind = n.Kind ∧ r.Flags = n.Flags ∧ r.Loc = n.Loc ∧
      List.Forall₂ (fun c c2 => g c = .ok c2) n.children r.children := by
  obtain ⟨kind, flags, loc, data⟩ := n
  cases data with
  | Token =>
    simp only [VisitEachChild, pure_eq_ok] at h
    subst h
    exact ⟨rfl, rfl, rfl, List.Forall₂.nil⟩
  | Identifier t =>
    simp only [VisitEachChild, pure_eq_ok] at h
    subst h
    exact ⟨rfl, rfl, rfl, List.Forall₂.nil⟩
  | StringLiteral t =>
    simp only [VisitEachChild, pure_eq_ok] at h
    subst h
    exact ⟨rfl, rfl, rfl, List.Forall₂.nil⟩
  | NumericLiteral t =>
    simp only [VisitEachChild, pure_eq_ok] at h
    subst h
    exact ⟨rfl, rfl, rfl, List.Forall₂.nil⟩
  | PropertyAccessExpression e q nm =>
    simp only [VisitEachChild, bind_eq_ok, pure_eq_ok] at h
    obtain ⟨e2, he, q2, hq, nm2, hnm, rfl⟩ := h
    exact ⟨rfl, rfl, rfl, List.rel_append (List.rel_append (VisitNode_children he)
      (VisitNode_children hq)) (VisitNode_children hnm)⟩
  | ElementAccessExpression e q a =>
    simp only [VisitEachChild, bind_eq_ok, pure_eq_ok] at h
    obtain ⟨e2, he, q2, hq, a2, ha, rfl⟩ := h
    exact ⟨rfl, rfl, rfl, List.rel_append (List.rel_append (VisitNode_children he)
      (VisitNode_children hq)) (VisitNode_children ha)⟩
  | CallExpression e q ta args =>
    simp only [VisitEachChild, bind_eq_ok, pure_eq_ok] at h
    obtain ⟨e2, he, q2, hq, ta2, hta, args2, hargs, rfl⟩ := h
    exact ⟨rfl, rfl, rfl, List.rel_append (List.rel_append (List.rel_append
      (VisitNode_children he) (VisitNode_children hq)) (VisitNodes_children hta))
      (VisitNodes_children hargs)⟩
  | BinaryExpression m l t op r =>
    simp only [VisitEachChild, bind_eq_ok, pure_eq_ok] at h
    obtain ⟨m2, hm, l2, hl, t2, ht, op2, hop, r2, hr, rfl⟩ := h
    exact ⟨rfl, rfl, rfl, List.rel_append (List.rel_append (List.rel_append (List.rel_append
      (VisitNodes_children hm) (VisitNode_children hl)) (VisitNode_children ht))
      (VisitNode_children hop)) (VisitNode_children hr)⟩
  | PrefixUnaryExpression op operand =>
    simp only [VisitEachChild, bind_eq_ok, pure_eq_ok] at h
    obtain ⟨o2, ho, rfl⟩ := h
    exact ⟨rfl, rfl, rfl, VisitNode_children ho⟩
  | PostfixUnaryExpression operand op =>
    simp only [VisitEachChild, bind_eq_ok, pure_eq_ok] at h
    obtain ⟨o2, ho, rfl⟩ := h
    exact ⟨rfl, rfl, rfl, VisitNode_children ho⟩
  | ObjectLiteralExpression props ml =>
    simp only [VisitEachChild, bind_eq_ok, pure_eq_ok] at h
    obtain ⟨p2, hp, rfl⟩ := h
    exact ⟨rfl, rfl, rfl, VisitNodes_children hp⟩
  | Other slots =>
    simp only [VisitEachChild, bind_eq_ok, pure_eq_ok] at h
    obtain ⟨s2, hs, rfl⟩ := h
    exact ⟨rfl, rfl, rfl, visitSlots_children hs⟩

end NodeVisitor

namespace NodeVisitor

theorem VisitNode_congr {g1 g2 : Node → Except Fatal Node} {o : Option Node}
    (h : ∀ c ∈ o.toList, g1 c = g2 c) : VisitNode g1 o = VisitNode g2 o := by
  cases o with
  | none => rfl
  | some n => simp [VisitNode, h n (by simp)]

theorem visitSlice_congr {g1 g2 : Node → Except Fatal Node} :
    ∀ {l : List (Option Node)}, (∀ c ∈ l.filterMap id, g1 c = g2 c) →
      visitSlice g1 l = visitSlice g2 l
  | [], _ => rfl
  | none :: _, _ => rfl
  | some n :: rest, h => by
    have hrest : visitSlice g1 rest = visitSlice g2 rest :=
      visitSlice_congr (fun c hc => h c (by simp [hc]))
    simp [visitSlice, h n (by simp), hrest]

theorem VisitNodes_congr {g1 g2 : Node → Except Fatal Node}
    (ns : Option (List (Option Node))) (h : ∀ c ∈ listChildren ns, g1 c = g2 c) :
    VisitNodes g1 ns = VisitNodes g2 ns := by
  cases ns with
  | none => rfl
  | some l => simp [VisitNodes, visitSlice_congr (l := l) (by simpa [listChildren] using h)]

theorem visitSlot_congr {g1 g2 : Node → Except Fatal Node} {slot : Slot}
    (h : ∀ c ∈ slot.children, g1 c = g2 c) : visitSlot g1 slot = visitSlot g2 slot := by
  cases slot with
  | node n => simp [visitSlot, VisitNode_congr (o := n) (by simpa [Slot.children] using h)]
  | list ns => simp [visitSlot, VisitNodes_congr ns (by simpa [Slot.children] using h)]

theorem visitSlots_congr {g1 g2 : Node → Except Fatal Node} :
    ∀ (slots : List Slot), (∀ c ∈ slots.flatMap Slot.children, g1 c = g2 c) →
      visitSlots g1 slots = visitSlots g2 slots
  | [], _ => rfl
  | slot :: rest, h => by
    have hslot : visitSlot g1 slot = visitSlot g2 slot :=
      visitSlot_congr (fun c hc => h c (by simp [hc]))
    have hrest : visitSlots g1 rest = visitSlots g2 rest :=
      visitSlots_congr rest (fun c hc => h c (by
        simp only [List.flatMap_cons, List.mem_append]
        exact Or.inr hc))
    simp [visitSlots, hslot, hrest]

/-- The result of `VisitEachChild` depends on the rewrite function only through
its values at the children of the node. -/
theorem VisitEachChild_congr {g1 g2 : Node → Except Fatal Node} {n : Node}
    (h : ∀ c ∈ n.children, g1 c = g2 c) : VisitEachChild g1 n = VisitEachChild g2 n := by
  obtain ⟨kind, flags, loc, data⟩ := n
  cases data with
  | Token => rfl
  | Identifier t => rfl
  | StringLiteral t => rfl
  | NumericLiteral t => rfl
  | PropertyAccessExpression e q nm =>
    simp only [Node.children, Node.data, NodeData.children, List.mem_append] at h
    simp [VisitEachChild, VisitNode_congr (o := e) (fun c hc => h c (by simp [hc])),
      VisitNode_congr (o := q) (fun c hc => h c (by simp [hc])),
      VisitNode_congr (o := nm) (fun c hc => h c (by simp [hc]))]
  | ElementAccessExpression e q a =>
    simp only [Node.children, Node.data, NodeData.children, List.mem_append] at h
    simp [VisitEachChild, VisitNode_congr (o := e) (fun c hc => h c (by simp [hc])),
      VisitNode_congr (o := q) (fun c hc => h c (by simp [hc])),
      VisitNode_congr (o := a) (fun c hc => h c (by simp [hc]))]
  | CallExpression e q ta args =>
    simp only [Node.children, Node.data, NodeData.children, List.mem_append] at h
    simp [VisitEachChild, VisitNode_congr (o := e) (fun c hc => h c (by simp [hc])),
      VisitNode_congr (o := q) (fun c hc => h c (by simp [hc])),
      VisitNodes_congr ta (fun c hc => h c (by simp [hc])),
      VisitNodes_congr args (fun c hc => h c (by simp [hc]))]
  | BinaryExpression m l t op r =>
    simp only [Node.children, Node.data, NodeData.children, List.mem_append] at h
    simp [VisitEachChild, VisitNodes_congr m (fun c hc => h c (by simp [hc])),
      VisitNode_congr (o := l) (fun c hc => h c (by simp [hc])),
      VisitNode_congr (o := t) (fun c hc => h c (by simp [hc])),
      VisitNode_congr (o := op) (fun c hc => h c (by simp [hc])),
      VisitNode_congr (o := r) (fun c hc => h c (by simp [hc]))]
  | PrefixUnaryExpression op operand =>
    simp only [Node.children, Node.data, NodeData.children] at h
    simp [VisitEachChild, VisitNode_congr (o := operand) h]
  | PostfixUnaryExpression operand op =>
    simp only [Node.children, Node.data, NodeData.children] at h
    simp [VisitEachChild, VisitNode_congr (o := operand) h]
  | ObjectLiteralExpression props ml =>
    simp only [Node.children, Node.data, NodeData.children] at h
    simp [VisitEachChild, VisitNodes_congr props h]
  | Other slots =>
    simp only [Node.children, Node.data, NodeData.children] at h
    simp [VisitEachChild, visitSlots_congr slots h]

end NodeVisitor

/-! ## Induction over the children of a node -/

mutual
theorem induction_node {P : Node → Prop} (step : ∀ n : Node, (∀ c ∈ n.children, P c) → P n) :
    ∀ n : Node, P n
  | .mk kind flags loc data => step (.mk kind flags loc data) (induction_data step data)
theorem induction_data {P : Node → Prop} (step : ∀ n : Node, (∀ c ∈ n.children, P c) → P n) :
    ∀ data : NodeData, ∀ c ∈ data.children, P c
  | .Token, c, hc => by simp [NodeData.children] at hc
  | .Identifier _, c, hc => by simp [NodeData.children] at hc
  | .StringLiteral _, c, hc => by simp [NodeData.children] at hc
  | .NumericLiteral _, c, hc => by simp [NodeData.children] at hc
  | .PropertyAccessExpression e q nm, c, hc => by
    simp only [NodeData.children, List.mem_append] at hc
    rcases hc with (hc | hc) | hc
    · exact induction_pointer step e c hc
    · exact induction_pointer step q c hc
    · exact induction_pointer step nm c hc
  | .ElementAccessExpression e q a, c, hc => by
    simp only [NodeData.children, List.mem_append] at hc
    rcases hc with (hc | hc) | hc
    · exact induction_pointer step e c hc
    · exact induction_pointer step q c hc
    · exact induction_pointer step a c hc
  | .CallExpression e q ta args, c, hc => by
    simp only [NodeData.children, List.mem_append] at hc
    rcases hc with ((hc | hc) | hc) | hc
    · exact induction_pointer step e c hc
    · exact induction_pointer step q c hc
    · exact induction_list step ta c hc
    · exact induction_list step args c hc
  | .BinaryExpression m l t op r, c, hc => by
    simp only [NodeData.children, List.mem_append] at hc
    rcases hc with (((hc | hc) | hc) | hc) | hc
    · exact induction_list step m c hc
    · exact induction_pointer step l c hc
    · exact induction_pointer step t c hc
    · exact induction_pointer step op c hc
    · exact induction_pointer step r c hc
  | .PrefixUnaryExpression _ operand, c, hc => induction_pointer step operand c hc
  | .PostfixUnaryExpression operand _, c, hc => induction_pointer step operand c hc
  | .ObjectLiteralExpression props _, c, hc => induction_list step props c hc
  | .Other slots, c, hc => induction_slots step slots c hc
theorem induction_pointer {P : Node → Prop}
    (step : ∀ n : Node, (∀ c ∈ n.children, P c) → P n) :
    ∀ o : Option Node, ∀ c ∈ o.toList, P c
  | none, c, hc => by simp at hc
  | some n, c, hc => by
    simp only [Option.toList, List.mem_singleton] at hc
    exact hc ▸ induction_node step n
theorem induction_list {P : Node → Prop} (step : ∀ n : Node, (∀ c ∈ n.children, P c) → P n) :
    ∀ ns : Option (List (Option Node)), ∀ c ∈ listChildren ns, P c
  | none, c, hc => by simp [listChildren] at hc
  | some l, c, hc => induction_slice step l c hc
theorem induction_slice {P : Node → Prop} (step : ∀ n : Node, (∀ c ∈ n.children, P c) → P n) :
    ∀ l : List (Option Node), ∀ c ∈ l.filterMap id, P c
  | [], c, hc => by simp at hc
  | none :: rest, c, hc => induction_slice step rest c (by simpa using hc)
  | some n :: rest, c, hc => by
    simp only [List.filterMap_cons, id, List.mem_cons] at hc
    rcases hc with hc | hc
    · exact hc ▸ induction_node step n
    · exact induction_slice step rest c hc
theorem induction_slot {P : Node → Prop} (step : ∀ n : Node, (∀ c ∈ n.children, P c) → P n) :
    ∀ slot : Slot, ∀ c ∈ slot.children, P c
  | .node n, c, hc => induction_pointer step n c hc
  | .list ns, c, hc => induction_list step ns c hc
theorem induction_slots {P : Node → Prop} (step : ∀ n : Node, (∀ c ∈ n.children, P c) → P n) :
    ∀ slots : List Slot, ∀ c ∈ slots.flatMap Slot.children, P c
  | [], c, hc => by simp at hc
  | slot :: rest, c, hc => by
    simp only [List.flatMap_cons, List.mem_append] at hc
    rcases hc with hc | hc
    · exact induction_slot step slot c hc
    · exact induction_slots step rest c hc
end

/-! ## The nodes of a tree -/

theorem pointerNodes_eq (stop : Kind → Bool) (o : Option Node) :
    pointerNodes stop o = o.toList.flatMap (nodesOf stop) := by
  cases o <;> simp [pointerNodes]

theorem sliceNodes_eq (stop : Kind → Bool) (l : List (Option Node)) :
    sliceNodes stop l = (l.filterMap id).flatMap (nodesOf stop) := by
  induction l with
  | nil => simp [sliceNodes]
  | cons n rest ih => cases n <;> simp [sliceNodes, pointerNodes, ih]

theorem listNodes_eq (stop : Kind → Bool) (ns : Option (List (Option Node))) :
    listNodes stop ns = (listChildren ns).flatMap (nodesOf stop) := by
  cases ns <;> simp [listNodes, listChildren, sliceNodes_eq]

theorem slotNodes_eq (stop : Kind → Bool) (slot : Slot) :
    slotNodes stop slot = slot.children.flatMap (nodesOf stop) := by
  cases slot <;> simp [slotNodes, Slot.children, pointerNodes_eq, listNodes_eq]

theorem slotsNodes_eq (stop : Kind → Bool) (slots : List Slot) :
    slotsNodes stop slots = (slots.flatMap Slot.children).flatMap (nodesOf stop) := by
  induction slots with
  | nil => simp [slotsNodes]
  | cons slot rest ih => simp [slotsNodes, slotNodes_eq, ih]

theorem dataNodes_eq (stop : Kind → Bool) (data : NodeData) :
    dataNodes stop data = data.children.flatMap (nodesOf stop) := by
  cases data <;>
    simp [dataNodes, NodeData.children, pointerNodes_eq, listNodes_eq, slotsNodes_eq]

/-- The nodes of a tree are its root and, unless the root stops the listing,
the nodes of its children. -/
theorem nodesOf_eq (stop : Kind → Bool) (n : Node) :
    nodesOf stop n
      = n :: (if stop n.Kind then [] else n.children.flatMap (nodesOf stop)) := by
  obtain ⟨kind, flags, loc, data⟩ := n
  simp [nodesOf, Node.Kind, Node.children, Node.data, dataNodes_eq]

theorem mem_nodesOf_self (stop : Kind → Bool) (n : Node) : n ∈ nodesOf stop n := by
  rw [nodesOf_eq]
  exact List.mem_cons_self _ _

theorem mem_nodesOf_child {stop : Kind → Bool} {n c m : Node} (hstop : stop n.Kind = false)
    (hc : c ∈ n.children) (hm : m ∈ nodesOf stop c) : m ∈ nodesOf stop n := by
  rw [nodesOf_eq, hstop]
  simp only [Bool.false_eq_true, if_false, List.mem_cons, List.mem_flatMap]
  exact Or.inr ⟨c, hc, hm⟩

theorem wellFormed_iff (n : Node) :
    wellFormed n = true ↔ n.wellBuilt = true ∧ ∀ c ∈ n.children, wellFormed c = true := by
  unfold wellFormed allNodes
  rw [nodesOf_eq]
  simp only [Bool.false_eq_true, if_false, List.all_cons, Bool.and_eq_true, List.all_eq_true,
    List.mem_flatMap]
  constructor
  · rintro ⟨h1, h2⟩
    exact ⟨h1, fun c hc m hm => h2 m ⟨c, hc, hm⟩⟩
  · rintro ⟨h1, h2⟩
    exact ⟨h1, fun m ⟨c, hc, hm⟩ => h2 c hc m hm⟩

namespace NodeVisitor

theorem VisitNode_ok {g : Node → Except Fatal Node} {o : Option Node}
    (h : ∀ c ∈ o.toList, ∃ r, g c = .ok r) : ∃ r, VisitNode g o = .ok r := by
  cases o with
  | none => exact ⟨none, rfl⟩
  | some n =>
    obtain ⟨r, hr⟩ := h n (by simp)
    exact ⟨some r, by simp [VisitNode, hr]⟩

theorem visitSlice_ok {g : Node → Except Fatal Node} :
    ∀ {l : List (Option Node)}, l.all Option.isSome = true →
      (∀ c ∈ l.filterMap id, ∃ r, g c = .ok r) → ∃ r, visitSlice g l = .ok r
  | [], _, _ => ⟨[], rfl⟩
  | none :: _, hall, _ => by simp at hall
  | some n :: rest, hall, h => by
    obtain ⟨r, hr⟩ := h n (by simp)
    obtain ⟨rs, hrs⟩ := visitSlice_ok (l := rest) (by simpa using hall)
      (fun c hc => h c (by simp [hc]))
    exact ⟨some r :: rs, by simp [visitSlice, hr, hrs]; rfl⟩

theorem VisitNodes_ok {g : Node → Except Fatal Node} (ns : Option (List (Option Node)))
    (hall : noNilElement ns = true) (h : ∀ c ∈ listChildren ns, ∃ r, g c = .ok r) :
    ∃ r, VisitNodes g ns = .ok r := by
  cases ns with
  | none => exact ⟨none, rfl⟩
  | some l =>
    obtain ⟨r, hr⟩ := visitSlice_ok (g := g) (l := l) (by simpa [noNilElement] using hall)
      (by simpa [listChildren] using h)
    exact ⟨some r, by simp [VisitNodes, hr]⟩

theorem visitSlots_ok {g : Node → Except Fatal Node} :
    ∀ (slots : List Slot), (NodeData.Other slots).requiredPresent = true →
      (∀ c ∈ slots.flatMap Slot.children, ∃ r, g c = .ok r) → ∃ r, visitSlots g slots = .ok r
  | [], _, _ => ⟨[], rfl⟩
  | .node n :: rest, hall, h => by
    obtain ⟨r, hr⟩ := VisitNode_ok (g := g) (o := n)
      (fun c hc => h c (by simp [Slot.children, hc]))
    obtain ⟨rs, hrs⟩ := visitSlots_ok rest
      (by simpa [NodeData.requiredPresent] using hall)
      (fun c hc => h c (by
        simp only [List.flatMap_cons, List.mem_append]
        exact Or.inr hc))
    exact ⟨.node r :: rs, by simp [visitSlots, visitSlot, hr, hrs]; rfl⟩
  | .list ns :: rest, hall, h => by
    simp only [NodeData.requiredPresent, List.all_cons, Bool.and_eq_true] at hall
    obtain ⟨r, hr⟩ := VisitNodes_ok (g := g) ns hall.1
      (fun c hc => h c (by simp [Slot.children, hc]))
    obtain ⟨rs, hrs⟩ := visitSlots_ok rest
      (by simpa [NodeData.requiredPresent] using hall.2)
      (fun c hc => h c (by
        simp only [List.flatMap_cons, List.mem_append]
        exact Or.inr hc))
    exact ⟨.list r :: rs, by simp [visitSlots, visitSlot, hr, hrs]; rfl⟩

/-- The function `VisitEachChild` returns a node when the rewrite function
returns one at every child and no node list has a nil element. -/
theorem VisitEachChild_ok {g : Node → Except Fatal Node} {n : Node}
    (hreq : n.data.requiredPresent = true) (h : ∀ c ∈ n.children, ∃ r, g c = .ok r) :
    ∃ r, VisitEachChild g n = .ok r := by
  obtain ⟨kind, flags, loc, data⟩ := n
  cases data with
  | Token => exact ⟨_, rfl⟩
  | Identifier t => exact ⟨_, rfl⟩
  | StringLiteral t => exact ⟨_, rfl⟩
  | NumericLiteral t => exact ⟨_, rfl⟩
  | PropertyAccessExpression e q nm =>
    simp only [Node.children, Node.data, NodeData.children, List.mem_append] at h
    obtain ⟨e2, he⟩ := VisitNode_ok (g := g) (o := e) (fun c hc => h c (by simp [hc]))
    obtain ⟨q2, hq⟩ := VisitNode_ok (g := g) (o := q) (fun c hc => h c (by simp [hc]))
    obtain ⟨nm2, hnm⟩ := VisitNode_ok (g := g) (o := nm) (fun c hc => h c (by simp [hc]))
    exact ⟨_, by simp [VisitEachChild, he, hq, hnm]; rfl⟩
  | ElementAccessExpression e q a =>
    simp only [Node.children, Node.data, NodeData.children, List.mem_append] at h
    obtain ⟨e2, he⟩ := VisitNode_ok (g := g) (o := e) (fun c hc => h c (by simp [hc]))
    obtain ⟨q2, hq⟩ := VisitNode_ok (g := g) (o := q) (fun c hc => h c (by simp [hc]))
    obtain ⟨a2, ha⟩ := VisitNode_ok (g := g) (o := a) (fun c hc => h c (by simp [hc]))
    exact ⟨_, by simp [VisitEachChild, he, hq, ha]; rfl⟩
  | CallExpression e q ta args =>
    simp only [Node.children, Node.data, NodeData.children, List.mem_append] at h
    simp only [Node.data, NodeData.requiredPresent, Bool.and_eq_true] at hreq
    obtain ⟨e2, he⟩ := VisitNode_ok (g := g) (o := e) (fun c hc => h c (by simp [hc]))
    obtain ⟨q2, hq⟩ := VisitNode_ok (g := g) (o := q) (fun c hc => h c (by simp [hc]))
    obtain ⟨ta2, hta⟩ := VisitNodes_ok (g := g) ta hreq.1.2
      (fun c hc => h c (by simp [hc]))
    obtain ⟨args2, hargs⟩ := VisitNodes_ok (g := g) args hreq.2
      (fun c hc => h c (by simp [hc]))
    exact ⟨_, by simp [VisitEachChild, he, hq, hta, hargs]; rfl⟩
  | BinaryExpression m l t op r =>
    simp only [Node.children, Node.data, NodeData.children, List.mem_append] at h
    simp only [Node.data, NodeData.requiredPresent, Bool.and_eq_true] at hreq
    obtain ⟨m2, hm⟩ := VisitNodes_ok (g := g) m hreq.1.1.1
      (fun c hc => h c (by simp [hc]))
    obtain ⟨l2, hl⟩ := VisitNode_ok (g := g) (o := l) (fun c hc => h c (by simp [hc]))
    obtain ⟨t2, ht⟩ := VisitNode_ok (g := g) (o := t) (fun c hc => h c (by simp [hc]))
    obtain ⟨op2, hop⟩ := VisitNode_ok (g := g) (o := op) (fun c hc => h c (by simp [hc]))
    obtain ⟨r2, hr⟩ := VisitNode_ok (g := g) (o := r) (fun c hc => h c (by simp [hc]))
    exact ⟨_, by simp [VisitEachChild, hm, hl, ht, hop, hr]; rfl⟩
  | PrefixUnaryExpression op operand =>
    simp only [Node.children, Node.data, NodeData.children] at h
    obtain ⟨o2, ho⟩ := VisitNode_ok (g := g) (o := operand) h
    exact ⟨_, by simp [VisitEachChild, ho]; rfl⟩
  | PostfixUnaryExpression operand op =>
    simp only [Node.children, Node.data, NodeData.children] at h
    obtain ⟨o2, ho⟩ := VisitNode_ok (g := g) (o := operand) h
    exact ⟨_, by simp [VisitEachChild, ho]; rfl⟩
  | ObjectLiteralExpression props ml =>
    simp only [Node.children, Node.data, NodeData.children] at h
    obtain ⟨p2, hp⟩ := VisitNodes_ok (g := g) props hreq h
    exact ⟨_, by simp [VisitEachChild, hp]; rfl⟩
  | Other slots =>
    simp only [Node.children, Node.data, NodeData.children] at h
    obtain ⟨s2, hs⟩ := visitSlots_ok (g := g) slots hreq h
    exact ⟨_, by simp [VisitEachChild, hs]; rfl⟩

end NodeVisitor

/-! ## How `visitSuperAccessNode` treats a node -/

theorem kindOf_eq_ok {o : Option Node} {k : Kind} :
    kindOf o = .ok k ↔ ∃ n, o = some n ∧ n.Kind = k := by
  cases o <;> simp [kindOf]

/-- At a scope boundary the rewrite function returns its argument. -/
theorem visit_boundary (s : superAccessState) (n : Node) (h : isScopeBoundary n.Kind = true) :
    visitSuperAccessNode s n = .ok n := by
  obtain ⟨kind, flags, loc, data⟩ := n
  cases kind <;> simp [isScopeBoundary, Node.Kind] at h <;> rfl

/-- At a kind without a case of its own the rewrite function is `VisitEachChild`. -/
theorem visit_default (s : superAccessState) (kind : Kind) (flags : NodeFlags) (loc : TextRange)
    (data : NodeData) (hb : isScopeBoundary kind = false) (hc : kind ≠ Kind.CallExpression)
    (hp : kind ≠ Kind.PropertyAccessExpression) (he : kind ≠ Kind.ElementAccessExpression) :
    visitSuperAccessNode s (.mk kind flags loc data) = VisitEachChild s kind flags loc data := by
  cases kind <;> simp [isScopeBoundary] at hb hc hp he <;> simp [visitSuperAccessNode]

theorem isSuperPropertyAccess_iff (n : Node) :
    isSuperPropertyAccess n = true ↔
      ∃ f l sf sl sd q nm, n = .mk .PropertyAccessExpression f l
        (.PropertyAccessExpression (some (.mk .SuperKeyword sf sl sd)) q nm) := by
  constructor
  · intro h
    unfold isSuperPropertyAccess at h
    split at h
    · exact ⟨_, _, _, _, _, _, _, rfl⟩
    · simp at h
  · rintro ⟨f, l, sf, sl, sd, q, nm, rfl⟩
    rfl

theorem isSuperElementAccess_iff (n : Node) :
    isSuperElementAccess n = true ↔
      ∃ f l sf sl sd q a, n = .mk .ElementAccessExpression f l
        (.ElementAccessExpression (some (.mk .SuperKeyword sf sl sd)) q a) := by
  constructor
  · intro h
    unfold isSuperElementAccess at h
    split at h
    · exact ⟨_, _, _, _, _, _, _, rfl⟩
    · simp at h
  · rintro ⟨f, l, sf, sl, sd, q, a, rfl⟩
    rfl

theorem kindOf_super_iff (e : Option Node) :
    kindOf e = .ok Kind.SuperKeyword ↔ ∃ sf sl sd, e = some (.mk .SuperKeyword sf sl sd) := by
  rw [kindOf_eq_ok]
  constructor
  · rintro ⟨⟨k, f, l, d⟩, rfl, hk⟩
    simp only [Node.Kind] at hk
    subst hk
    exact ⟨_, _, _, rfl⟩
  · rintro ⟨sf, sl, sd, rfl⟩
    exact ⟨_, rfl, rfl⟩

/-- The test `IsSuperProperty` succeeds with `true` exactly on a pointer to a
super property access or a super element access. -/
theorem IsSuperProperty_eq_true (e : Option Node) :
    IsSuperProperty e = .ok true ↔
      ∃ callee, e = some callee ∧
        (isSuperPropertyAccess callee = true ∨ isSuperElementAccess callee = true) := by
  cases e with
  | none => simp [IsSuperProperty, throw, throwThe, MonadExceptOf.throw]
  | some n =>
    obtain ⟨kind, flags, loc, data⟩ := n
    simp only [Option.some.injEq, exists_eq_left']
    by_cases hp : kind = Kind.PropertyAccessExpression
    · subst hp
      cases data <;>
        simp [IsSuperProperty, Node.Kind, Node.Expression, bind, Except.bind, pure,
          Except.pure, isSuperPropertyAccess_iff, isSuperElementAccess_iff]
      rename_i e q nm
      rw [← kindOf_super_iff]
      cases hk : kindOf e <;> simp [hk]
    · by_cases he : kind = Kind.ElementAccessExpression
      · subst he
        cases data <;>
          simp [IsSuperProperty, Node.Kind, Node.Expression, bind, Except.bind, pure,
            Except.pure, isSuperPropertyAccess_iff, isSuperElementAccess_iff]
        rename_i e q a
        rw [← kindOf_super_iff]
        cases hk : kindOf e <;> simp [hk]
      · have h1 : isSuperPropertyAccess (.mk kind flags loc data) = false := by
          cases h : isSuperPropertyAccess (.mk kind flags loc data)
          · rfl
          · obtain ⟨_, _, _, _, _, _, _, heq⟩ := (isSuperPropertyAccess_iff _).1 h
            cases heq
            exact absurd rfl hp
        have h2 : isSuperElementAccess (.mk kind flags loc data) = false := by
          cases h : isSuperElementAccess (.mk kind flags loc data)
          · rfl
          · obtain ⟨_, _, _, _, _, _, _, heq⟩ := (isSuperElementAccess_iff _).1 h
            cases heq
            exact absurd rfl he
        simp [IsSuperProperty, Node.Kind, hp, he, h1, h2, pure, Except.pure]

theorem throw_ne_ok {α : Type} (a : α) : (throw Fatal.abort : Except Fatal α) ≠ .ok a := by
  simp [throw, throwThe, MonadExceptOf.throw]

/-- A node that is neither a scope boundary nor a super access is rewritten by
`VisitEachChild`. -/
theorem visit_kept {s : superAccessState} {n r : Node} (h : visitSuperAccessNode s n = .ok r)
    (hsite : isSuperAccessSite n = false) (hb : isScopeBoundary n.Kind = false) :
    NodeVisitor.VisitEachChild (visitSuperAccessNode s) n = .ok r := by
  obtain ⟨kind, flags, loc, data⟩ := n
  simp only [isSuperAccessSite, Bool.or_eq_false_iff] at hsite
  obtain ⟨⟨hpa, hea⟩, hcall⟩ := hsite
  by_cases hc : kind = Kind.CallExpression
  · subst hc
    cases data <;> try (exact absurd h (throw_ne_ok r))
    rename_i e q ta args
    simp only [visitSuperAccessNode, bind_eq_ok] at h
    obtain ⟨b, hb2, h⟩ := h
    cases b with
    | true =>
      obtain ⟨callee, rfl, hor⟩ := (IsSuperProperty_eq_true e).1 hb2
      simp only [isSuperCall, Bool.or_eq_false_iff] at hcall
      rcases hor with hor | hor
      · rw [hor] at hcall
        exact absurd hcall.1 (by simp)
      · rw [hor] at hcall
        exact absurd hcall.2 (by simp)
    | false =>
      simp only [Bool.false_eq_true, if_false] at h
      rw [VisitEachChild_eq] at h
      exact h
  · by_cases hp : kind = Kind.PropertyAccessExpression
    · subst hp
      cases data <;> try (exact absurd h (throw_ne_ok r))
      rename_i e q nm
      simp only [visitSuperAccessNode, bind_eq_ok] at h
      obtain ⟨k, hk, h⟩ := h
      by_cases hsup : k = Kind.SuperKeyword
      · subst hsup
        obtain ⟨sf, sl, sd, rfl⟩ := (kindOf_super_iff e).1 hk
        simp [isSuperPropertyAccess] at hpa
      · simp only [hsup, if_false] at h
        rw [VisitEachChild_eq] at h
        exact h
    · by_cases he : kind = Kind.ElementAccessExpression
      · subst he
        cases data <;> try (exact absurd h (throw_ne_ok r))
        rename_i e q a
        simp only [visitSuperAccessNode, bind_eq_ok] at h
        obtain ⟨k, hk, h⟩ := h
        by_cases hsup : k = Kind.SuperKeyword
        · subst hsup
          obtain ⟨sf, sl, sd, rfl⟩ := (kindOf_super_iff e).1 hk
          simp [isSuperElementAccess] at hea
        · simp only [hsup, if_false] at h
          rw [VisitEachChild_eq] at h
          exact h
      · rw [visit_default s kind flags loc data hb hc hp he, VisitEachChild_eq] at h
        exact h

/-- On a node built as the parser builds it the test `IsSuperProperty` does not
fail. -/
theorem IsSuperProperty_ok {callee : Node} (h : callee.wellBuilt = true) :
    ∃ b, IsSuperProperty (some callee) = .ok b := by
  obtain ⟨kind, flags, loc, data⟩ := callee
  by_cases hp : kind = Kind.PropertyAccessExpression
  · subst hp
    cases data <;> simp [Node.wellBuilt, Node.data, Node.Kind, NodeData.kind?, hasOwnData] at h
    rename_i e q nm
    simp only [NodeData.requiredPresent, Bool.and_eq_true] at h
    obtain ⟨m, rfl⟩ := Option.isSome_iff_exists.1 h.1
    exact ⟨_, by simp [IsSuperProperty, Node.Kind, Node.Expression, kindOf, bind, Except.bind]; rfl⟩
  · by_cases he : kind = Kind.ElementAccessExpression
    · subst he
      cases data <;> simp [Node.wellBuilt, Node.data, Node.Kind, NodeData.kind?, hasOwnData] at h
      rename_i e q a
      simp only [NodeData.requiredPresent, Bool.and_eq_true] at h
      obtain ⟨m, rfl⟩ := Option.isSome_iff_exists.1 h.1
      exact ⟨_, by simp [IsSuperProperty, Node.Kind, Node.Expression, kindOf, bind, Except.bind]; rfl⟩
    · exact ⟨false, by simp [IsSuperProperty, Node.Kind, hp, he]; rfl⟩

/-- On a node built as the parser builds it, with children so built, that is
neither a scope boundary nor a super access, the rewrite function is
`VisitEachChild`. -/
theorem visit_of_not_site (s : superAccessState) {n : Node} (hbuilt : n.wellBuilt = true)
    (hch : ∀ c ∈ n.children, c.wellBuilt = true)
    (hsite : isSuperAccessSite n = false) (hb : isScopeBoundary n.Kind = false) :
    visitSuperAccessNode s n = NodeVisitor.VisitEachChild (visitSuperAccessNode s) n := by
  obtain ⟨kind, flags, loc, data⟩ := n
  simp only [isSuperAccessSite, Bool.or_eq_false_iff] at hsite
  obtain ⟨⟨hpa, hea⟩, hcall⟩ := hsite
  by_cases hc : kind = Kind.CallExpression
  · subst hc
    cases data <;>
      simp [Node.wellBuilt, Node.data, Node.Kind, NodeData.kind?, hasOwnData] at hbuilt
    rename_i e q ta args
    simp only [NodeData.requiredPresent, Bool.and_eq_true] at hbuilt
    obtain ⟨callee, rfl⟩ := Option.isSome_iff_exists.1 hbuilt.1.1
    obtain ⟨b, hb2⟩ := IsSuperProperty_ok (hch callee (by simp [Node.children, Node.data,
      NodeData.children]))
    cases b with
    | true =>
      obtain ⟨c2, hc2, hor⟩ := (IsSuperProperty_eq_true _).1 hb2
      cases hc2
      simp only [isSuperCall, Bool.or_eq_false_iff] at hcall
      rcases hor with hor | hor
      · rw [hor] at hcall
        exact absurd hcall.1 (by simp)
      · rw [hor] at hcall
        exact absurd hcall.2 (by simp)
    | false =>
      simp [visitSuperAccessNode, hb2, VisitEachChild_eq, bind, Except.bind]
  · by_cases hp : kind = Kind.PropertyAccessExpression
    · subst hp
      cases data <;>
        simp [Node.wellBuilt, Node.data, Node.Kind, NodeData.kind?, hasOwnData] at hbuilt
      rename_i e q nm
      simp only [NodeData.requiredPresent, Bool.and_eq_true] at hbuilt
      obtain ⟨m, rfl⟩ := Option.isSome_iff_exists.1 hbuilt.1
      have hk : m.Kind ≠ Kind.SuperKeyword := by
        intro hk
        obtain ⟨sf, sl, sd, hm⟩ := (kindOf_super_iff (some m)).1 (by simp [kindOf, hk])
        cases hm
        simp [isSuperPropertyAccess] at hpa
      simp [visitSuperAccessNode, kindOf, hk, VisitEachChild_eq, bind, Except.bind]
    · by_cases he : kind = Kind.ElementAccessExpression
      · subst he
        cases data <;>
          simp [Node.wellBuilt, Node.data, Node.Kind, NodeData.kind?, hasOwnData] at hbuilt
        rename_i e q a
        simp only [NodeData.requiredPresent, Bool.and_eq_true] at hbuilt
        obtain ⟨m, rfl⟩ := Option.isSome_iff_exists.1 hbuilt.1
        have hk : m.Kind ≠ Kind.SuperKeyword := by
          intro hk
          obtain ⟨sf, sl, sd, hm⟩ := (kindOf_super_iff (some m)).1 (by simp [kindOf, hk])
          cases hm
          simp [isSuperElementAccess] at hea
        simp [visitSuperAccessNode, kindOf, hk, VisitEachChild_eq, bind, Except.bind]
      · rw [visit_default s kind flags loc data hb hc hp he, VisitEachChild_eq]

/-! ## The rewrite function at the super accesses -/

/-- The node `super.x` becomes `_super.x`. -/
theorem visit_superProperty (s : superAccessState) (flags : NodeFlags) (loc : TextRange)
    (sf : NodeFlags) (sl : TextRange) (sd : NodeData) (q name : Option Node) :
    visitSuperAccessNode s (.mk .PropertyAccessExpression flags loc
        (.PropertyAccessExpression (some (.mk .SuperKeyword sf sl sd)) q name))
      = .ok (NewPropertyAccessExpression s.superBinding none name NodeFlagsNone) := by
  rfl

/-- The node `super[x]` becomes `_superIndex(x)` or `_superIndex(x).value`. -/
theorem visit_superElement (s : superAccessState) (flags : NodeFlags) (loc : TextRange)
    (sf : NodeFlags) (sl : TextRange) (sd : NodeData) (q argument : Option Node) :
    visitSuperAccessNode s (.mk .ElementAccessExpression flags loc
        (.ElementAccessExpression (some (.mk .SuperKeyword sf sl sd)) q argument))
      = .ok (createSuperElementAccessInAsyncMethod s argument) := by
  rfl

/-- The call built for a super call with the given target and visited
arguments: `target.call(this, args)`, at the span of the original call. -/
theorem visit_superPropertyCall (s : superAccessState) (flags : NodeFlags) (loc : TextRange)
    (cf : NodeFlags) (cl : TextRange) (sf : NodeFlags) (sl : TextRange) (sd : NodeData)
    (cq name q : Option Node) (typeArguments arguments : Option (List (Option Node))) :
    visitSuperAccessNode s (.mk .CallExpression flags loc
        (.CallExpression (some (.mk .PropertyAccessExpression cf cl
          (.PropertyAccessExpression (some (.mk .SuperKeyword sf sl sd)) cq name)))
          q typeArguments arguments))
      = (VisitNodes s arguments).map (fun visitedArgs =>
          (NewCallExpression
            (some (NewPropertyAccessExpression
              (some (NewPropertyAccessExpression s.superBinding none name NodeFlagsNone))
              none (some (NewIdentifier "call")) NodeFlagsNone))
            none none
            (NewNodeList ([some NewThisExpression] ++ visitedArgs.getD []))
            NodeFlagsNone).setLoc loc) := by
  cases h : VisitNodes s arguments <;>
    simp [visitSuperAccessNode, substituteCallExpressionWithSuperAccess, IsSuperProperty,
      IsPropertyAccessExpression, Node.Kind, Node.Expression, kindOf, h, bind, Except.bind,
      pure, Except.pure, Except.map]

theorem visit_superElementCall (s : superAccessState) (flags : NodeFlags) (loc : TextRange)
    (cf : NodeFlags) (cl : TextRange) (sf : NodeFlags) (sl : TextRange) (sd : NodeData)
    (cq argument q : Option Node) (typeArguments arguments : Option (List (Option Node))) :
    visitSuperAccessNode s (.mk .CallExpression flags loc
        (.CallExpression (some (.mk .ElementAccessExpression cf cl
          (.ElementAccessExpression (some (.mk .SuperKeyword sf sl sd)) cq argument)))
          q typeArguments arguments))
      = (VisitNodes s arguments).map (fun visitedArgs =>
          (NewCallExpression
            (some (NewPropertyAccessExpression
              (some (createSuperElementAccessInAsyncMethod s argument))
              none (some (NewIdentifier "call")) NodeFlagsNone))
            none none
            (NewNodeList ([some NewThisExpression] ++ visitedArgs.getD []))
            NodeFlagsNone).setLoc loc) := by
  cases h : VisitNodes s arguments <;>
    simp [visitSuperAccessNode, substituteCallExpressionWithSuperAccess, IsSuperProperty,
      IsPropertyAccessExpression, IsElementAccessExpression, Node.Kind, Node.Expression, kindOf,
      h, bind, Except.bind, pure, Except.pure, Except.map]

theorem isSuperCall_iff (n : Node) :
    isSuperCall n = true ↔
      ∃ f l callee q ta args, n = .mk .CallExpression f l
        (.CallExpression (some callee) q ta args) ∧
        (isSuperPropertyAccess callee = true ∨ isSuperElementAccess callee = true) := by
  constructor
  · intro h
    unfold isSuperCall at h
    split at h
    · exact ⟨_, _, _, _, _, _, rfl, by simpa using h⟩
    · simp at h
  · rintro ⟨f, l, callee, q, ta, args, rfl, h⟩
    simpa [isSuperCall] using h

/-! ## The substitution returns a tree on well-formed input -/

theorem visit_ok (s : superAccessState) :
    ∀ n : Node, wellFormed n = true → ∃ r, visitSuperAccessNode s n = .ok r := by
  refine induction_node (P := fun n => wellFormed n = true →
    ∃ r, visitSuperAccessNode s n = .ok r) ?_
  intro n ih hwf
  obtain ⟨hbuilt, hch⟩ := (wellFormed_iff n).1 hwf
  have hok : ∀ c ∈ n.children, ∃ r, visitSuperAccessNode s c = .ok r :=
    fun c hc => ih c hc (hch c hc)
  have hchb : ∀ c ∈ n.children, c.wellBuilt = true :=
    fun c hc => ((wellFormed_iff c).1 (hch c hc)).1
  have hreq : n.data.requiredPresent = true := by
    simp only [Node.wellBuilt, Bool.and_eq_true] at hbuilt
    exact hbuilt.2
  cases hb : isScopeBoundary n.Kind with
  | true => exact ⟨n, visit_boundary s n hb⟩
  | false =>
    cases hsite : isSuperAccessSite n with
    | false =>
      rw [visit_of_not_site s hbuilt hchb hsite hb]
      exact NodeVisitor.VisitEachChild_ok hreq hok
    | true =>
      simp only [isSuperAccessSite, Bool.or_eq_true] at hsite
      rcases hsite with (hp | he) | hcall
      · obtain ⟨f, l, sf, sl, sd, q, nm, rfl⟩ := (isSuperPropertyAccess_iff n).1 hp
        exact ⟨_, visit_superProperty s f l sf sl sd q nm⟩
      · obtain ⟨f, l, sf, sl, sd, q, a, rfl⟩ := (isSuperElementAccess_iff n).1 he
        exact ⟨_, visit_superElement s f l sf sl sd q a⟩
      · obtain ⟨flags, loc, callee, q, ta, args, rfl, hcallee⟩ := (isSuperCall_iff n).1 hcall
        have hargs : ∃ r, VisitNodes s args = .ok r := by
          rw [VisitNodes_eq]
          simp only [Node.data, NodeData.requiredPresent, Bool.and_eq_true] at hreq
          refine NodeVisitor.VisitNodes_ok args hreq.2 (fun c hc => hok c ?_)
          simp [Node.children, Node.data, NodeData.children, hc]
        obtain ⟨vargs, hvargs⟩ := hargs
        rcases hcallee with hp | he
        · obtain ⟨cf, cl, sf, sl, sd, cq, nm, rfl⟩ := (isSuperPropertyAccess_iff callee).1 hp
          rw [visit_superPropertyCall, hvargs]
          exact ⟨_, rfl⟩
        · obtain ⟨cf, cl, sf, sl, sd, cq, a, rfl⟩ := (isSuperElementAccess_iff callee).1 he
          rw [visit_superElementCall, hvargs]
          exact ⟨_, rfl⟩

/-- On a well-formed body the substitution returns a tree. -/
theorem substitute_ok (s : superAccessState) (body : Node) (h : wellFormed body = true) :
    ∃ result, substituteSuperAccessesInBody s (some body) = .ok (some result) := by
  obtain ⟨r, hr⟩ := visit_ok s body h
  exact ⟨r, by simp [substituteSuperAccessesInBody, VisitNode, hr]⟩

theorem substitute_eq_ok {s : superAccessState} {body result : Node} :
    substituteSuperAccessesInBody s (some body) = .ok (some result)
      ↔ visitSuperAccessNode s body = .ok result := by
  cases h : visitSuperAccessNode s body <;>
    simp [substituteSuperAccessesInBody, VisitNode, h, bind, Except.bind, pure, Except.pure]

theorem forall₂_getElem? {α β : Type} {R : α → β → Prop} :
    ∀ {l : List α} {l2 : List β}, List.Forall₂ R l l2 → ∀ (i : Nat) (a : α),
      l[i]? = some a → ∃ b, l2[i]? = some b ∧ R a b
  | _, _, List.Forall₂.nil, i, a, h => by simp at h
  | _, _, List.Forall₂.cons hab hrest, 0, a, h => by
    simp only [List.getElem?_cons_zero, Option.some.injEq] at h
    subst h
    exact ⟨_, by simp, hab⟩
  | _, _, List.Forall₂.cons hab hrest, i + 1, a, h => by
    simp only [List.getElem?_cons_succ] at h
    obtain ⟨b, hb, hr⟩ := forall₂_getElem? hrest i a h
    exact ⟨b, by simpa using hb, hr⟩

/-- A scope boundary below nodes that are all kept is found unchanged at the
same position of the result. -/
theorem boundary_at_position (s : superAccessState) :
    ∀ (position : List Nat) (body result nested : Node),
      visitSuperAccessNode s body = .ok result → subtreeAt body position = some nested →
      isScopeBoundary nested.Kind = true → keptAbove body position = true →
      subtreeAt result position = some nested
  | [], body, result, nested, hv, hsub, hb, _ => by
    simp only [subtreeAt, Option.some.injEq] at hsub
    subst hsub
    rw [visit_boundary s body hb] at hv
    cases hv
    rfl
  | i :: rest, body, result, nested, hv, hsub, hb, hkept => by
    cases hbody : isScopeBoundary body.Kind with
    | true =>
      rw [visit_boundary s body hbody] at hv
      cases hv
      exact hsub
    | false =>
      simp only [subtreeAt] at hsub
      simp only [keptAbove, Bool.and_eq_true, Bool.not_eq_true'] at hkept
      cases hchild : body.children[i]? with
      | none => simp [hchild] at hsub
      | some child =>
        simp only [hchild] at hsub hkept
        have hch := NodeVisitor.VisitEachChild_children (visit_kept hv hkept.1 hbody)
        obtain ⟨child2, hchild2, hvisit⟩ := forall₂_getElem? hch.2.2.2 i child hchild
        simp only [subtreeAt, hchild2]
        exact boundary_at_position s rest child child2 nested hvisit hsub hb hkept.2

theorem mem_allNodes_iff (n m : Node) :
    m ∈ allNodes n ↔ m = n ∨ ∃ c ∈ n.children, m ∈ allNodes c := by
  unfold allNodes
  rw [nodesOf_eq]
  simp

theorem mem_allNodes_child {n c m : Node} (hc : c ∈ n.children) (hm : m ∈ allNodes c) :
    m ∈ allNodes n :=
  (mem_allNodes_iff n m).2 (Or.inr ⟨c, hc, hm⟩)

theorem mem_pointerNodes_iff (stop : Kind → Bool) (o : Option Node) (m : Node) :
    m ∈ pointerNodes stop o ↔ ∃ c, o = some c ∧ m ∈ nodesOf stop c := by
  cases o <;> simp [pointerNodes]

/-- The scope boundaries in the access built for `super[x]` are those of the
index binding and of the argument. -/
theorem boundary_in_elementAccess (s : superAccessState) (argument : Option Node) (m : Node)
    (hm : m ∈ allNodes (createSuperElementAccessInAsyncMethod s argument))
    (hb : isScopeBoundary m.Kind = true) :
    m ∈ pointerNodes (fun _ => false) s.superIndexBinding
      ∨ m ∈ pointerNodes (fun _ => false) argument := by
  unfold createSuperElementAccessInAsyncMethod at hm
  split at hm <;>
    simp only [allNodes, nodesOf, dataNodes, pointerNodes, listNodes, sliceNodes,
      NewPropertyAccessExpression, NewCallExpression, NewNodeList, NewIdentifier,
      Bool.false_eq_true, if_false, List.mem_cons, List.mem_append, List.append_nil,
      List.not_mem_nil, or_false, false_or] at hm
  · rcases hm with rfl | (rfl | hm | hm) | rfl
    · simp [Node.Kind, isScopeBoundary] at hb
    · simp [Node.Kind, isScopeBoundary] at hb
    · exact Or.inl hm
    · exact Or.inr hm
    · simp [Node.Kind, isScopeBoundary] at hb
  · rcases hm with rfl | hm | hm
    · simp [Node.Kind, isScopeBoundary] at hb
    · exact Or.inl hm
    · exact Or.inr hm

theorem forall₂_mem_right {α β : Type} {R : α → β → Prop} :
    ∀ {l : List α} {l2 : List β}, List.Forall₂ R l l2 → ∀ b ∈ l2, ∃ a ∈ l, R a b
  | _, _, List.Forall₂.nil, b, h => by simp at h
  | _, _, List.Forall₂.cons hab hrest, b, h => by
    simp only [List.mem_cons] at h
    rcases h with rfl | h
    · exact ⟨_, by simp, hab⟩
    · obtain ⟨a, ha, hr⟩ := forall₂_mem_right hrest b h
      exact ⟨a, by simp [ha], hr⟩

/-- The scope boundaries among the nodes of visited arguments come from the
arguments or from the bindings, when that holds of each argument. -/
theorem boundary_in_visited_list {s : superAccessState} {body : Node}
    {arguments visited : Option (List (Option Node))} {m : Node}
    (ih : ∀ c ∈ body.children, ∀ result, visitSuperAccessNode s c = .ok result →
      ∀ m ∈ allNodes result, isScopeBoundary m.Kind = true →
        m ∈ allNodes c ∨ m ∈ pointerNodes (fun _ => false) s.superBinding
          ∨ m ∈ pointerNodes (fun _ => false) s.superIndexBinding)
    (hsub : ∀ c ∈ listChildren arguments, c ∈ body.children)
    (hv : VisitNodes s arguments = .ok visited)
    (hm : m ∈ sliceNodes (fun _ => false) (visited.getD []))
    (hb : isScopeBoundary m.Kind = true) :
    m ∈ allNodes body ∨ m ∈ pointerNodes (fun _ => false) s.superBinding
      ∨ m ∈ pointerNodes (fun _ => false) s.superIndexBinding := by
  rw [VisitNodes_eq] at hv
  have hrel := NodeVisitor.VisitNodes_children hv
  rw [sliceNodes_eq] at hm
  obtain ⟨c2, hc2, hm2⟩ := List.mem_flatMap.1 hm
  obtain ⟨c, hc, hvc⟩ := forall₂_mem_right hrel c2 hc2
  rcases ih c (hsub c hc) c2 hvc m hm2 hb with h | h
  · exact Or.inl (mem_allNodes_child (hsub c hc) h)
  · exact Or.inr h

/-- Every scope boundary in the result of the rewrite is a node of the input
or of one of the two bindings: the rewrite builds none and changes none. -/
theorem boundary_from_input (s : superAccessState) :
    ∀ body result : Node, visitSuperAccessNode s body = .ok result →
      ∀ m ∈ allNodes result, isScopeBoundary m.Kind = true →
        m ∈ allNodes body ∨ m ∈ pointerNodes (fun _ => false) s.superBinding
          ∨ m ∈ pointerNodes (fun _ => false) s.superIndexBinding := by
  refine induction_node (P := fun body => ∀ result, visitSuperAccessNode s body = .ok result →
      ∀ m ∈ allNodes result, isScopeBoundary m.Kind = true →
        m ∈ allNodes body ∨ m ∈ pointerNodes (fun _ => false) s.superBinding
          ∨ m ∈ pointerNodes (fun _ => false) s.superIndexBinding) ?_
  intro body ih result hv m hm hb
  cases hbody : isScopeBoundary body.Kind with
  | true =>
    rw [visit_boundary s body hbody] at hv
    cases hv
    exact Or.inl hm
  | false =>
    cases hsite : isSuperAccessSite body with
    | false =>
      have hch := NodeVisitor.VisitEachChild_children (visit_kept hv hsite hbody)
      rcases (mem_allNodes_iff result m).1 hm with rfl | ⟨c2, hc2, hm2⟩
      · rw [hch.1, hbody] at hb
        exact absurd hb (by simp)
      · obtain ⟨c, hc, hvc⟩ := forall₂_mem_right hch.2.2.2 c2 hc2
        rcases ih c hc c2 hvc m hm2 hb with h | h
        · exact Or.inl (mem_allNodes_child hc h)
        · exact Or.inr h
    | true =>
      simp only [isSuperAccessSite, Bool.or_eq_true] at hsite
      rcases hsite with (hp | he) | hcall
      · obtain ⟨f, l, sf, sl, sd, q, nm, rfl⟩ := (isSuperPropertyAccess_iff body).1 hp
        rw [visit_superProperty] at hv
        cases hv
        simp only [allNodes, nodesOf, dataNodes, pointerNodes, NewPropertyAccessExpression,
          Bool.false_eq_true, if_false, List.mem_cons, List.mem_append, List.append_nil,
          List.not_mem_nil, or_false, false_or] at hm
        rcases hm with rfl | hm | hm
        · simp [Node.Kind, isScopeBoundary] at hb
        · exact Or.inr (Or.inl hm)
        · left
          simp only [allNodes, nodesOf, dataNodes, Bool.false_eq_true, if_false, List.mem_cons,
            List.mem_append]
          exact Or.inr (Or.inr hm)
      · obtain ⟨f, l, sf, sl, sd, q, a, rfl⟩ := (isSuperElementAccess_iff body).1 he
        rw [visit_superElement] at hv
        cases hv
        rcases boundary_in_elementAccess s a m hm hb with h | h
        · exact Or.inr (Or.inr h)
        · left
          simp only [allNodes, nodesOf, dataNodes, Bool.false_eq_true, if_false, List.mem_cons,
            List.mem_append]
          exact Or.inr (Or.inr h)
      · obtain ⟨flags, loc, callee, q, ta, args, rfl, hcallee⟩ := (isSuperCall_iff body).1 hcall
        have hsub : ∀ c ∈ listChildren args,
            c ∈ (Node.mk Kind.CallExpression flags loc
              (NodeData.CallExpression (some callee) q ta args)).children := by
          intro c hc
          simp [Node.children, Node.data, NodeData.children, hc]
        rcases hcallee with hp | he
        · obtain ⟨cf, cl, sf, sl, sd, cq, nm, rfl⟩ := (isSuperPropertyAccess_iff callee).1 hp
          rw [visit_superPropertyCall] at hv
          cases hargs : VisitNodes s args with
          | error e => simp [hargs, Except.map] at hv
          | ok vargs =>
            simp only [hargs, Except.map, Except.ok.injEq] at hv
            subst hv
            simp only [allNodes, nodesOf, dataNodes, pointerNodes, listNodes, sliceNodes,
              NewPropertyAccessExpression, NewCallExpression, NewNodeList, NewIdentifier,
              NewThisExpression, NewKeywordExpression, Node.setLoc, List.singleton_append,
              Bool.false_eq_true, if_false, List.mem_cons, List.mem_append, List.append_nil,
              List.not_mem_nil, or_false, false_or] at hm
            rcases hm with rfl | (rfl | (rfl | hm | hm) | rfl) | rfl | hm
            · simp [Node.Kind, isScopeBoundary] at hb
            · simp [Node.Kind, isScopeBoundary] at hb
            · simp [Node.Kind, isScopeBoundary] at hb
            · exact Or.inr (Or.inl hm)
            · left
              simp only [allNodes, nodesOf, dataNodes, pointerNodes, Bool.false_eq_true,
                if_false, List.mem_cons, List.mem_append]
              exact Or.inr (Or.inl (Or.inl (Or.inl (Or.inr (Or.inr hm)))))
            · simp [Node.Kind, isScopeBoundary] at hb
            · simp [Node.Kind, isScopeBoundary] at hb
            · exact boundary_in_visited_list ih hsub hargs hm hb
        · obtain ⟨cf, cl, sf, sl, sd, cq, a, rfl⟩ := (isSuperElementAccess_iff callee).1 he
          rw [visit_superElementCall] at hv
          cases hargs : VisitNodes s args with
          | error e => simp [hargs, Except.map] at hv
          | ok vargs =>
            simp only [hargs, Except.map, Except.ok.injEq] at hv
            subst hv
            simp only [allNodes, nodesOf, dataNodes, pointerNodes, listNodes, sliceNodes,
              NewPropertyAccessExpression, NewCallExpression, NewNodeList, NewIdentifier,
              NewThisExpression, NewKeywordExpression, Node.setLoc, List.singleton_append,
              Bool.false_eq_true, if_false, List.mem_cons, List.mem_append, List.append_nil,
              List.not_mem_nil, or_false, false_or] at hm
            rcases hm with rfl | (rfl | hm | rfl) | rfl | hm
            · simp [Node.Kind, isScopeBoundary] at hb
            · simp [Node.Kind, isScopeBoundary] at hb
            · rcases boundary_in_elementAccess s a m hm hb with h | h
              · exact Or.inr (Or.inr h)
              · left
                simp only [allNodes, nodesOf, dataNodes, pointerNodes, Bool.false_eq_true,
                  if_false, List.mem_cons, List.mem_append]
                exact Or.inr (Or.inl (Or.inl (Or.inl (Or.inr (Or.inr h)))))
            · simp [Node.Kind, isScopeBoundary] at hb
            · simp [Node.Kind, isScopeBoundary] at hb
            · exact boundary_in_visited_list ih hsub hargs hm hb

/-! ## C1: scope boundaries -/

/-- C1, amended. Scope boundary of substitution: at a node whose kind is one of
the eight non-arrow function and class kinds `visitSuperAccessNode` returns
that very node; on a well-formed body `substituteSuperAccessesInBody` returns a
tree; in that tree every scope boundary found at a position with no rewritten
super access above it is found unchanged at the same position; and every scope
boundary anywhere in the result, also one that a rewritten super call has moved
to another position, is a node of the input (or of a binding), so a super
access written inside it is left untouched. -/
theorem scope_boundary_untouched (s : superAccessState) :
    (∀ n : Node, isScopeBoundary n.Kind = true → visitSuperAccessNode s n = .ok n) ∧
    (∀ body : Node, wellFormed body = true →
      ∃ result, substituteSuperAccessesInBody s (some body) = .ok (some result)) ∧
    (∀ body result : Node, substituteSuperAccessesInBody s (some body) = .ok (some result) →
      (∀ (position : List Nat) (nested : Node), subtreeAt body position = some nested →
        isScopeBoundary nested.Kind = true → keptAbove body position = true →
        subtreeAt result position = some nested) ∧
      (∀ m ∈ allNodes result, isScopeBoundary m.Kind = true →
        m ∈ allNodes body ∨ m ∈ pointerNodes (fun _ => false) s.superBinding
          ∨ m ∈ pointerNodes (fun _ => false) s.superIndexBinding)) := by
  refine ⟨fun n h => visit_boundary s n h, fun body h => substitute_ok s body h, ?_⟩
  intro body result h
  rw [substitute_eq_ok] at h
  exact ⟨fun position nested hsub hb hkept =>
      boundary_at_position s position body result nested h hsub hb hkept,
    boundary_from_input s body result h⟩

/-- C1 at the body `{ super.a; function () { super.b; } }`: the nested function
is returned as it is, and it is the second statement of the result. -/
theorem scope_boundary_untouched_witness :
    isScopeBoundary exampleNestedFunction.Kind = true ∧
    visitSuperAccessNode (exampleState false) exampleNestedFunction = .ok exampleNestedFunction ∧
    wellFormed exampleBodyWithFunction = true ∧
    subtreeAt exampleBodyWithFunction [1] = some exampleNestedFunction ∧
    keptAbove exampleBodyWithFunction [1] = true ∧
    ∃ result, substituteSuperAccessesInBody (exampleState false)
        (some exampleBodyWithFunction) = .ok (some result) ∧
      subtreeAt result [1] = some exampleNestedFunction :=
  have hwf : wellFormed exampleBodyWithFunction = true := by decide
  have hres := (scope_boundary_untouched (exampleState false)).2.1 exampleBodyWithFunction hwf
  ⟨by decide, (scope_boundary_untouched (exampleState false)).1 exampleNestedFunction (by decide),
    hwf, by rfl, by decide,
    hres.elim fun result h => ⟨result, h,
      ((scope_boundary_untouched (exampleState false)).2.2 exampleBodyWithFunction result h).1
        [1] exampleNestedFunction (by rfl) (by decide) (by decide)⟩⟩

/-! ## C2: what the substitution leaves behind -/

/-- C2 fails on the code. The argument of a super element access is not
visited: `super[super.x]` becomes `_superIndex(super.x)` and
`super[super.y](1)` becomes `_superIndex(super.y).call(this, 1)`, and both
results still have a property access on `super` in the scope of the body. -/
theorem super_access_in_index_argument_survives :
    wellFormed exampleIndexBySuper = true ∧
    substituteSuperAccessesInBody (exampleState false) (some exampleIndexBySuper)
      = .ok (some (NewCallExpression (some (NewIdentifier "_superIndex")) none none
          (NewNodeList [some (exampleSuperDot 6 13 "x")]) NodeFlagsNone)) ∧
    containsSuperAccess (NewCallExpression (some (NewIdentifier "_superIndex")) none none
      (NewNodeList [some (exampleSuperDot 6 13 "x")]) NodeFlagsNone) = true ∧
    wellFormed exampleCallIndexBySuper = true ∧
    substituteSuperAccessesInBody (exampleState false) (some exampleCallIndexBySuper)
      = .ok (some (spanned 0 17 (NewCallExpression
          (some (NewPropertyAccessExpression
            (some (NewCallExpression (some (NewIdentifier "_superIndex")) none none
              (NewNodeList [some (exampleSuperDot 6 13 "y")]) NodeFlagsNone))
            none (some (NewIdentifier "call")) NodeFlagsNone))
          none none
          (NewNodeList [some NewThisExpression, some (exampleNumber 15 16 "1")])
          NodeFlagsNone))) ∧
    containsSuperAccess (spanned 0 17 (NewCallExpression
      (some (NewPropertyAccessExpression
        (some (NewCallExpression (some (NewIdentifier "_superIndex")) none none
          (NewNodeList [some (exampleSuperDot 6 13 "y")]) NodeFlagsNone))
        none (some (NewIdentifier "call")) NodeFlagsNone))
      none none
      (NewNodeList [some NewThisExpression, some (exampleNumber 15 16 "1")])
      NodeFlagsNone)) = true :=
  ⟨by decide, by rfl, by decide, by decide, by rfl, by decide⟩

theorem kind_super (n : Node) (h : n.Kind = Kind.SuperKeyword) :
    ∃ sf sl sd, n = .mk .SuperKeyword sf sl sd := by
  obtain ⟨k, f, l, d⟩ := n
  simp only [Node.Kind] at h
  subst h
  exact ⟨_, _, _, rfl⟩

theorem visitSlice_of_forall₂ (s : superAccessState) :
    ∀ {args visited : List Node},
      List.Forall₂ (fun a v => visitSuperAccessNode s a = .ok v) args visited →
      visitSlice s (args.map some) = .ok (visited.map some)
  | _, _, List.Forall₂.nil => rfl
  | _, _, List.Forall₂.cons h hrest => by
    simp [visitSlice, h, visitSlice_of_forall₂ s hrest, bind, Except.bind, pure, Except.pure]

/-! ## C3: named super access -/

/-- C3. Named super access: at a property access whose expression is the
`super` keyword, `visitSuperAccessNode` returns the property access whose
expression is the state's `superBinding` and whose name is the name of the
input, with no question-dot token and no flags. -/
theorem named_super_access (s : superAccessState) (flags : NodeFlags) (loc : TextRange)
    (expression : Node) (questionDotToken name : Option Node)
    (h : expression.Kind = Kind.SuperKeyword) :
    visitSuperAccessNode s (.mk .PropertyAccessExpression flags loc
        (.PropertyAccessExpression (some expression) questionDotToken name))
      = .ok (.mk .PropertyAccessExpression NodeFlagsNone .unset
          (.PropertyAccessExpression s.superBinding none name)) := by
  obtain ⟨sf, sl, sd, rfl⟩ := kind_super expression h
  rfl

/-- C3 at `super.a`: the result is `_super.a`. -/
theorem named_super_access_witness :
    (exampleSuper 2).Kind = Kind.SuperKeyword ∧
    visitSuperAccessNode (exampleState false) (exampleSuperDot 2 9 "a")
      = .ok (.mk .PropertyAccessExpression NodeFlagsNone .unset
          (.PropertyAccessExpression (some (NewIdentifier "_super")) none
            (some (exampleName 8 9 "a")))) :=
  ⟨rfl, named_super_access (exampleState false) NodeFlagsNone (.range 2 9) (exampleSuper 2) none
    (some (exampleName 8 9 "a")) rfl⟩

/-! ## C4: indexed super access -/

/-- C4. Indexed super access: at `super[e]`, standing alone or as the callee
of a call, the rewritten access is the call of `superIndexBinding` with the
one argument `e` when `hasSuperPropertyAssignment` is false and the property
access `.value` on that call when it is true; nothing else of the state
enters it. -/
theorem indexed_super_access (s : superAccessState) (flags : NodeFlags) (loc : TextRange)
    (expression : Node) (questionDotToken argument : Option Node)
    (h : expression.Kind = Kind.SuperKeyword) :
    let indexCall := Node.mk .CallExpression NodeFlagsNone .unset
      (.CallExpression s.superIndexBinding none none (some [argument]))
    let access := if s.hasSuperPropertyAssignment = true then
        Node.mk .PropertyAccessExpression NodeFlagsNone .unset
          (.PropertyAccessExpression (some indexCall) none (some (NewIdentifier "value")))
      else indexCall
    visitSuperAccessNode s (.mk .ElementAccessExpression flags loc
        (.ElementAccessExpression (some expression) questionDotToken argument))
      = .ok access ∧
    ∀ (callFlags : NodeFlags) (callLoc : TextRange) (callQuestionDot : Option Node)
      (typeArguments arguments : Option (List (Option Node))),
      visitSuperAccessNode s (.mk .CallExpression callFlags callLoc
          (.CallExpression (some (.mk .ElementAccessExpression flags loc
            (.ElementAccessExpression (some expression) questionDotToken argument)))
            callQuestionDot typeArguments arguments))
        = (VisitNodes s arguments).map (fun visited =>
            Node.mk .CallExpression NodeFlagsNone callLoc
              (.CallExpression
                (some (.mk .PropertyAccessExpression NodeFlagsNone .unset
                  (.PropertyAccessExpression (some access) none (some (NewIdentifier "call")))))
                none none (some (some NewThisExpression :: visited.getD [])))) := by
  obtain ⟨sf, sl, sd, rfl⟩ := kind_super expression h
  refine ⟨?_, ?_⟩
  · rw [visit_superElement]
    cases hflag : s.hasSuperPropertyAssignment <;>
      simp [createSuperElementAccessInAsyncMethod, hflag, NewCallExpression,
        NewPropertyAccessExpression, NewNodeList]
  · intro callFlags callLoc callQuestionDot typeArguments arguments
    rw [visit_superElementCall]
    cases hflag : s.hasSuperPropertyAssignment <;>
      cases hv : VisitNodes s arguments <;>
      simp [createSuperElementAccessInAsyncMethod, hflag, NewCallExpression,
        NewPropertyAccessExpression, NewNodeList, Node.setLoc, Except.map]

/-- C4 at `super[super.x]` without and with a super property assignment:
`_superIndex(super.x)` and `_superIndex(super.x).value`. -/
theorem indexed_super_access_witness :
    (exampleSuper 0).Kind = Kind.SuperKeyword ∧
    visitSuperAccessNode (exampleState false) exampleIndexBySuper
      = .ok (.mk .CallExpression NodeFlagsNone .unset
          (.CallExpression (some (NewIdentifier "_superIndex")) none none
            (some [some (exampleSuperDot 6 13 "x")]))) ∧
    visitSuperAccessNode (exampleState true) exampleIndexBySuper
      = .ok (.mk .PropertyAccessExpression NodeFlagsNone .unset
          (.PropertyAccessExpression
            (some (.mk .CallExpression NodeFlagsNone .unset
              (.CallExpression (some (NewIdentifier "_superIndex")) none none
                (some [some (exampleSuperDot 6 13 "x")]))))
            none (some (NewIdentifier "value")))) :=
  ⟨rfl,
    (indexed_super_access (exampleState false) NodeFlagsNone (.range 0 14) (exampleSuper 0) none
      (some (exampleSuperDot 6 13 "x")) rfl).1,
    (indexed_super_access (exampleState true) NodeFlagsNone (.range 0 14) (exampleSuper 0) none
      (some (exampleSuperDot 6 13 "x")) rfl).1⟩

/-! ## C5: super calls -/

/-- C5. Super call rewriting: at a call whose callee is `super.x`, the result
is the call of `<superBinding>.x.call`, the accessor property built once, at
the span of the original call, with no question-dot token and no type
arguments; its arguments are a `this` expression followed by the visited
arguments, in their order, one more than the call had; the arguments of a
well-formed call are all visited with a result. -/
theorem super_call_rewriting (s : superAccessState) (flags : NodeFlags) (loc : TextRange)
    (calleeFlags : NodeFlags) (calleeLoc : TextRange) (expression : Node)
    (calleeQuestionDot name questionDotToken : Option Node)
    (typeArguments : Option (List (Option Node))) (h : expression.Kind = Kind.SuperKeyword) :
    let callTarget := Node.mk .PropertyAccessExpression NodeFlagsNone .unset
      (.PropertyAccessExpression
        (some (.mk .PropertyAccessExpression NodeFlagsNone .unset
          (.PropertyAccessExpression s.superBinding none name)))
        none (some (NewIdentifier "call")))
    let superCall := fun (arguments : Option (List (Option Node))) =>
      Node.mk .CallExpression flags loc
        (.CallExpression (some (.mk .PropertyAccessExpression calleeFlags calleeLoc
          (.PropertyAccessExpression (some expression) calleeQuestionDot name)))
          questionDotToken typeArguments arguments)
    (∀ args visited : List Node,
      List.Forall₂ (fun a v => visitSuperAccessNode s a = .ok v) args visited →
      visitSuperAccessNode s (superCall (some (args.map some)))
        = .ok (.mk .CallExpression NodeFlagsNone loc
            (.CallExpression (some callTarget) none none
              (some (some NewThisExpression :: visited.map some)))) ∧
      (some NewThisExpression :: visited.map some).length = args.length + 1) ∧
    (∀ args : List Node, (∀ a ∈ args, wellFormed a = true) →
      ∃ visited, List.Forall₂ (fun a v => visitSuperAccessNode s a = .ok v) args visited) ∧
    visitSuperAccessNode s (superCall none)
      = .ok (.mk .CallExpression NodeFlagsNone loc
          (.CallExpression (some callTarget) none none (some [some NewThisExpression]))) := by
  obtain ⟨sf, sl, sd, rfl⟩ := kind_super expression h
  refine ⟨?_, ?_, ?_⟩
  · intro args visited hv
    refine ⟨?_, ?_⟩
    · rw [visit_superPropertyCall]
      simp [VisitNodes, visitSlice_of_forall₂ s hv, NewCallExpression,
        NewPropertyAccessExpression, NewNodeList, Node.setLoc, Except.map, bind, Except.bind,
        pure, Except.pure]
    · simp [hv.length_eq]
  · intro args
    induction args with
    | nil => exact fun _ => ⟨[], List.Forall₂.nil⟩
    | cons a rest ih =>
      intro hwf
      obtain ⟨v, hv⟩ := visit_ok s a (hwf a (by simp))
      obtain ⟨vs, hvs⟩ := ih (fun b hb => hwf b (by simp [hb]))
      exact ⟨v :: vs, List.Forall₂.cons hv hvs⟩
  · rw [visit_superPropertyCall]
    rfl

/-- C5 at `super.m(a, super.y)`: the result is `_super.m.call(this, a, _super.y)`
at the span of the call. -/
theorem super_call_rewriting_witness :
    (exampleSuper 0).Kind = Kind.SuperKeyword ∧
    List.Forall₂ (fun a v => visitSuperAccessNode (exampleState false) a = .ok v)
      [exampleName 8 9 "a", exampleSuperDot 11 18 "y"]
      [exampleName 8 9 "a", NewPropertyAccessExpression (some (NewIdentifier "_super")) none
        (some (exampleName 17 18 "y")) NodeFlagsNone] ∧
    visitSuperAccessNode (exampleState false) exampleSuperMethodCall
      = .ok (.mk .CallExpression NodeFlagsNone (.range 0 21)
          (.CallExpression
            (some (.mk .PropertyAccessExpression NodeFlagsNone .unset
              (.PropertyAccessExpression
                (some (.mk .PropertyAccessExpression NodeFlagsNone .unset
                  (.PropertyAccessExpression (some (NewIdentifier "_super")) none
                    (some (exampleName 6 7 "m")))))
                none (some (NewIdentifier "call")))))
            none none
            (some [some NewThisExpression, some (exampleName 8 9 "a"),
              some (NewPropertyAccessExpression (some (NewIdentifier "_super")) none
                (some (exampleName 17 18 "y")) NodeFlagsNone)]))) :=
  have hv : List.Forall₂ (fun a v => visitSuperAccessNode (exampleState false) a = .ok v)
      [exampleName 8 9 "a", exampleSuperDot 11 18 "y"]
      [exampleName 8 9 "a", NewPropertyAccessExpression (some (NewIdentifier "_super")) none
        (some (exampleName 17 18 "y")) NodeFlagsNone] :=
    List.Forall₂.cons rfl (List.Forall₂.cons rfl List.Forall₂.nil)
  ⟨rfl, hv,
    ((super_call_rewriting (exampleState false) NodeFlagsNone (.range 0 21) NodeFlagsNone
      (.range 0 7) (exampleSuper 0) none (some (exampleName 6 7 "m")) none none rfl).1
      _ _ hv).1⟩

/-! ## C6: what the scan records -/

/-- C6. Scan recording: on a state whose captured set is not nil,
`trackSuperAccess` adds the name text of a property access on `super` to the
set, sets `hasSuperElementAccess` at an element access on `super`, and sets
`hasSuperPropertyAssignment` at an assignment whose left side, and at a prefix
or postfix `++` or `--` whose operand, contains a super property.  Scanning
every node of `super.x = 5; super.x++; super["y"]` from a fresh state gives
the captured names `[x]` and both flags on. -/
theorem scan_recording (contains : Option Node → Bool) (s : superAccessState)
    (captured : OrderedSet) (hset : s.capturedSuperProperties = some captured) :
    (∀ (flags : NodeFlags) (loc : TextRange) (expression : Node)
      (questionDotToken name : Option Node) (text : String),
      expression.Kind = Kind.SuperKeyword → textOf name = .ok text →
      trackSuperAccess contains s (.mk .PropertyAccessExpression flags loc
          (.PropertyAccessExpression (some expression) questionDotToken name))
        = .ok { s with capturedSuperProperties := some (captured.Add text) }) ∧
    (∀ (flags : NodeFlags) (loc : TextRange) (expression : Node)
      (questionDotToken argument : Option Node),
      expression.Kind = Kind.SuperKeyword →
      trackSuperAccess contains s (.mk .ElementAccessExpression flags loc
          (.ElementAccessExpression (some expression) questionDotToken argument))
        = .ok { s with hasSuperElementAccess := true }) ∧
    (∀ (flags : NodeFlags) (loc : TextRange) (modifiers : Option (List (Option Node)))
      (left typeNode right : Option Node) (operatorToken : Node),
      IsAssignmentOperator operatorToken.Kind = true → contains left = true →
      trackSuperAccess contains s (.mk .BinaryExpression flags loc
          (.BinaryExpression modifiers left typeNode (some operatorToken) right))
        = .ok { s with hasSuperPropertyAssignment := true }) ∧
    (∀ (flags : NodeFlags) (loc : TextRange) (operator : Kind) (operand : Option Node),
      operator = Kind.PlusPlusToken ∨ operator = Kind.MinusMinusToken →
      contains operand = true →
      trackSuperAccess contains s (.mk .PrefixUnaryExpression flags loc
          (.PrefixUnaryExpression operator operand))
        = .ok { s with hasSuperPropertyAssignment := true } ∧
      trackSuperAccess contains s (.mk .PostfixUnaryExpression flags loc
          (.PostfixUnaryExpression operand operator))
        = .ok { s with hasSuperPropertyAssignment := true }) ∧
    ((∀ n : Node, isSuperPropertyAccess n = true → contains (some n) = true) →
      ∀ (factory : NodeFactory) (superBinding superIndexBinding : Option Node),
      trackAll contains (freshState factory superBinding superIndexBinding)
          (exampleScanStatements.flatMap allNodes)
        = .ok { freshState factory superBinding superIndexBinding with
            capturedSuperProperties := some ⟨["x"]⟩
            hasSuperElementAccess := true
            hasSuperPropertyAssignment := true }) := by
  refine ⟨?_, ?_, ?_, ?_, ?_⟩
  · intro flags loc expression q name text hk ht
    obtain ⟨sf, sl, sd, rfl⟩ := kind_super expression hk
    simp [trackSuperAccess, hset, kindOf, Node.Kind, ht, bind, Except.bind, pure, Except.pure]
  · intro flags loc expression q argument hk
    obtain ⟨sf, sl, sd, rfl⟩ := kind_super expression hk
    simp [trackSuperAccess, hset, kindOf, Node.Kind, bind, Except.bind, pure, Except.pure]
  · intro flags loc modifiers left typeNode right operatorToken hop hleft
    simp [trackSuperAccess, hset, kindOf, hop, hleft, bind, Except.bind, pure, Except.pure]
  · intro flags loc operator operand hop hoperand
    rcases hop with rfl | rfl <;>
      simp [trackSuperAccess, hset, isUpdateExpression, hoperand, pure, Except.pure]
  · intro hcontains factory superBinding superIndexBinding
    have h1 : contains (some (exampleSuperDot 0 7 "x")) = true := hcontains _ rfl
    have h2 : contains (some (exampleSuperDot 13 20 "x")) = true := hcontains _ rfl
    simp only [exampleSuperDot, exampleSuper, exampleName, spanned, Node.setLoc,
      NewPropertyAccessExpression, NewKeywordExpression, NewIdentifier] at h1 h2
    simp [exampleScanStatements, allNodes, nodesOf, dataNodes, pointerNodes, listNodes,
      sliceNodes, slotsNodes, slotNodes, exampleStatement, exampleAssignment, exampleIncrement,
      exampleSuperIndex, exampleSuperDot, exampleSuper, exampleName, exampleNumber,
      exampleString, spanned, Node.setLoc, NewPropertyAccessExpression, NewKeywordExpression,
      NewIdentifier, NewToken, trackAll, trackSuperAccess, freshState, kindOf, textOf,
      Node.Kind, IsAssignmentOperator, isUpdateExpression, OrderedSet.Add, h1, h2, bind,
      Except.bind, pure, Except.pure]

/-- C6 with the target test of the examples, on a fresh state. -/
theorem scan_recording_witness :
    (freshState ⟨0⟩ none none).capturedSuperProperties = some ⟨[]⟩ ∧
    (∀ n : Node, isSuperPropertyAccess n = true → exampleTargetTest (some n) = true) ∧
    trackAll exampleTargetTest (freshState ⟨0⟩ none none)
        (exampleScanStatements.flatMap allNodes)
      = .ok { freshState ⟨0⟩ none none with
          capturedSuperProperties := some ⟨["x"]⟩
          hasSuperElementAccess := true
          hasSuperPropertyAssignment := true } :=
  have htest : ∀ n : Node, isSuperPropertyAccess n = true → exampleTargetTest (some n) = true :=
    fun n hn => by simp [exampleTargetTest, hn]
  ⟨rfl, htest,
    (scan_recording exampleTargetTest (freshState ⟨0⟩ none none) ⟨[]⟩ rfl).2.2.2.2 htest
      ⟨0⟩ none none⟩

/-! ## The state after a scan -/

theorem superPropertyName_of_ne {n : Node} (h : n.Kind ≠ Kind.PropertyAccessExpression) :
    superPropertyName n = none := by
  unfold superPropertyName
  split
  · exact absurd rfl h
  · rfl

theorem isSuperElementAccess_of_ne {n : Node} (h : n.Kind ≠ Kind.ElementAccessExpression) :
    isSuperElementAccess n = false := by
  unfold isSuperElementAccess
  split
  · exact absurd rfl h
  · rfl

theorem isSuperWrite_of_ne (contains : Option Node → Bool) {n : Node}
    (h1 : n.Kind ≠ Kind.BinaryExpression) (h2 : n.Kind ≠ Kind.PrefixUnaryExpression)
    (h3 : n.Kind ≠ Kind.PostfixUnaryExpression) : isSuperWrite contains n = false := by
  unfold isSuperWrite
  split
  · exact absurd rfl h1
  · exact absurd rfl h2
  · exact absurd rfl h2
  · exact absurd rfl h3
  · exact absurd rfl h3
  · rfl

theorem track_default (contains : Option Node → Bool) (s : superAccessState) (kind : Kind)
    (flags : NodeFlags) (loc : TextRange) (data : NodeData)
    (h1 : kind ≠ Kind.PropertyAccessExpression) (h2 : kind ≠ Kind.ElementAccessExpression)
    (h3 : kind ≠ Kind.BinaryExpression) (h4 : kind ≠ Kind.PrefixUnaryExpression)
    (h5 : kind ≠ Kind.PostfixUnaryExpression) :
    trackSuperAccess contains s (.mk kind flags loc data) = .ok s := by
  cases hset : s.capturedSuperProperties with
  | none => simp [trackSuperAccess, hset, pure, Except.pure]
  | some captured =>
    cases kind <;> simp at h1 h2 h3 h4 h5 <;> simp [trackSuperAccess, hset, pure, Except.pure]

theorem isSuperWrite_before (contains : Option Node → Bool) (flags : NodeFlags)
    (loc : TextRange) (operator : Kind) (operand : Option Node) :
    isSuperWrite contains (.mk .PrefixUnaryExpression flags loc
        (.PrefixUnaryExpression operator operand))
      = (isUpdateExpression (.mk .PrefixUnaryExpression flags loc
          (.PrefixUnaryExpression operator operand)) && contains operand) := by
  cases operator <;> simp [isSuperWrite, isUpdateExpression]

theorem isSuperWrite_after (contains : Option Node → Bool) (flags : NodeFlags)
    (loc : TextRange) (operator : Kind) (operand : Option Node) :
    isSuperWrite contains (.mk .PostfixUnaryExpression flags loc
        (.PostfixUnaryExpression operand operator))
      = (isUpdateExpression (.mk .PostfixUnaryExpression flags loc
          (.PostfixUnaryExpression operand operator)) && contains operand) := by
  cases operator <;> simp [isSuperWrite, isUpdateExpression]

/-- The state after one call of `trackSuperAccess` that returns: the name of a
property access on `super` is added, and each flag is raised at the nodes it
stands for. -/
theorem track_step (contains : Option Node → Bool) (s next : superAccessState) (n : Node)
    (captured : OrderedSet) (hset : s.capturedSuperProperties = some captured)
    (h : trackSuperAccess contains s n = .ok next) :
    next = { s with
      capturedSuperProperties := some (match superPropertyName n with
        | some text => captured.Add text
        | none => captured)
      hasSuperElementAccess := s.hasSuperElementAccess || isSuperElementAccess n
      hasSuperPropertyAssignment := s.hasSuperPropertyAssignment || isSuperWrite contains n } := by
  obtain ⟨kind, flags, loc, data⟩ := n
  obtain ⟨factory, cap, hE, hA, b1, b2⟩ := s
  simp only at hset
  subst hset
  by_cases hp : kind = Kind.PropertyAccessExpression
  · subst hp
    rw [isSuperElementAccess_of_ne (by simp [Node.Kind]),
      isSuperWrite_of_ne contains (by simp [Node.Kind]) (by simp [Node.Kind])
        (by simp [Node.Kind])]
    cases data <;> try (exact absurd h (throw_ne_ok next))
    rename_i e q name
    simp only [trackSuperAccess, bind_eq_ok] at h
    obtain ⟨k, hk, h⟩ := h
    by_cases hsup : k = Kind.SuperKeyword
    · subst hsup
      obtain ⟨sf, sl, sd, rfl⟩ := (kindOf_super_iff e).1 hk
      simp only [if_true, bind_eq_ok, pure_eq_ok] at h
      obtain ⟨text, ht, rfl⟩ := h
      simp [superPropertyName, ht]
    · simp only [hsup, if_false, pure_eq_ok] at h
      subst h
      have hname : superPropertyName (.mk .PropertyAccessExpression flags loc
          (.PropertyAccessExpression e q name)) = none := by
        unfold superPropertyName
        split
        · rename_i heq
          cases heq
          simp [kindOf, Node.Kind] at hk
          exact absurd hk.symm hsup
        · rfl
      simp [hname]
  · rw [superPropertyName_of_ne (by simpa [Node.Kind] using hp)]
    by_cases he : kind = Kind.ElementAccessExpression
    · subst he
      rw [isSuperWrite_of_ne contains (by simp [Node.Kind]) (by simp [Node.Kind])
        (by simp [Node.Kind])]
      cases data <;> try (exact absurd h (throw_ne_ok next))
      rename_i e q a
      simp only [trackSuperAccess, bind_eq_ok] at h
      obtain ⟨k, hk, h⟩ := h
      by_cases hsup : k = Kind.SuperKeyword
      · subst hsup
        obtain ⟨sf, sl, sd, rfl⟩ := (kindOf_super_iff e).1 hk
        simp only [if_true, pure_eq_ok] at h
        subst h
        simp [isSuperElementAccess]
      · simp only [hsup, if_false, pure_eq_ok] at h
        subst h
        have hel : isSuperElementAccess (.mk .ElementAccessExpression flags loc
            (.ElementAccessExpression e q a)) = false := by
          unfold isSuperElementAccess
          split
          · rename_i heq
            cases heq
            simp [kindOf, Node.Kind] at hk
            exact absurd hk.symm hsup
          · rfl
        simp [hel]
    · rw [isSuperElementAccess_of_ne (by simpa [Node.Kind] using he)]
      by_cases hb : kind = Kind.BinaryExpression
      · subst hb
        cases data <;> try (exact absurd h (throw_ne_ok next))
        rename_i m l t op r
        simp only [trackSuperAccess, bind_eq_ok] at h
        obtain ⟨k, hk, h⟩ := h
        obtain ⟨opnode, rfl, rfl⟩ := kindOf_eq_ok.1 hk
        cases hcond : (IsAssignmentOperator opnode.Kind && contains l) <;>
          simp only [hcond, Bool.false_eq_true, if_false, if_true, pure_eq_ok] at h <;>
          subst h <;> simp [isSuperWrite, hcond]
      · by_cases hpre : kind = Kind.PrefixUnaryExpression
        · subst hpre
          cases hu : isUpdateExpression (.mk .PrefixUnaryExpression flags loc data) with
          | false =>
            simp only [trackSuperAccess, hu, Bool.false_eq_true, if_false, pure_eq_ok] at h
            subst h
            cases data <;> first
              | (rw [isSuperWrite_before, hu]; simp)
              | simp [isSuperWrite]
          | true =>
            cases data <;> try (simp [isUpdateExpression] at hu; done)
            · rename_i op operand
              simp only [trackSuperAccess, hu, if_true] at h
              rw [isSuperWrite_before, hu]
              cases hc : contains operand <;>
                simp only [hc, Bool.false_eq_true, if_false, if_true, pure_eq_ok] at h <;>
                subst h <;> simp
            · simp only [trackSuperAccess, hu, if_true] at h
              exact absurd h (throw_ne_ok next)
        · by_cases hpost : kind = Kind.PostfixUnaryExpression
          · subst hpost
            cases hu : isUpdateExpression (.mk .PostfixUnaryExpression flags loc data) with
            | false =>
              simp only [trackSuperAccess, hu, Bool.false_eq_true, if_false, pure_eq_ok] at h
              subst h
              cases data <;> first
                | (rw [isSuperWrite_after, hu]; simp)
                | simp [isSuperWrite]
            | true =>
              cases data <;> try (simp [isUpdateExpression] at hu; done)
              · simp only [trackSuperAccess, hu, if_true] at h
                exact absurd h (throw_ne_ok next)
              · rename_i operand op
                simp only [trackSuperAccess, hu, if_true] at h
                rw [isSuperWrite_after, hu]
                cases hc : contains operand <;>
                  simp only [hc, Bool.false_eq_true, if_false, if_true, pure_eq_ok] at h <;>
                  subst h <;> simp
          · rw [isSuperWrite_of_ne contains (by simpa [Node.Kind] using hb)
              (by simpa [Node.Kind] using hpre) (by simpa [Node.Kind] using hpost)]
            rw [track_default contains _ kind flags loc data hp he hb hpre hpost] at h
            cases h
            simp

/-- The state after a scan that returns: the names of the property accesses on
`super` are added in the order of the nodes, and each flag is on when it was
on before or a node of the scan raises it. -/
theorem trackAll_state (contains : Option Node → Bool) :
    ∀ (nodes : List Node) (s final : superAccessState) (captured : OrderedSet),
      s.capturedSuperProperties = some captured →
      trackAll contains s nodes = .ok final →
      final = { s with
        capturedSuperProperties :=
          some ((nodes.filterMap superPropertyName).foldl OrderedSet.Add captured)
        hasSuperElementAccess := s.hasSuperElementAccess || nodes.any isSuperElementAccess
        hasSuperPropertyAssignment :=
          s.hasSuperPropertyAssignment || nodes.any (isSuperWrite contains) }
  | [], s, final, captured, hset, h => by
    simp only [trackAll, pure_eq_ok] at h
    subst h
    obtain ⟨factory, cap, hE, hA, b1, b2⟩ := s
    simp only at hset
    subst hset
    simp
  | n :: rest, s, final, captured, hset, h => by
    simp only [trackAll, bind_eq_ok] at h
    obtain ⟨next, hnext, hrest⟩ := h
    have hstep := track_step contains s next n captured hset hnext
    have hfinal := trackAll_state contains rest next final _ (by rw [hstep]) hrest
    rw [hfinal, hstep]
    cases hname : superPropertyName n <;> simp [hname, Bool.or_assoc]

theorem mem_firstOccurrences (l : List String) (y : String) :
    y ∈ firstOccurrences l ↔ y ∈ l := by
  induction l with
  | nil => simp [firstOccurrences]
  | cons x rest ih =>
    simp only [firstOccurrences, List.mem_cons, List.mem_filter, ih, bne_iff_ne]
    by_cases hy : y = x <;> simp [hy]

theorem nodup_firstOccurrences (l : List String) : (firstOccurrences l).Nodup := by
  induction l with
  | nil => simp [firstOccurrences]
  | cons x rest ih =>
    simp only [firstOccurrences, List.nodup_cons, List.mem_filter, bne_iff_ne]
    exact ⟨fun h => h.2 rfl, ih.filter _⟩

/-- Adding names one after the other to a set leaves the set in front and
appends the new names, each at the place of its first occurrence. -/
theorem foldl_add_values (names : List String) :
    ∀ acc : List String, (names.foldl OrderedSet.Add ⟨acc⟩).values
      = acc ++ (firstOccurrences names).filter (fun y => decide (y ∉ acc)) := by
  induction names with
  | nil => intro acc; simp [firstOccurrences]
  | cons x rest ih =>
    intro acc
    by_cases hx : x ∈ acc
    · simp only [List.foldl_cons, OrderedSet.Add, hx, if_true, ih, firstOccurrences,
        List.filter_cons, decide_not, decide_True, Bool.not_true, Bool.false_eq_true, if_false,
        List.filter_filter]
      congr 1
      apply List.filter_congr
      intro y _
      by_cases hy : y ∈ acc
      · simp [hy]
      · have hne : y ≠ x := fun h => hy (h ▸ hx)
        simp [hy, hne]
    · simp only [List.foldl_cons, OrderedSet.Add, hx, if_false, ih, firstOccurrences,
        List.filter_cons, decide_not, decide_False, Bool.not_false, if_true,
        List.filter_filter, List.append_assoc, List.singleton_append]
      congr 2
      apply List.filter_congr
      intro y _
      by_cases hy : y ∈ acc <;> by_cases hyx : y = x <;> simp [hy, hyx]

theorem foldl_add_empty (names : List String) :
    names.foldl OrderedSet.Add ⟨[]⟩ = ⟨firstOccurrences names⟩ := by
  have h := foldl_add_values names []
  simp only [List.not_mem_nil, not_false_eq_true, decide_True, List.filter_true,
    List.nil_append] at h
  cases hfold : names.foldl OrderedSet.Add ⟨[]⟩ with
  | mk values =>
    rw [hfold] at h
    simp only at h
    rw [h]

/-! ## The scan returns a state on nodes built as the parser builds them -/

theorem trackSuperAccess_ok (contains : Option Node → Bool) (s : superAccessState) (n : Node)
    (hbuilt : n.wellBuilt = true) : ∃ next, trackSuperAccess contains s n = .ok next := by
  obtain ⟨kind, flags, loc, data⟩ := n
  cases hset : s.capturedSuperProperties with
  | none => exact ⟨s, by simp [trackSuperAccess, hset, pure, Except.pure]⟩
  | some captured =>
    by_cases hp : kind = Kind.PropertyAccessExpression
    · subst hp
      cases data <;>
        simp [Node.wellBuilt, Node.data, Node.Kind, NodeData.kind?, hasOwnData] at hbuilt
      rename_i e q name
      simp only [NodeData.requiredPresent, Bool.and_eq_true] at hbuilt
      obtain ⟨m, rfl⟩ := Option.isSome_iff_exists.1 hbuilt.1
      have htext : ∃ text, textOf name = .ok text := by
        have h := hbuilt.2
        unfold hasText at h
        cases ht : textOf name with
        | ok text => exact ⟨text, rfl⟩
        | error e => simp [ht] at h
      obtain ⟨text, htext⟩ := htext
      by_cases hk : m.Kind = Kind.SuperKeyword
      · exact ⟨_, by simp [trackSuperAccess, hset, kindOf, hk, htext, bind, Except.bind, pure,
          Except.pure]; rfl⟩
      · exact ⟨s, by simp [trackSuperAccess, hset, kindOf, hk, bind, Except.bind, pure,
          Except.pure]⟩
    · by_cases he : kind = Kind.ElementAccessExpression
      · subst he
        cases data <;>
          simp [Node.wellBuilt, Node.data, Node.Kind, NodeData.kind?, hasOwnData] at hbuilt
        rename_i e q a
        simp only [NodeData.requiredPresent, Bool.and_eq_true] at hbuilt
        obtain ⟨m, rfl⟩ := Option.isSome_iff_exists.1 hbuilt.1
        by_cases hk : m.Kind = Kind.SuperKeyword
        · exact ⟨_, by simp [trackSuperAccess, hset, kindOf, hk, bind, Except.bind, pure,
            Except.pure]; rfl⟩
        · exact ⟨s, by simp [trackSuperAccess, hset, kindOf, hk, bind, Except.bind, pure,
            Except.pure]⟩
      · by_cases hb : kind = Kind.BinaryExpression
        · subst hb
          cases data <;>
            simp [Node.wellBuilt, Node.data, Node.Kind, NodeData.kind?, hasOwnData] at hbuilt
          rename_i md l t op r
          simp only [NodeData.requiredPresent, Bool.and_eq_true] at hbuilt
          obtain ⟨opnode, rfl⟩ := Option.isSome_iff_exists.1 hbuilt.1.2
          cases hcond : (IsAssignmentOperator opnode.Kind && contains l)
          · exact ⟨s, by simp [trackSuperAccess, hset, kindOf, hcond, bind, Except.bind, pure,
              Except.pure]⟩
          · exact ⟨_, by simp [trackSuperAccess, hset, kindOf, hcond, bind, Except.bind, pure,
              Except.pure]; rfl⟩
        · by_cases hpre : kind = Kind.PrefixUnaryExpression
          · subst hpre
            cases data <;>
              simp [Node.wellBuilt, Node.data, Node.Kind, NodeData.kind?, hasOwnData] at hbuilt
            rename_i op operand
            cases hu : isUpdateExpression (.mk .PrefixUnaryExpression flags loc
              (.PrefixUnaryExpression op operand)) <;> cases hc : contains operand <;>
              simp [trackSuperAccess, hset, hu, hc, pure, Except.pure]
          · by_cases hpost : kind = Kind.PostfixUnaryExpression
            · subst hpost
              cases data <;>
                simp [Node.wellBuilt, Node.data, Node.Kind, NodeData.kind?, hasOwnData] at hbuilt
              rename_i operand op
              cases hu : isUpdateExpression (.mk .PostfixUnaryExpression flags loc
                (.PostfixUnaryExpression operand op)) <;> cases hc : contains operand <;>
                simp [trackSuperAccess, hset, hu, hc, pure, Except.pure]
            · exact ⟨s, track_default contains s kind flags loc data hp he hb hpre hpost⟩

/-- The scan of nodes built as the parser builds them returns a state. -/
theorem trackAll_ok (contains : Option Node → Bool) :
    ∀ (nodes : List Node) (s : superAccessState), (∀ n ∈ nodes, n.wellBuilt = true) →
      ∃ scanned, trackAll contains s nodes = .ok scanned
  | [], s, _ => ⟨s, rfl⟩
  | n :: rest, s, h => by
    obtain ⟨next, hnext⟩ := trackSuperAccess_ok contains s n (h n (by simp))
    obtain ⟨scanned, hscanned⟩ := trackAll_ok contains rest next
      (fun m hm => h m (by simp [hm]))
    exact ⟨scanned, by simp [trackAll, hnext, hscanned, bind, Except.bind]⟩

/-! ## C7, C8: the accessor declaration -/

/-- The declaration built from a captured set: one accessor per name, in the
order of the set, with a getter and, when a super property assignment was
seen, a setter. -/
theorem createSuperAccessVariableStatement_eq (s : superAccessState) (captured : OrderedSet)
    (hset : s.capturedSuperProperties = some captured) :
    createSuperAccessVariableStatement s
      = .ok (expectedDeclaration s.superBinding (captured.values.map (fun name =>
          expectedAccessor name
            (if s.hasSuperPropertyAssignment = true then
              [expectedGetter name, expectedSetter name]
            else [expectedGetter name])))) := by
  cases hflag : s.hasSuperPropertyAssignment <;>
    simp [createSuperAccessVariableStatement, hset, hflag, expectedDeclaration, expectedAccessor,
      accessorFor, descriptorProperties, expectedGetter, expectedSetter, OrderedSet.Values,
      NewAssignmentExpression, Function.comp_def, bind, Except.bind, pure, Except.pure]

/-- C7. Accessor object names and order: the scan of nodes built as the parser
builds them returns a state; after the scan of any sequence of nodes from a
fresh state, the declaration binds the accessor name to
`Object.create(null, descriptors)` where the descriptors object has one
property per distinct recorded name and no other, in the order of first
capture, and the descriptor of each name starts with the getter
`get: () => super.name` for that same name. -/
theorem accessor_names_and_order (contains : Option Node → Bool) (factory : NodeFactory)
    (superBinding superIndexBinding : Option Node) (nodes : List Node) :
    let names := firstOccurrences (nodes.filterMap superPropertyName)
    names.Nodup ∧ (∀ x, x ∈ names ↔ x ∈ nodes.filterMap superPropertyName) ∧
    ((∀ n ∈ nodes, n.wellBuilt = true) →
      ∃ scanned, trackAll contains (freshState factory superBinding superIndexBinding) nodes
        = .ok scanned) ∧
    ∀ scanned : superAccessState,
      trackAll contains (freshState factory superBinding superIndexBinding) nodes
        = .ok scanned →
      scanned.capturedSuperProperties = some ⟨names⟩ ∧
      ∃ rest : String → List Node,
        createSuperAccessVariableStatement scanned
          = .ok (expectedDeclaration superBinding (names.map (fun name =>
              expectedAccessor name (expectedGetter name :: rest name)))) := by
  refine ⟨nodup_firstOccurrences _, mem_firstOccurrences _,
    fun hbuilt => trackAll_ok contains nodes _ hbuilt, ?_⟩
  intro scanned h
  have hstate := trackAll_state contains nodes _ scanned ⟨[]⟩ rfl h
  rw [foldl_add_empty] at hstate
  refine ⟨by rw [hstate], ?_⟩
  refine ⟨fun name => if scanned.hasSuperPropertyAssignment = true then [expectedSetter name]
    else [], ?_⟩
  rw [createSuperAccessVariableStatement_eq scanned ⟨firstOccurrences
    (nodes.filterMap superPropertyName)⟩ (by rw [hstate])]
  have hb : scanned.superBinding = superBinding := by rw [hstate]; rfl
  rw [hb]
  cases hflag : scanned.hasSuperPropertyAssignment <;> simp

/-- C7 at the scan of `super.b`, `super.a`, `super.b`: the names are `b`, `a`. -/
theorem accessor_names_and_order_witness :
    (∀ n ∈ exampleReads, n.wellBuilt = true) ∧
    trackAll exampleTargetTest (freshState ⟨0⟩ (some (NewIdentifier "_super")) none) exampleReads
      = .ok { freshState ⟨0⟩ (some (NewIdentifier "_super")) none with
          capturedSuperProperties := some ⟨["b", "a"]⟩ } ∧
    firstOccurrences (exampleReads.filterMap superPropertyName) = ["b", "a"] ∧
    ∃ rest : String → List Node,
      createSuperAccessVariableStatement { freshState ⟨0⟩ (some (NewIdentifier "_super")) none with
          capturedSuperProperties := some ⟨["b", "a"]⟩ }
        = .ok (expectedDeclaration (some (NewIdentifier "_super"))
            ((firstOccurrences (exampleReads.filterMap superPropertyName)).map (fun name =>
              expectedAccessor name (expectedGetter name :: rest name)))) :=
  ⟨by decide, by rfl, by decide,
    ((accessor_names_and_order exampleTargetTest ⟨0⟩ (some (NewIdentifier "_super")) none
      exampleReads).2.2.2
      { freshState ⟨0⟩ (some (NewIdentifier "_super")) none with
        capturedSuperProperties := some ⟨["b", "a"]⟩ } (by rfl)).2⟩

/-- C8. Setter pairing: in the declaration every captured name has a
descriptor with the getter, followed by the setter `set: v => super.name = v`
exactly when `hasSuperPropertyAssignment` is true; the scan of nodes built as
the parser builds them returns a state, and after the scan of a sequence of
nodes from a fresh state the flag is true exactly when one of the nodes is an
assignment to, or an update of, a target that contains a super property. -/
theorem setter_pairing (contains : Option Node → Bool) (s : superAccessState)
    (captured : OrderedSet) (hset : s.capturedSuperProperties = some captured) :
    createSuperAccessVariableStatement s
      = .ok (expectedDeclaration s.superBinding (captured.values.map (fun name =>
          expectedAccessor name
            (if s.hasSuperPropertyAssignment = true then
              [expectedGetter name, expectedSetter name]
            else [expectedGetter name])))) ∧
    ∀ (factory : NodeFactory) (superBinding superIndexBinding : Option Node)
      (nodes : List Node),
      ((∀ n ∈ nodes, n.wellBuilt = true) →
        ∃ scanned, trackAll contains (freshState factory superBinding superIndexBinding) nodes
          = .ok scanned) ∧
      ∀ scanned : superAccessState,
        trackAll contains (freshState factory superBinding superIndexBinding) nodes
          = .ok scanned →
        scanned.hasSuperPropertyAssignment = nodes.any (isSuperWrite contains) := by
  refine ⟨createSuperAccessVariableStatement_eq s captured hset, ?_⟩
  intro factory superBinding superIndexBinding nodes
  refine ⟨fun hbuilt => trackAll_ok contains nodes _ hbuilt, ?_⟩
  intro scanned h
  have hstate := trackAll_state contains nodes _ scanned ⟨[]⟩ rfl h
  rw [hstate]
  simp [freshState]

/-- C8 at a state with the captured name `x`: getter and setter with a super
property assignment, the getter alone without. -/
theorem setter_pairing_witness :
    ({ exampleState true with capturedSuperProperties := some ⟨["x"]⟩ } :
      superAccessState).capturedSuperProperties = some ⟨["x"]⟩ ∧
    createSuperAccessVariableStatement
        { exampleState true with capturedSuperProperties := some ⟨["x"]⟩ }
      = .ok (expectedDeclaration (some (NewIdentifier "_super"))
          [expectedAccessor "x" [expectedGetter "x", expectedSetter "x"]]) ∧
    createSuperAccessVariableStatement
        { exampleState false with capturedSuperProperties := some ⟨["x"]⟩ }
      = .ok (expectedDeclaration (some (NewIdentifier "_super"))
          [expectedAccessor "x" [expectedGetter "x"]]) :=
  ⟨rfl,
    (setter_pairing exampleTargetTest
      { exampleState true with capturedSuperProperties := some ⟨["x"]⟩ } ⟨["x"]⟩ rfl).1,
    (setter_pairing exampleTargetTest
      { exampleState false with capturedSuperProperties := some ⟨["x"]⟩ } ⟨["x"]⟩ rfl).1⟩

/-! ## C9: the end-to-end example -/

/-- C9. End-to-end example: for the body
`{ super.x = 5; return super.x + super["y"](1); }`, scanning every node from a
fresh state, substituting and building the declaration give the declaration
`const acc = Object.create(null, { x: { get: () => super.x, set: v => super.x = v } })`
with `x` as the only property, and the body
`{ acc.x = 5; return acc.x + idx("y").value.call(this, 1); }`. -/
theorem end_to_end_example (contains : Option Node → Bool)
    (hcontains : ∀ n : Node, isSuperPropertyAccess n = true → contains (some n) = true)
    (factory : NodeFactory) (acc idx : Node) :
    ∃ scanned : superAccessState,
      trackAll contains (freshState factory (some acc) (some idx)) (allNodes exampleEndToEndBody)
        = .ok scanned ∧
      scanned.capturedSuperProperties = some ⟨["x"]⟩ ∧
      scanned.hasSuperElementAccess = true ∧
      scanned.hasSuperPropertyAssignment = true ∧
      createSuperAccessVariableStatement scanned
        = .ok (expectedDeclaration (some acc)
            [expectedAccessor "x" [expectedGetter "x", expectedSetter "x"]]) ∧
      substituteSuperAccessesInBody scanned (some exampleEndToEndBody)
        = .ok (some (exampleEndToEndResult acc idx)) := by
  refine ⟨{ freshState factory (some acc) (some idx) with
    capturedSuperProperties := some ⟨["x"]⟩
    hasSuperElementAccess := true
    hasSuperPropertyAssignment := true }, ?_, rfl, rfl, rfl, rfl, rfl⟩
  have h1 : contains (some (exampleSuperDot 2 9 "x")) = true := hcontains _ rfl
  simp only [exampleSuperDot, exampleSuper, exampleName, spanned, Node.setLoc,
    NewPropertyAccessExpression, NewKeywordExpression, NewIdentifier] at h1
  simp [exampleEndToEndBody, allNodes, nodesOf, dataNodes, pointerNodes, listNodes,
    sliceNodes, slotsNodes, slotNodes, exampleBlock, exampleStatement, exampleReturn,
    exampleAssignment, exampleSum, exampleCall, exampleSuperIndex, exampleSuperDot,
    exampleSuper, exampleName, exampleNumber, exampleString, spanned, Node.setLoc,
    NewPropertyAccessExpression, NewCallExpression, NewNodeList, NewKeywordExpression,
    NewIdentifier, NewToken, trackAll, trackSuperAccess, freshState, kindOf, textOf,
    Node.Kind, IsAssignmentOperator, isUpdateExpression, OrderedSet.Add, h1, bind,
    Except.bind, pure, Except.pure]

/-- C9 with the target test of the examples and the bindings `_super` and
`_superIndex`. -/
theorem end_to_end_example_witness :
    (∀ n : Node, isSuperPropertyAccess n = true → exampleTargetTest (some n) = true) ∧
    ∃ scanned : superAccessState,
      trackAll exampleTargetTest
          (freshState ⟨0⟩ (some (NewIdentifier "_super")) (some (NewIdentifier "_superIndex")))
          (allNodes exampleEndToEndBody)
        = .ok scanned ∧
      scanned.capturedSuperProperties = some ⟨["x"]⟩ ∧
      scanned.hasSuperElementAccess = true ∧
      scanned.hasSuperPropertyAssignment = true ∧
      createSuperAccessVariableStatement scanned
        = .ok (expectedDeclaration (some (NewIdentifier "_super"))
            [expectedAccessor "x" [expectedGetter "x", expectedSetter "x"]]) ∧
      substituteSuperAccessesInBody scanned (some exampleEndToEndBody)
        = .ok (some (exampleEndToEndResult (NewIdentifier "_super")
            (NewIdentifier "_superIndex"))) :=
  have htest : ∀ n : Node, isSuperPropertyAccess n = true → exampleTargetTest (some n) = true :=
    fun n hn => by simp [exampleTargetTest, hn]
  ⟨htest, end_to_end_example exampleTargetTest htest ⟨0⟩ (NewIdentifier "_super")
    (NewIdentifier "_superIndex")⟩

/-! ## The rewrite without an element access and the index helper -/

/-- On a well-formed tree without an element access on `super` in its own
scope, the rewrite function gives the same outcome for any two states with
the same `superBinding`. -/
theorem visit_independent_of_index (s1 s2 : superAccessState)
    (hb : s1.superBinding = s2.superBinding) :
    ∀ body : Node, wellFormed body = true →
      (∀ m ∈ scopeNodes body, isSuperElementAccess m = false) →
      visitSuperAccessNode s1 body = visitSuperAccessNode s2 body := by
  refine induction_node (P := fun body => wellFormed body = true →
      (∀ m ∈ scopeNodes body, isSuperElementAccess m = false) →
      visitSuperAccessNode s1 body = visitSuperAccessNode s2 body) ?_
  intro body ih hwf hno
  obtain ⟨hbuilt, hch⟩ := (wellFormed_iff body).1 hwf
  have hchb : ∀ c ∈ body.children, c.wellBuilt = true :=
    fun c hc => ((wellFormed_iff c).1 (hch c hc)).1
  cases hbody : isScopeBoundary body.Kind with
  | true => rw [visit_boundary s1 body hbody, visit_boundary s2 body hbody]
  | false =>
    have hih : ∀ c ∈ body.children, visitSuperAccessNode s1 c = visitSuperAccessNode s2 c :=
      fun c hc => ih c hc (hch c hc) (fun m hm => hno m (mem_nodesOf_child hbody hc hm))
    cases hsite : isSuperAccessSite body with
    | false =>
      rw [visit_of_not_site s1 hbuilt hchb hsite hbody,
        visit_of_not_site s2 hbuilt hchb hsite hbody]
      exact NodeVisitor.VisitEachChild_congr hih
    | true =>
      simp only [isSuperAccessSite, Bool.or_eq_true] at hsite
      rcases hsite with (hp | he) | hcall
      · obtain ⟨f, l, sf, sl, sd, q, nm, rfl⟩ := (isSuperPropertyAccess_iff body).1 hp
        rw [visit_superProperty, visit_superProperty, hb]
      · rw [hno body (mem_nodesOf_self _ body)] at he
        exact absurd he (by simp)
      · obtain ⟨flags, loc, callee, q, ta, args, rfl, hcallee⟩ := (isSuperCall_iff body).1 hcall
        rcases hcallee with hp | he
        · obtain ⟨cf, cl, sf, sl, sd, cq, nm, rfl⟩ := (isSuperPropertyAccess_iff callee).1 hp
          have hargs : VisitNodes s1 args = VisitNodes s2 args := by
            rw [VisitNodes_eq, VisitNodes_eq]
            refine NodeVisitor.VisitNodes_congr args (fun c hc => hih c ?_)
            simp [Node.children, Node.data, NodeData.children, hc]
          rw [visit_superPropertyCall, visit_superPropertyCall, hargs, hb]
        · have hmem : callee ∈ scopeNodes (Node.mk Kind.CallExpression flags loc
              (NodeData.CallExpression (some callee) q ta args)) :=
            mem_nodesOf_child hbody (by simp [Node.children, Node.data, NodeData.children])
              (mem_nodesOf_self _ callee)
          rw [hno callee hmem] at he
          exact absurd he (by simp)

/-! ## The not-null condition -/

/-- C19. `createNotNullCondition` builds `(left !== null) && (right !== void 0)`
when `invert` is false and `(left === null) || (right === void 0)` when it is
true, with `left` and `right` as given and in this order; read as a condition,
with `===` and `!==` as complementary tests, the inverted form is the negation
of the other one. -/
theorem not_null_condition_shape_and_duality (left right : Option Node) :
    createNotNullCondition left right false
        = binaryOf Kind.AmpersandAmpersandToken
            (some (binaryOf Kind.ExclamationEqualsEqualsToken left (some nullKeyword)))
            (some (binaryOf Kind.ExclamationEqualsEqualsToken right (some voidZero)))
      ∧ createNotNullCondition left right true
        = binaryOf Kind.BarBarToken
            (some (binaryOf Kind.EqualsEqualsEqualsToken left (some nullKeyword)))
            (some (binaryOf Kind.EqualsEqualsEqualsToken right (some voidZero)))
      ∧ ∀ same : Option Node → Option Node → Bool,
          conditionValue same (createNotNullCondition left right false)
              = some (!same left (some nullKeyword) && !same right (some voidZero))
            ∧ conditionValue same (createNotNullCondition left right true)
              = some (!(!same left (some nullKeyword) && !same right (some voidZero))) := by
  refine ⟨rfl, rfl, fun same => ⟨rfl, ?_⟩⟩
  show some (same left (some nullKeyword) || same right (some voidZero)) = _
  cases same left (some nullKeyword) <;> cases same right (some voidZero) <;> rfl

/-! ## The scan: disabled state, monotonicity and frame -/

theorem track_of_nil (contains : Option Node → Bool) (s : superAccessState) (n : Node)
    (h : s.capturedSuperProperties = none) : trackSuperAccess contains s n = .ok s := by
  simp [trackSuperAccess, h, pure, Except.pure]

theorem superPropertyName_of_not_access {n : Node} (h : isSuperPropertyAccess n = false) :
    superPropertyName n = none := by
  unfold superPropertyName
  split
  · simp [isSuperPropertyAccess] at h
  · rfl

theorem values_prefix_add (set : OrderedSet) (name : String) :
    set.values <+: (set.Add name).values := by
  unfold OrderedSet.Add
  split
  · exact List.prefix_refl _
  · exact List.prefix_append _ _

/-- C17. When the captured set is nil, `trackSuperAccess` returns the state it
was given, for every node: no name is recorded and no flag is set. -/
theorem tracking_disabled_without_set (contains : Option Node → Bool) (s : superAccessState)
    (n : Node) (h : s.capturedSuperProperties = none) :
    trackSuperAccess contains s n = .ok s :=
  track_of_nil contains s n h

theorem tracking_disabled_without_set_witness :
    exampleStateOutsideAsync.capturedSuperProperties = none
      ∧ trackSuperAccess exampleTargetTest exampleStateOutsideAsync
          (exampleAssignment 0 11 (exampleSuperDot 0 7 "x") (exampleNumber 10 11 "5"))
        = .ok exampleStateOutsideAsync :=
  ⟨rfl, tracking_disabled_without_set exampleTargetTest exampleStateOutsideAsync _ rfl⟩

/-- C18. `trackSuperAccess` returns a state on every node built as the parser
builds it, and whenever it returns a state: a flag that was true stays true; the
captured names stay, in their order, at the front of the new captured names;
the two bindings and the factory are unchanged; a property access can only
change the captured set, an element access only `hasSuperElementAccess`, a
binary, prefix or postfix expression only `hasSuperPropertyAssignment`; a node
of any other kind, and a property or element access whose expression is not
`super`, changes nothing. -/
theorem tracking_monotone_and_framed (contains : Option Node → Bool) (s : superAccessState)
    (n : Node) :
    (n.wellBuilt = true → ∃ next, trackSuperAccess contains s n = .ok next)
      ∧ ∀ next, trackSuperAccess contains s n = .ok next →
        (s.hasSuperElementAccess = true → next.hasSuperElementAccess = true)
        ∧ (s.hasSuperPropertyAssignment = true → next.hasSuperPropertyAssignment = true)
        ∧ (∀ captured, s.capturedSuperProperties = some captured →
            ∃ after, next.capturedSuperProperties = some after
              ∧ captured.values <+: after.values)
        ∧ (s.capturedSuperProperties = none → next.capturedSuperProperties = none)
        ∧ next.superBinding = s.superBinding
        ∧ next.superIndexBinding = s.superIndexBinding
        ∧ next.factory = s.factory
        ∧ (n.Kind = Kind.PropertyAccessExpression →
            next = { s with capturedSuperProperties := next.capturedSuperProperties })
        ∧ (n.Kind = Kind.ElementAccessExpression →
            next = { s with hasSuperElementAccess := next.hasSuperElementAccess })
        ∧ (n.Kind = Kind.BinaryExpression ∨ n.Kind = Kind.PrefixUnaryExpression
              ∨ n.Kind = Kind.PostfixUnaryExpression →
            next = { s with hasSuperPropertyAssignment := next.hasSuperPropertyAssignment })
        ∧ (n.Kind ≠ Kind.PropertyAccessExpression → n.Kind ≠ Kind.ElementAccessExpression →
            n.Kind ≠ Kind.BinaryExpression → n.Kind ≠ Kind.PrefixUnaryExpression →
            n.Kind ≠ Kind.PostfixUnaryExpression → next = s)
        ∧ (n.Kind = Kind.PropertyAccessExpression ∨ n.Kind = Kind.ElementAccessExpression →
            isSuperPropertyAccess n = false → isSuperElementAccess n = false → next = s) := by
  refine ⟨trackSuperAccess_ok contains s n, fun next h => ?_⟩
  cases hset : s.capturedSuperProperties with
  | none =>
    have hs : next = s := by
      rw [track_of_nil contains s n hset] at h
      exact (Except.ok.inj h).symm
    subst hs
    obtain ⟨factory, cap, hE, hA, b1, b2⟩ := next
    simp only at hset
    subst hset
    simp
  | some captured =>
    have hnext := track_step contains s next n captured hset h
    obtain ⟨factory, cap, hE, hA, b1, b2⟩ := s
    simp only at hset
    subst hset
    subst hnext
    refine ⟨?_, ?_, ?_, ?_, rfl, rfl, rfl, ?_, ?_, ?_, ?_, ?_⟩
    · intro h1
      simp only at h1
      simp [h1]
    · intro h1
      simp only at h1
      simp [h1]
    · intro c hc
      cases hc
      refine ⟨_, rfl, ?_⟩
      cases superPropertyName n with
      | none => exact List.prefix_refl _
      | some text => exact values_prefix_add _ _
    · intro h1
      cases h1
    · intro hk
      rw [isSuperElementAccess_of_ne (by simp [hk]),
        isSuperWrite_of_ne contains (by simp [hk]) (by simp [hk]) (by simp [hk])]
      simp
    · intro hk
      rw [superPropertyName_of_ne (by simp [hk]),
        isSuperWrite_of_ne contains (by simp [hk]) (by simp [hk]) (by simp [hk])]
      simp
    · intro hk
      have h1 : n.Kind ≠ Kind.PropertyAccessExpression := by
        rcases hk with hk | hk | hk <;> simp [hk]
      have h2 : n.Kind ≠ Kind.ElementAccessExpression := by
        rcases hk with hk | hk | hk <;> simp [hk]
      rw [superPropertyName_of_ne h1, isSuperElementAccess_of_ne h2]
      simp
    · intro h1 h2 h3 h4 h5
      rw [superPropertyName_of_ne h1, isSuperElementAccess_of_ne h2,
        isSuperWrite_of_ne contains h3 h4 h5]
      simp
    · intro hk hp he
      have h3 : isSuperWrite contains n = false := by
        apply isSuperWrite_of_ne <;> rcases hk with hk | hk <;> simp [hk]
      rw [superPropertyName_of_not_access hp, he, h3]
      simp

theorem tracking_monotone_and_framed_witness :
    (exampleSuperDot 20 27 "b").wellBuilt = true
      ∧ trackSuperAccess exampleTargetTest
          { exampleState true with
            capturedSuperProperties := some ⟨["b", "a"]⟩, hasSuperElementAccess := true }
          (exampleSuperDot 20 27 "b")
        = .ok { exampleState true with
            capturedSuperProperties := some ⟨["b", "a"]⟩, hasSuperElementAccess := true }
      ∧ ({ exampleState true with
            capturedSuperProperties := some ⟨["b", "a"]⟩, hasSuperElementAccess := true }
          : superAccessState).superIndexBinding = some (NewIdentifier "_superIndex") :=
  ⟨by decide, rfl,
    ((tracking_monotone_and_framed exampleTargetTest
      { exampleState true with
        capturedSuperProperties := some ⟨["b", "a"]⟩, hasSuperElementAccess := true }
      (exampleSuperDot 20 27 "b")).2 _ rfl).2.2.2.2.2.1⟩

/-! ## The declaration for an empty set, and a nil index binding -/

/-- C14, counterexample. With an empty captured set
`createSuperAccessVariableStatement` returns the statement
`const _super = Object.create(null, {})`, the descriptors object being empty. -/
theorem declaration_for_empty_set_counterexample :
    (exampleState false).capturedSuperProperties = some ⟨[]⟩
      ∧ createSuperAccessVariableStatement (exampleState false)
        = .ok (expectedDeclaration (some (NewIdentifier "_super")) []) :=
  ⟨rfl, rfl⟩

/-- C14, amended. `createSuperAccessVariableStatement` has no guard for the
empty set: for every non-nil captured set it returns a variable statement, and
for the empty set this is `const binding = Object.create(null, {})` with an
empty descriptors object. -/
theorem declaration_built_for_every_set (s : superAccessState) (captured : OrderedSet)
    (hset : s.capturedSuperProperties = some captured) :
    ∃ statement, createSuperAccessVariableStatement s = .ok statement
      ∧ statement.Kind = Kind.VariableStatement
      ∧ (captured.values = [] → statement = expectedDeclaration s.superBinding []) := by
  refine ⟨_, createSuperAccessVariableStatement_eq s captured hset, rfl, fun h => ?_⟩
  rw [h]
  rfl

theorem declaration_built_for_every_set_witness :
    (exampleState true).capturedSuperProperties = some ⟨[]⟩
      ∧ ∃ statement, createSuperAccessVariableStatement (exampleState true) = .ok statement
        ∧ statement.Kind = Kind.VariableStatement
        ∧ ((⟨[]⟩ : OrderedSet).values = [] →
            statement = expectedDeclaration (exampleState true).superBinding []) :=
  ⟨rfl, declaration_built_for_every_set (exampleState true) ⟨[]⟩ rfl⟩

/-- C15, counterexample. With a nil index binding the rewrite of `super["y"]`
does not fail: it returns `(...)("y").value`, a call whose callee is absent. -/
theorem nil_index_binding_counterexample :
    exampleStateWithoutIndex.superIndexBinding = none
      ∧ visitSuperAccessNode exampleStateWithoutIndex
          (exampleSuperIndex 24 34 (exampleString 30 33 "y"))
        = .ok (NewPropertyAccessExpression
            (some (callWithoutCallee (some (exampleString 30 33 "y")))) none
            (some (NewIdentifier "value")) NodeFlagsNone) :=
  ⟨rfl, rfl⟩

/-- C15, amended. `createSuperElementAccessInAsyncMethod` does not test the index
binding: when it is nil, the function returns the call with an absent callee
and the argument as only argument, inside `.value` when
`hasSuperPropertyAssignment` is true, and the rewrite of `super[x]` returns that
tree without a fatal error. -/
theorem nil_index_binding_gives_absent_callee (s : superAccessState)
    (h : s.superIndexBinding = none) (argument q : Option Node) (flags sf : NodeFlags)
    (loc sl : TextRange) (sd : NodeData) :
    createSuperElementAccessInAsyncMethod s argument
        = (if s.hasSuperPropertyAssignment = true then
            NewPropertyAccessExpression (some (callWithoutCallee argument)) none
              (some (NewIdentifier "value")) NodeFlagsNone
          else callWithoutCallee argument)
      ∧ visitSuperAccessNode s (.mk .ElementAccessExpression flags loc
          (.ElementAccessExpression (some (.mk .SuperKeyword sf sl sd)) q argument))
        = .ok (if s.hasSuperPropertyAssignment = true then
            NewPropertyAccessExpression (some (callWithoutCallee argument)) none
              (some (NewIdentifier "value")) NodeFlagsNone
          else callWithoutCallee argument) := by
  have hcreate : createSuperElementAccessInAsyncMethod s argument
      = (if s.hasSuperPropertyAssignment = true then
          NewPropertyAccessExpression (some (callWithoutCallee argument)) none
            (some (NewIdentifier "value")) NodeFlagsNone
        else callWithoutCallee argument) := by
    simp only [createSuperElementAccessInAsyncMethod, h]
    rfl
  exact ⟨hcreate, by rw [visit_superElement, hcreate]⟩

theorem nil_index_binding_gives_absent_callee_witness :
    ({ exampleStateWithoutIndex with hasSuperPropertyAssignment := false }
        : superAccessState).superIndexBinding = none
      ∧ visitSuperAccessNode { exampleStateWithoutIndex with hasSuperPropertyAssignment := false }
          (exampleSuperIndex 24 34 (exampleString 30 33 "y"))
        = .ok (callWithoutCallee (some (exampleString 30 33 "y"))) :=
  ⟨rfl, (nil_index_binding_gives_absent_callee
    { exampleStateWithoutIndex with hasSuperPropertyAssignment := false } rfl
    (some (exampleString 30 33 "y")) none NodeFlagsNone NodeFlagsNone (.range 24 34)
    (.range 24 29) .Token).2⟩

/-! ## The rewrite function on a tree without super access -/

namespace NodeVisitor

theorem VisitNode_id (o : Option Node) : VisitNode (fun c => Except.ok c) o = .ok o := by
  cases o <;> rfl

theorem visitSlice_id :
    ∀ {l : List (Option Node)}, l.all Option.isSome = true →
      visitSlice (fun c => Except.ok c) l = .ok l
  | [], _ => rfl
  | none :: _, hall => by simp at hall
  | some n :: rest, hall => by
    have h := visitSlice_id (l := rest) (by simpa using hall)
    simp [visitSlice, h]
    rfl

theorem VisitNodes_id (ns : Option (List (Option Node))) (hall : noNilElement ns = true) :
    VisitNodes (fun c => Except.ok c) ns = .ok ns := by
  cases ns with
  | none => rfl
  | some l =>
    have h := visitSlice_id (l := l) (by simpa [noNilElement] using hall)
    simp [VisitNodes, h]

theorem visitSlots_id :
    ∀ (slots : List Slot), (NodeData.Other slots).requiredPresent = true →
      visitSlots (fun c => Except.ok c) slots = .ok slots
  | [], _ => rfl
  | .node n :: rest, hall => by
    have h := visitSlots_id rest (by simpa [NodeData.requiredPresent] using hall)
    simp [visitSlots, visitSlot, VisitNode_id, h]
    rfl
  | .list ns :: rest, hall => by
    simp only [NodeData.requiredPresent, List.all_cons, Bool.and_eq_true] at hall
    have h := visitSlots_id rest (by simpa [NodeData.requiredPresent] using hall.2)
    simp [visitSlots, visitSlot, VisitNodes_id ns hall.1, h]
    rfl

/-- With a rewrite function that returns its argument, `VisitEachChild` returns
the node it is given. -/
theorem VisitEachChild_id {n : Node} (hreq : n.data.requiredPresent = true) :
    VisitEachChild (fun c => Except.ok c) n = .ok n := by
  obtain ⟨kind, flags, loc, data⟩ := n
  cases data with
  | Token => rfl
  | Identifier t => rfl
  | StringLiteral t => rfl
  | NumericLiteral t => rfl
  | PropertyAccessExpression e q nm => simp [VisitEachChild, VisitNode_id]; rfl
  | ElementAccessExpression e q a => simp [VisitEachChild, VisitNode_id]; rfl
  | CallExpression e q ta args =>
    simp only [Node.data, NodeData.requiredPresent, Bool.and_eq_true] at hreq
    simp [VisitEachChild, VisitNode_id, VisitNodes_id ta hreq.1.2, VisitNodes_id args hreq.2]
    rfl
  | BinaryExpression m l t op r =>
    simp only [Node.data, NodeData.requiredPresent, Bool.and_eq_true] at hreq
    simp [VisitEachChild, VisitNode_id, VisitNodes_id m hreq.1.1.1]
    rfl
  | PrefixUnaryExpression op operand => simp [VisitEachChild, VisitNode_id]
  | PostfixUnaryExpression operand op => simp [VisitEachChild, VisitNode_id]
  | ObjectLiteralExpression props ml =>
    simp [VisitEachChild, VisitNodes_id props hreq]
  | Other slots =>
    simp [VisitEachChild, visitSlots_id slots hreq]

end NodeVisitor

theorem containsSuperAccess_eq_false (n : Node) :
    containsSuperAccess n = false
      ↔ ∀ m ∈ scopeNodes n, isSuperPropertyAccess m = false ∧ isSuperElementAccess m = false := by
  simp [containsSuperAccess, List.any_eq_false]

/-- A node with no super access in its own scope is not one the rewrite
function replaces. -/
theorem not_site_of_no_access {n : Node}
    (hno : ∀ m ∈ scopeNodes n, isSuperPropertyAccess m = false ∧ isSuperElementAccess m = false) :
    isSuperAccessSite n = false := by
  have hself := hno n (mem_nodesOf_self _ n)
  cases hcall : isSuperCall n with
  | false => simp [isSuperAccessSite, hself.1, hself.2, hcall]
  | true =>
    obtain ⟨flags, loc, callee, q, ta, args, rfl, hcallee⟩ := (isSuperCall_iff n).1 hcall
    have hmem : callee ∈ scopeNodes (Node.mk Kind.CallExpression flags loc
        (NodeData.CallExpression (some callee) q ta args)) :=
      mem_nodesOf_child (by simp [Node.Kind, isScopeBoundary])
        (by simp [Node.children, Node.data, NodeData.children]) (mem_nodesOf_self _ callee)
    have hc := hno callee hmem
    rw [hc.1, hc.2] at hcallee
    simp at hcallee

/-- On a well-formed tree without a property or element access on `super` in
its own scope the rewrite function returns the tree it is given. -/
theorem visit_identity (s : superAccessState) :
    ∀ n : Node, wellFormed n = true → containsSuperAccess n = false →
      visitSuperAccessNode s n = .ok n := by
  refine induction_node (P := fun n => wellFormed n = true → containsSuperAccess n = false →
      visitSuperAccessNode s n = .ok n) ?_
  intro n ih hwf hno
  obtain ⟨hbuilt, hch⟩ := (wellFormed_iff n).1 hwf
  have hchb : ∀ c ∈ n.children, c.wellBuilt = true :=
    fun c hc => ((wellFormed_iff c).1 (hch c hc)).1
  cases hb : isScopeBoundary n.Kind with
  | true => exact visit_boundary s n hb
  | false =>
    have hno2 := (containsSuperAccess_eq_false n).1 hno
    have hih : ∀ c ∈ n.children, visitSuperAccessNode s c = (fun c => Except.ok c) c :=
      fun c hc => ih c hc (hch c hc) ((containsSuperAccess_eq_false c).2
        (fun m hm => hno2 m (mem_nodesOf_child hb hc hm)))
    rw [visit_of_not_site s hbuilt hchb (not_site_of_no_access hno2) hb,
      NodeVisitor.VisitEachChild_congr hih]
    apply NodeVisitor.VisitEachChild_id
    simp only [Node.wellBuilt, Bool.and_eq_true] at hbuilt
    exact hbuilt.2

/-! ## Nodes below entered nodes -/

/-- Below nodes that the rewrite function enters, neither scope boundaries nor
replaced sites, the result has at each position the rewrite of the subtree the
body has there. -/
theorem visited_at_position (s : superAccessState) :
    ∀ (position : List Nat) (body result inner : Node),
      visitSuperAccessNode s body = .ok result → subtreeAt body position = some inner →
      keptAbove body position = true → openAbove body position = true →
      ∃ rewritten, subtreeAt result position = some rewritten
        ∧ visitSuperAccessNode s inner = .ok rewritten
  | [], body, result, inner, hv, hsub, _, _ => by
    simp only [subtreeAt, Option.some.injEq] at hsub
    subst hsub
    exact ⟨result, rfl, hv⟩
  | i :: rest, body, result, inner, hv, hsub, hkept, hopen => by
    simp only [subtreeAt] at hsub
    simp only [keptAbove, Bool.and_eq_true, Bool.not_eq_true'] at hkept
    simp only [openAbove, Bool.and_eq_true, Bool.not_eq_true'] at hopen
    cases hchild : body.children[i]? with
    | none => simp [hchild] at hsub
    | some child =>
      simp only [hchild] at hsub hkept hopen
      have hch := NodeVisitor.VisitEachChild_children (visit_kept hv hkept.1 hopen.1)
      obtain ⟨child2, hchild2, hvisit⟩ := forall₂_getElem? hch.2.2.2 i child hchild
      simp only [subtreeAt, hchild2]
      exact visited_at_position s rest child child2 inner hvisit hsub hkept.2 hopen.2
/-! ## The traversal with hooks and the rewrite function -/

theorem tree_of_VisitNode (hooks : VisitorHooks) (s : superAccessState) (o : Option Node)
    (h : ∀ c ∈ o.toList, sameTreeAt hooks s c) :
    (EmitVisitor.VisitNode hooks s o).map Prod.fst = VisitNode s o := by
  cases o with
  | none => rfl
  | some n =>
    obtain ⟨h1, h2⟩ := h n (by simp)
    simp only [EmitVisitor.VisitNode, VisitNode]
    by_cases hp : hooks.prune n = true
    · rw [if_pos hp, h1 hp]
      rfl
    · rw [if_neg hp, ← h2]
      cases EmitVisitor.visitSuperAccessNode hooks s n <;> rfl

theorem tree_of_visitSlice (hooks : VisitorHooks) (s : superAccessState) :
    ∀ (l : List (Option Node)), (∀ c ∈ l.filterMap id, sameTreeAt hooks s c) →
      (EmitVisitor.visitSlice hooks s l).map Prod.fst = visitSlice s l
  | [], _ => rfl
  | none :: _, _ => rfl
  | some n :: rest, h => by
    obtain ⟨h1, h2⟩ := h n (by simp)
    have ih := tree_of_visitSlice hooks s rest (fun c hc => h c (by simp [hc]))
    simp only [EmitVisitor.visitSlice, visitSlice]
    by_cases hp : hooks.prune n = true
    · rw [if_pos hp, h1 hp, ← ih]
      cases EmitVisitor.visitSlice hooks s rest <;> rfl
    · rw [if_neg hp, ← h2, ← ih]
      cases EmitVisitor.visitSuperAccessNode hooks s n <;>
        cases EmitVisitor.visitSlice hooks s rest <;> rfl

theorem tree_of_VisitNodes (hooks : VisitorHooks) (s : superAccessState)
    (ns : Option (List (Option Node))) (h : ∀ c ∈ listChildren ns, sameTreeAt hooks s c) :
    (EmitVisitor.VisitNodes hooks s ns).map Prod.fst = VisitNodes s ns := by
  cases ns with
  | none => rfl
  | some l =>
    have ih := tree_of_visitSlice hooks s l (by simpa [listChildren] using h)
    simp only [EmitVisitor.VisitNodes, VisitNodes]
    rw [← ih]
    cases EmitVisitor.visitSlice hooks s l <;> rfl

theorem tree_of_visitSlot (hooks : VisitorHooks) (s : superAccessState) (slot : Slot)
    (h : ∀ c ∈ slot.children, sameTreeAt hooks s c) :
    (EmitVisitor.visitSlot hooks s slot).map Prod.fst = visitSlot s slot := by
  cases slot with
  | node n =>
    have ih := tree_of_VisitNode hooks s n (by simpa [Slot.children] using h)
    simp only [EmitVisitor.visitSlot, visitSlot]
    rw [← ih]
    cases EmitVisitor.VisitNode hooks s n <;> rfl
  | list ns =>
    have ih := tree_of_VisitNodes hooks s ns (by simpa [Slot.children] using h)
    simp only [EmitVisitor.visitSlot, visitSlot]
    rw [← ih]
    cases EmitVisitor.VisitNodes hooks s ns <;> rfl

theorem tree_of_visitSlots (hooks : VisitorHooks) (s : superAccessState) :
    ∀ (slots : List Slot), (∀ c ∈ slots.flatMap Slot.children, sameTreeAt hooks s c) →
      (EmitVisitor.visitSlots hooks s slots).map Prod.fst = visitSlots s slots
  | [], _ => rfl
  | slot :: rest, h => by
    have h1 := tree_of_visitSlot hooks s slot (fun c hc => h c (by simp [hc]))
    have ih := tree_of_visitSlots hooks s rest (fun c hc => h c (by
      simp only [List.flatMap_cons, List.mem_append]
      exact Or.inr hc))
    simp only [EmitVisitor.visitSlots, visitSlots]
    rw [← h1, ← ih]
    cases EmitVisitor.visitSlot hooks s slot <;>
      cases EmitVisitor.visitSlots hooks s rest <;> rfl

/-- The tree `VisitEachChild` returns does not depend on the hooks, when this
is so at every child. -/
theorem tree_of_VisitEachChild (hooks : VisitorHooks) (s : superAccessState) (kind : Kind)
    (flags : NodeFlags) (loc : TextRange) (data : NodeData)
    (h : ∀ c ∈ data.children, sameTreeAt hooks s c) :
    (EmitVisitor.VisitEachChild hooks s kind flags loc data).map Prod.fst
      = VisitEachChild s kind flags loc data := by
  cases data with
  | Token => rfl
  | Identifier t => rfl
  | StringLiteral t => rfl
  | NumericLiteral t => rfl
  | PropertyAccessExpression e q nm =>
    simp only [NodeData.children, List.mem_append] at h
    have h1 := tree_of_VisitNode hooks s e (fun c hc => h c (by simp [hc]))
    have h2 := tree_of_VisitNode hooks s q (fun c hc => h c (by simp [hc]))
    have h3 := tree_of_VisitNode hooks s nm (fun c hc => h c (by simp [hc]))
    simp only [EmitVisitor.VisitEachChild, VisitEachChild]
    rw [← h1, ← h2, ← h3]
    cases EmitVisitor.VisitNode hooks s e <;> cases EmitVisitor.VisitNode hooks s q <;>
      cases EmitVisitor.VisitNode hooks s nm <;> rfl
  | ElementAccessExpression e q a =>
    simp only [NodeData.children, List.mem_append] at h
    have h1 := tree_of_VisitNode hooks s e (fun c hc => h c (by simp [hc]))
    have h2 := tree_of_VisitNode hooks s q (fun c hc => h c (by simp [hc]))
    have h3 := tree_of_VisitNode hooks s a (fun c hc => h c (by simp [hc]))
    simp only [EmitVisitor.VisitEachChild, VisitEachChild]
    rw [← h1, ← h2, ← h3]
    cases EmitVisitor.VisitNode hooks s e <;> cases EmitVisitor.VisitNode hooks s q <;>
      cases EmitVisitor.VisitNode hooks s a <;> rfl
  | CallExpression e q ta args =>
    simp only [NodeData.children, List.mem_append] at h
    have h1 := tree_of_VisitNode hooks s e (fun c hc => h c (by simp [hc]))
    have h2 := tree_of_VisitNode hooks s q (fun c hc => h c (by simp [hc]))
    have h3 := tree_of_VisitNodes hooks s ta (fun c hc => h c (by simp [hc]))
    have h4 := tree_of_VisitNodes hooks s args (fun c hc => h c (by simp [hc]))
    simp only [EmitVisitor.VisitEachChild, VisitEachChild]
    rw [← h1, ← h2, ← h3, ← h4]
    cases EmitVisitor.VisitNode hooks s e <;> cases EmitVisitor.VisitNode hooks s q <;>
      cases EmitVisitor.VisitNodes hooks s ta <;> cases EmitVisitor.VisitNodes hooks s args <;>
      rfl
  | BinaryExpression m l t op r =>
    simp only [NodeData.children, List.mem_append] at h
    have h1 := tree_of_VisitNodes hooks s m (fun c hc => h c (by simp [hc]))
    have h2 := tree_of_VisitNode hooks s l (fun c hc => h c (by simp [hc]))
    have h3 := tree_of_VisitNode hooks s t (fun c hc => h c (by simp [hc]))
    have h4 := tree_of_VisitNode hooks s op (fun c hc => h c (by simp [hc]))
    have h5 := tree_of_VisitNode hooks s r (fun c hc => h c (by simp [hc]))
    simp only [EmitVisitor.VisitEachChild, VisitEachChild]
    rw [← h1, ← h2, ← h3, ← h4, ← h5]
    cases EmitVisitor.VisitNodes hooks s m <;> cases EmitVisitor.VisitNode hooks s l <;>
      cases EmitVisitor.VisitNode hooks s t <;> cases EmitVisitor.VisitNode hooks s op <;>
      cases EmitVisitor.VisitNode hooks s r <;> rfl
  | PrefixUnaryExpression op operand =>
    have h1 := tree_of_VisitNode hooks s operand (by simpa [NodeData.children] using h)
    simp only [EmitVisitor.VisitEachChild, VisitEachChild]
    rw [← h1]
    cases EmitVisitor.VisitNode hooks s operand <;> rfl
  | PostfixUnaryExpression operand op =>
    have h1 := tree_of_VisitNode hooks s operand (by simpa [NodeData.children] using h)
    simp only [EmitVisitor.VisitEachChild, VisitEachChild]
    rw [← h1]
    cases EmitVisitor.VisitNode hooks s operand <;> rfl
  | ObjectLiteralExpression props ml =>
    have h1 := tree_of_VisitNodes hooks s props (by simpa [NodeData.children] using h)
    simp only [EmitVisitor.VisitEachChild, VisitEachChild]
    rw [← h1]
    cases EmitVisitor.VisitNodes hooks s props <;> rfl
  | Other slots =>
    have h1 := tree_of_visitSlots hooks s slots (by simpa [NodeData.children] using h)
    simp only [EmitVisitor.VisitEachChild, VisitEachChild]
    rw [← h1]
    cases EmitVisitor.visitSlots hooks s slots <;> rfl
/-! ## The rewrite function with hooks, node by node -/

theorem emit_visit_boundary (hooks : VisitorHooks) (s : superAccessState) (n : Node)
    (h : isScopeBoundary n.Kind = true) :
    EmitVisitor.visitSuperAccessNode hooks s n = .ok (n, []) := by
  obtain ⟨kind, flags, loc, data⟩ := n
  cases kind <;> simp [isScopeBoundary, Node.Kind] at h <;> rfl

theorem emit_visit_default (hooks : VisitorHooks) (s : superAccessState) (kind : Kind)
    (flags : NodeFlags) (loc : TextRange) (data : NodeData)
    (hb : isScopeBoundary kind = false) (hc : kind ≠ Kind.CallExpression)
    (hp : kind ≠ Kind.PropertyAccessExpression) (he : kind ≠ Kind.ElementAccessExpression) :
    EmitVisitor.visitSuperAccessNode hooks s (.mk kind flags loc data)
      = EmitVisitor.VisitEachChild hooks s kind flags loc data := by
  cases kind <;> simp [isScopeBoundary] at hb hc hp he <;>
    simp [EmitVisitor.visitSuperAccessNode]

/-- For the node put in place of `super.x` no link is registered. -/
theorem emit_visit_superProperty (hooks : VisitorHooks) (s : superAccessState)
    (flags : NodeFlags) (loc : TextRange) (sf : NodeFlags) (sl : TextRange) (sd : NodeData)
    (q name : Option Node) :
    EmitVisitor.visitSuperAccessNode hooks s (.mk .PropertyAccessExpression flags loc
        (.PropertyAccessExpression (some (.mk .SuperKeyword sf sl sd)) q name))
      = .ok (NewPropertyAccessExpression s.superBinding none name NodeFlagsNone, []) := by
  rfl

/-- For the node put in place of `super[x]` no link is registered. -/
theorem emit_visit_superElement (hooks : VisitorHooks) (s : superAccessState)
    (flags : NodeFlags) (loc : TextRange) (sf : NodeFlags) (sl : TextRange) (sd : NodeData)
    (q argument : Option Node) :
    EmitVisitor.visitSuperAccessNode hooks s (.mk .ElementAccessExpression flags loc
        (.ElementAccessExpression (some (.mk .SuperKeyword sf sl sd)) q argument))
      = .ok (createSuperElementAccessInAsyncMethod s argument, []) := by
  rfl

/-- For the call put in place of `super.x(args)` no link is registered: the
links are those registered while the arguments are visited. -/
theorem emit_visit_superPropertyCall (hooks : VisitorHooks) (s : superAccessState)
    (flags : NodeFlags) (loc : TextRange) (cf : NodeFlags) (cl : TextRange) (sf : NodeFlags)
    (sl : TextRange) (sd : NodeData) (cq name q : Option Node)
    (typeArguments arguments : Option (List (Option Node))) :
    EmitVisitor.visitSuperAccessNode hooks s (.mk .CallExpression flags loc
        (.CallExpression (some (.mk .PropertyAccessExpression cf cl
          (.PropertyAccessExpression (some (.mk .SuperKeyword sf sl sd)) cq name)))
          q typeArguments arguments))
      = (EmitVisitor.VisitNodes hooks s arguments).map (fun visitedArgs =>
          ((NewCallExpression
            (some (NewPropertyAccessExpression
              (some (NewPropertyAccessExpression s.superBinding none name NodeFlagsNone))
              none (some (NewIdentifier "call")) NodeFlagsNone))
            none none
            (NewNodeList ([some NewThisExpression] ++ visitedArgs.1.getD []))
            NodeFlagsNone).setLoc loc, visitedArgs.2)) := by
  cases h : EmitVisitor.VisitNodes hooks s arguments <;>
    simp [EmitVisitor.visitSuperAccessNode, EmitVisitor.substituteCallExpressionWithSuperAccess,
      IsSuperProperty, IsPropertyAccessExpression, Node.Kind, Node.Expression, kindOf, h, bind,
      Except.bind, pure, Except.pure, Except.map]

/-- For the call put in place of `super[x](args)` no link is registered: the
links are those registered while the arguments are visited. -/
theorem emit_visit_superElementCall (hooks : VisitorHooks) (s : superAccessState)
    (flags : NodeFlags) (loc : TextRange) (cf : NodeFlags) (cl : TextRange) (sf : NodeFlags)
    (sl : TextRange) (sd : NodeData) (cq argument q : Option Node)
    (typeArguments arguments : Option (List (Option Node))) :
    EmitVisitor.visitSuperAccessNode hooks s (.mk .CallExpression flags loc
        (.CallExpression (some (.mk .ElementAccessExpression cf cl
          (.ElementAccessExpression (some (.mk .SuperKeyword sf sl sd)) cq argument)))
          q typeArguments arguments))
      = (EmitVisitor.VisitNodes hooks s arguments).map (fun visitedArgs =>
          ((NewCallExpression
            (some (NewPropertyAccessExpression
              (some (createSuperElementAccessInAsyncMethod s argument))
              none (some (NewIdentifier "call")) NodeFlagsNone))
            none none
            (NewNodeList ([some NewThisExpression] ++ visitedArgs.1.getD []))
            NodeFlagsNone).setLoc loc, visitedArgs.2)) := by
  cases h : EmitVisitor.VisitNodes hooks s arguments <;>
    simp [EmitVisitor.visitSuperAccessNode, EmitVisitor.substituteCallExpressionWithSuperAccess,
      IsSuperProperty, IsPropertyAccessExpression, IsElementAccessExpression, Node.Kind,
      Node.Expression, kindOf, h, bind, Except.bind, pure, Except.pure, Except.map]

theorem emit_visit_of_not_site (hooks : VisitorHooks) (s : superAccessState) (kind : Kind)
    (flags : NodeFlags) (loc : TextRange) (data : NodeData)
    (hbuilt : (Node.mk kind flags loc data).wellBuilt = true)
    (hch : ∀ c ∈ data.children, c.wellBuilt = true)
    (hsite : isSuperAccessSite (.mk kind flags loc data) = false)
    (hb : isScopeBoundary kind = false) :
    EmitVisitor.visitSuperAccessNode hooks s (.mk kind flags loc data)
      = EmitVisitor.VisitEachChild hooks s kind flags loc data := by
  simp only [isSuperAccessSite, Bool.or_eq_false_iff] at hsite
  obtain ⟨⟨hpa, hea⟩, hcall⟩ := hsite
  by_cases hc : kind = Kind.CallExpression
  · subst hc
    cases data <;>
      simp [Node.wellBuilt, Node.data, Node.Kind, NodeData.kind?, hasOwnData] at hbuilt
    rename_i e q ta args
    simp only [NodeData.requiredPresent, Bool.and_eq_true] at hbuilt
    obtain ⟨callee, rfl⟩ := Option.isSome_iff_exists.1 hbuilt.1.1
    obtain ⟨b, hb2⟩ := IsSuperProperty_ok (hch callee (by simp [NodeData.children]))
    cases b with
    | true =>
      obtain ⟨c2, hc2, hor⟩ := (IsSuperProperty_eq_true _).1 hb2
      cases hc2
      simp only [isSuperCall, Bool.or_eq_false_iff] at hcall
      rcases hor with hor | hor
      · rw [hor] at hcall
        exact absurd hcall.1 (by simp)
      · rw [hor] at hcall
        exact absurd hcall.2 (by simp)
    | false =>
      simp [EmitVisitor.visitSuperAccessNode, hb2, bind, Except.bind]
  · by_cases hp : kind = Kind.PropertyAccessExpression
    · subst hp
      cases data <;>
        simp [Node.wellBuilt, Node.data, Node.Kind, NodeData.kind?, hasOwnData] at hbuilt
      rename_i e q nm
      simp only [NodeData.requiredPresent, Bool.and_eq_true] at hbuilt
      obtain ⟨m, rfl⟩ := Option.isSome_iff_exists.1 hbuilt.1
      have hk : m.Kind ≠ Kind.SuperKeyword := by
        intro hk
        obtain ⟨sf, sl, sd, hm⟩ := (kindOf_super_iff (some m)).1 (by simp [kindOf, hk])
        cases hm
        simp [isSuperPropertyAccess] at hpa
      simp [EmitVisitor.visitSuperAccessNode, kindOf, hk, bind, Except.bind]
    · by_cases he : kind = Kind.ElementAccessExpression
      · subst he
        cases data <;>
          simp [Node.wellBuilt, Node.data, Node.Kind, NodeData.kind?, hasOwnData] at hbuilt
        rename_i e q a
        simp only [NodeData.requiredPresent, Bool.and_eq_true] at hbuilt
        obtain ⟨m, rfl⟩ := Option.isSome_iff_exists.1 hbuilt.1
        have hk : m.Kind ≠ Kind.SuperKeyword := by
          intro hk
          obtain ⟨sf, sl, sd, hm⟩ := (kindOf_super_iff (some m)).1 (by simp [kindOf, hk])
          cases hm
          simp [isSuperElementAccess] at hea
        simp [EmitVisitor.visitSuperAccessNode, kindOf, hk, bind, Except.bind]
      · exact emit_visit_default hooks s kind flags loc data hb hc hp he

/-- The tree the traversal with hooks returns is the tree the rewrite function
returns, when the visitor skips only subtrees that the rewrite function
returns as they are. -/
theorem tree_of_visit (hooks : VisitorHooks) (s : superAccessState)
    (hsound : ∀ n, hooks.prune n = true → wellFormed n = true →
      visitSuperAccessNode s n = .ok n) :
    ∀ n : Node, wellFormed n = true →
      (EmitVisitor.visitSuperAccessNode hooks s n).map Prod.fst = visitSuperAccessNode s n := by
  refine induction_node (P := fun n => wellFormed n = true →
    (EmitVisitor.visitSuperAccessNode hooks s n).map Prod.fst = visitSuperAccessNode s n) ?_
  intro n ih hwf
  obtain ⟨hbuilt, hch⟩ := (wellFormed_iff n).1 hwf
  have hchb : ∀ c ∈ n.children, c.wellBuilt = true :=
    fun c hc => ((wellFormed_iff c).1 (hch c hc)).1
  have hsame : ∀ c ∈ n.children, sameTreeAt hooks s c :=
    fun c hc => ⟨fun hp => hsound c hp (hch c hc), ih c hc (hch c hc)⟩
  cases hb : isScopeBoundary n.Kind with
  | true =>
    rw [emit_visit_boundary hooks s n hb, visit_boundary s n hb]
    rfl
  | false =>
    cases hsite : isSuperAccessSite n with
    | false =>
      rw [visit_of_not_site s hbuilt hchb hsite hb]
      obtain ⟨kind, flags, loc, data⟩ := n
      rw [emit_visit_of_not_site hooks s kind flags loc data hbuilt hchb hsite hb,
        ← VisitEachChild_eq]
      exact tree_of_VisitEachChild hooks s kind flags loc data hsame
    | true =>
      simp only [isSuperAccessSite, Bool.or_eq_true] at hsite
      rcases hsite with (hp | he) | hcall
      · obtain ⟨f, l, sf, sl, sd, q, nm, rfl⟩ := (isSuperPropertyAccess_iff n).1 hp
        rfl
      · obtain ⟨f, l, sf, sl, sd, q, a, rfl⟩ := (isSuperElementAccess_iff n).1 he
        rfl
      · obtain ⟨flags, loc, callee, q, ta, args, rfl, hcallee⟩ := (isSuperCall_iff n).1 hcall
        have hargs := tree_of_VisitNodes hooks s args (fun c hc => hsame c (by
          simp [Node.children, Node.data, NodeData.children, hc]))
        rcases hcallee with hp | he
        · obtain ⟨cf, cl, sf, sl, sd, cq, nm, rfl⟩ := (isSuperPropertyAccess_iff callee).1 hp
          rw [emit_visit_superPropertyCall, visit_superPropertyCall, ← hargs]
          cases EmitVisitor.VisitNodes hooks s args <;> rfl
        · obtain ⟨cf, cl, sf, sl, sd, cq, a, rfl⟩ := (isSuperElementAccess_iff callee).1 he
          rw [emit_visit_superElementCall, visit_superElementCall, ← hargs]
          cases EmitVisitor.VisitNodes hooks s args <;> rfl

theorem mem_allNodes_of_mem_nodesOf (stop : Kind → Bool) :
    ∀ n : Node, ∀ m, m ∈ nodesOf stop n → m ∈ allNodes n := by
  refine induction_node (P := fun n => ∀ m, m ∈ nodesOf stop n → m ∈ allNodes n) ?_
  intro n ih m hm
  rw [nodesOf_eq] at hm
  rw [mem_allNodes_iff]
  simp only [List.mem_cons] at hm
  rcases hm with rfl | hm
  · exact Or.inl rfl
  · split at hm
    · simp at hm
    · obtain ⟨c, hc, hmc⟩ := List.mem_flatMap.1 hm
      exact Or.inr ⟨c, hc, ih c hc m hmc⟩

/-- A subtree without any property or element access on `super` has none in its
own scope. -/
theorem examplePruningHooks_sound (n : Node) (h : examplePruningHooks.prune n = true) :
    containsSuperAccess n = false := by
  rw [containsSuperAccess_eq_false]
  intro m hm
  have hall : (allNodes n).any
      (fun m => isSuperPropertyAccess m || isSuperElementAccess m) = false := by
    simpa [examplePruningHooks] using h
  have := (List.any_eq_false.1 hall) m (mem_allNodes_of_mem_nodesOf _ n m hm)
  simpa using this

/-- The tree of the substitution run by the visitor of the emit context is the
tree of `substituteSuperAccessesInBody`. -/
theorem tree_of_substitute (hooks : VisitorHooks) (emitContext : EmitContext)
    (s : superAccessState) (body : Node)
    (hprune : ∀ n, hooks.prune n = true → containsSuperAccess n = false)
    (hwf : wellFormed body = true) :
    (EmitVisitor.substituteSuperAccessesInBody hooks emitContext s (some body)).map Prod.fst
      = substituteSuperAccessesInBody s (some body) := by
  have hsound : ∀ n, hooks.prune n = true → wellFormed n = true →
      visitSuperAccessNode s n = .ok n :=
    fun n hp hw => visit_identity s n hw (hprune n hp)
  have h := tree_of_visit hooks s hsound body hwf
  simp only [EmitVisitor.substituteSuperAccessesInBody, substituteSuperAccessesInBody,
    EmitVisitor.VisitNode, VisitNode]
  by_cases hp : hooks.prune body = true
  · rw [if_pos hp, hsound body hp hwf]
    rfl
  · rw [if_neg hp, ← h]
    cases EmitVisitor.visitSuperAccessNode hooks s body <;> rfl
/-! ## C13: pruning -/

/-- C13. Pruning does not change the result: on a well-formed body, the
substitution run by a visitor that skips subtrees without a property or
element access on `super` in their own scope returns the tree that
`substituteSuperAccessesInBody` returns, which the visitor that skips nothing
returns as well; and on a tree without such an access
`substituteSuperAccessesInBody` returns the tree it is given. -/
theorem pruning_preserves_result (hooks : VisitorHooks) (emitContext : EmitContext)
    (s : superAccessState) (body : Node)
    (hprune : ∀ n, hooks.prune n = true → containsSuperAccess n = false)
    (hwf : wellFormed body = true) :
    (∃ result, substituteSuperAccessesInBody s (some body) = .ok (some result)
      ∧ (EmitVisitor.substituteSuperAccessesInBody hooks emitContext s (some body)).map Prod.fst
        = .ok (some result)
      ∧ (EmitVisitor.substituteSuperAccessesInBody { hooks with prune := fun _ => false }
          emitContext s (some body)).map Prod.fst = .ok (some result))
      ∧ (containsSuperAccess body = false →
          substituteSuperAccessesInBody s (some body) = .ok (some body)) := by
  obtain ⟨result, hres⟩ := substitute_ok s body hwf
  refine ⟨⟨result, hres, ?_, ?_⟩, fun hno => ?_⟩
  · rw [tree_of_substitute hooks emitContext s body hprune hwf, hres]
  · rw [tree_of_substitute { hooks with prune := fun _ => false } emitContext s body
      (fun n hp => by simp at hp) hwf, hres]
  · exact substitute_eq_ok.2 (visit_identity s body hwf hno)

theorem pruning_preserves_result_witness :
    (∀ n, examplePruningHooks.prune n = true → containsSuperAccess n = false)
      ∧ wellFormed examplePrunableBody = true
      ∧ examplePruningHooks.prune (exampleReturn 11 26
          (exampleSum 18 25 (exampleNumber 18 19 "1") (exampleNumber 24 25 "2"))) = true
      ∧ (∃ result, substituteSuperAccessesInBody (exampleState false) (some examplePrunableBody)
          = .ok (some result)
        ∧ (EmitVisitor.substituteSuperAccessesInBody examplePruningHooks ⟨[]⟩
            (exampleState false) (some examplePrunableBody)).map Prod.fst = .ok (some result)
        ∧ (EmitVisitor.substituteSuperAccessesInBody
            { examplePruningHooks with prune := fun _ => false } ⟨[]⟩
            (exampleState false) (some examplePrunableBody)).map Prod.fst
          = .ok (some result)) :=
  ⟨examplePruningHooks_sound, by decide, by decide,
    (pruning_preserves_result examplePruningHooks ⟨[]⟩ (exampleState false) examplePrunableBody
      examplePruningHooks_sound (by decide)).1⟩

/-! ## C12: original-node links of the substituted nodes -/

/-- C12, counterexample. The statement `super.x;` is visited by a visitor that
registers a link for every node it rebuilds: the emit context ends up with the
link of the rebuilt statement only, and the node `_super.x` put in place of
`super.x` has no link. -/
theorem no_link_for_rewritten_access_counterexample :
    EmitVisitor.substituteSuperAccessesInBody exampleHooks ⟨[]⟩ (exampleState false)
        (some (exampleStatement 0 8 (exampleSuperDot 0 7 "x")))
      = .ok (some (exampleStatement 0 8 (exampleRewrittenDot 6 7 "x")),
          ⟨[(exampleStatement 0 8 (exampleRewrittenDot 6 7 "x"),
            exampleStatement 0 8 (exampleSuperDot 0 7 "x"))]⟩)
      ∧ ¬ ∃ original, EmitContext.linked
          ⟨[(exampleStatement 0 8 (exampleRewrittenDot 6 7 "x"),
            exampleStatement 0 8 (exampleSuperDot 0 7 "x"))]⟩
          (exampleRewrittenDot 6 7 "x") original := by
  refine ⟨rfl, ?_⟩
  rintro ⟨original, newer, older, h, -⟩
  cases newer with
  | nil =>
    simp only [List.nil_append, List.cons.injEq, Prod.mk.injEq] at h
    have hk := congrArg Node.Kind h.1.1
    simp [exampleStatement, exampleRewrittenDot, NewPropertyAccessExpression, Node.Kind] at hk
  | cons entry rest =>
    simp only [List.cons_append, List.cons.injEq] at h
    have hlen := congrArg List.length h.2
    simp at hlen
    omega

/-- C12, amended. The substitution registers no link for the nodes it puts in
place of `super.x`, `super[x]` and super calls: for the two accesses no link is
registered at all, and for a super call the links are those registered
while its arguments are visited; the rewritten call has the span of the call it
replaces. -/
theorem substituted_nodes_carry_no_link (hooks : VisitorHooks) (s : superAccessState)
    (flags : NodeFlags) (loc : TextRange) (sf : NodeFlags) (sl : TextRange) (sd : NodeData)
    (q name argument : Option Node) :
    EmitVisitor.visitSuperAccessNode hooks s (.mk .PropertyAccessExpression flags loc
        (.PropertyAccessExpression (some (.mk .SuperKeyword sf sl sd)) q name))
      = .ok (NewPropertyAccessExpression s.superBinding none name NodeFlagsNone, [])
    ∧ EmitVisitor.visitSuperAccessNode hooks s (.mk .ElementAccessExpression flags loc
        (.ElementAccessExpression (some (.mk .SuperKeyword sf sl sd)) q argument))
      = .ok (createSuperElementAccessInAsyncMethod s argument, [])
    ∧ (∀ (cf : NodeFlags) (cl : TextRange) (cq : Option Node)
        (typeArguments arguments : Option (List (Option Node))),
        (∀ result links, EmitVisitor.visitSuperAccessNode hooks s (.mk .CallExpression flags loc
            (.CallExpression (some (.mk .PropertyAccessExpression cf cl
              (.PropertyAccessExpression (some (.mk .SuperKeyword sf sl sd)) cq name)))
              q typeArguments arguments)) = .ok (result, links) →
          result.Loc = loc
            ∧ ∃ visitedArgs, EmitVisitor.VisitNodes hooks s arguments = .ok (visitedArgs, links))
        ∧ (∀ result links, EmitVisitor.visitSuperAccessNode hooks s (.mk .CallExpression flags loc
            (.CallExpression (some (.mk .ElementAccessExpression cf cl
              (.ElementAccessExpression (some (.mk .SuperKeyword sf sl sd)) cq argument)))
              q typeArguments arguments)) = .ok (result, links) →
          result.Loc = loc
            ∧ ∃ visitedArgs,
              EmitVisitor.VisitNodes hooks s arguments = .ok (visitedArgs, links))) := by
  refine ⟨rfl, rfl, fun cf cl cq typeArguments arguments => ⟨?_, ?_⟩⟩
  · intro result links h
    rw [emit_visit_superPropertyCall] at h
    cases hv : EmitVisitor.VisitNodes hooks s arguments with
    | error e => simp [hv, Except.map] at h
    | ok v =>
      simp only [hv, Except.map, Except.ok.injEq, Prod.mk.injEq] at h
      obtain ⟨h1, h2⟩ := h
      subst h1 h2
      exact ⟨rfl, v.1, rfl⟩
  · intro result links h
    rw [emit_visit_superElementCall] at h
    cases hv : EmitVisitor.VisitNodes hooks s arguments with
    | error e => simp [hv, Except.map] at h
    | ok v =>
      simp only [hv, Except.map, Except.ok.injEq, Prod.mk.injEq] at h
      obtain ⟨h1, h2⟩ := h
      subst h1 h2
      exact ⟨rfl, v.1, rfl⟩

theorem substituted_nodes_carry_no_link_witness :
    EmitVisitor.visitSuperAccessNode exampleHooks (exampleState false) exampleSuperMethodCall
        = .ok ((NewCallExpression
          (some (NewPropertyAccessExpression (some (exampleRewrittenDot 6 7 "m")) none
            (some (NewIdentifier "call")) NodeFlagsNone))
          none none
          (NewNodeList [some NewThisExpression, some (exampleName 8 9 "a"),
            some (exampleRewrittenDot 17 18 "y")]) NodeFlagsNone).setLoc (.range 0 21), [])
      ∧ ((NewCallExpression
          (some (NewPropertyAccessExpression (some (exampleRewrittenDot 6 7 "m")) none
            (some (NewIdentifier "call")) NodeFlagsNone))
          none none
          (NewNodeList [some NewThisExpression, some (exampleName 8 9 "a"),
            some (exampleRewrittenDot 17 18 "y")]) NodeFlagsNone).setLoc (.range 0 21)).Loc
        = .range 0 21 :=
  ⟨rfl, (((substituted_nodes_carry_no_link exampleHooks (exampleState false) NodeFlagsNone
    (.range 0 21) NodeFlagsNone (.range 0 5) .Token none (some (exampleName 6 7 "m")) none).2.2
    NodeFlagsNone (.range 0 7) none none
    (some [some (exampleName 8 9 "a"), some (exampleSuperDot 11 18 "y")])).1 _ _ rfl).1⟩

/-! ## C16: arrow functions -/

/-- An arrow function is entered: the rewrite function visits its children. -/
theorem visit_arrow (s : superAccessState) (flags : NodeFlags) (loc : TextRange)
    (data : NodeData) :
    visitSuperAccessNode s (.mk .ArrowFunction flags loc data)
      = VisitEachChild s .ArrowFunction flags loc data :=
  visit_default s .ArrowFunction flags loc data rfl (by decide) (by decide) (by decide)

/-- C16 fails on the code. An arrow function is not a scope boundary, and the
super access in `() => super.x` is rewritten as at the top level; but in
`super[() => super.x]` the arrow function is the argument of a super element
access, which is not visited, and the super access inside it is left as it is. -/
theorem super_access_in_arrow_in_index_survives :
    isScopeBoundary Kind.ArrowFunction = false
      ∧ substituteSuperAccessesInBody (exampleState false) (some exampleArrowOfSuper)
        = .ok (some (exampleArrow 6 19 (exampleRewrittenDot 18 19 "x")))
      ∧ wellFormed exampleIndexByArrow = true
      ∧ subtreeAt exampleIndexByArrow [1, 1] = some (exampleSuperDot 12 19 "x")
      ∧ openAbove exampleIndexByArrow [1, 1] = true
      ∧ substituteSuperAccessesInBody (exampleState false) (some exampleIndexByArrow)
        = .ok (some (NewCallExpression (some (NewIdentifier "_superIndex")) none none
            (NewNodeList [some exampleArrowOfSuper]) NodeFlagsNone))
      ∧ containsSuperAccess (NewCallExpression (some (NewIdentifier "_superIndex")) none none
          (NewNodeList [some exampleArrowOfSuper]) NodeFlagsNone) = true :=
  ⟨rfl, rfl, by decide, rfl, by decide, rfl, by decide⟩

/-! ## C10: what the result contains without an element access -/

theorem mem_allNodes_trans :
    ∀ r : Node, ∀ m x, m ∈ allNodes r → x ∈ allNodes m → x ∈ allNodes r := by
  refine induction_node (P := fun r => ∀ m x, m ∈ allNodes r → x ∈ allNodes m →
    x ∈ allNodes r) ?_
  intro r ih m x hm hx
  rcases (mem_allNodes_iff r m).1 hm with rfl | ⟨c, hc, hmc⟩
  · exact hx
  · exact mem_allNodes_child hc (ih c hc m x hmc hx)

/-- A node built as the parser builds it and without children is returned by
`VisitEachChild` as it is. -/
theorem VisitEachChild_of_no_children {g : Node → Except Fatal Node} {n : Node}
    (hbuilt : n.wellBuilt = true) (hnil : n.children = []) :
    NodeVisitor.VisitEachChild g n = .ok n := by
  have hcongr := @NodeVisitor.VisitEachChild_congr g (fun c => Except.ok c) n (by
    intro c hc
    rw [hnil] at hc
    cases hc)
  rw [hcongr]
  apply NodeVisitor.VisitEachChild_id
  simp only [Node.wellBuilt, Bool.and_eq_true] at hbuilt
  exact hbuilt.2

/-- The name of a property access built as the parser builds it is present. -/
theorem name_present_of_wellBuilt {kind : Kind} {flags : NodeFlags} {loc : TextRange}
    {e q nm : Option Node}
    (h : (Node.mk kind flags loc (.PropertyAccessExpression e q nm)).wellBuilt = true) :
    nm ≠ none := by
  intro hnm
  subst hnm
  simp [Node.wellBuilt, Node.data, NodeData.requiredPresent, hasText, textOf] at h

/-- On a well-formed body without an element access on `super` in its own
scope, a node without children that is found in the result, and is neither
`this` nor the identifier `call`, is a node of the body or of `superBinding`:
the rewrite brings in no other node without children. -/
theorem leaf_from_input (s : superAccessState) (x : Node) (hleaf : x.children = [])
    (hthis : x ≠ NewThisExpression) (hcall : x ≠ NewIdentifier "call") :
    ∀ body : Node, wellFormed body = true →
      (∀ m ∈ scopeNodes body, isSuperElementAccess m = false) →
      ∀ result, visitSuperAccessNode s body = .ok result → x ∈ allNodes result →
        x ∈ allNodes body ∨ x ∈ pointerNodes (fun _ => false) s.superBinding := by
  refine induction_node (P := fun body => wellFormed body = true →
      (∀ m ∈ scopeNodes body, isSuperElementAccess m = false) →
      ∀ result, visitSuperAccessNode s body = .ok result → x ∈ allNodes result →
        x ∈ allNodes body ∨ x ∈ pointerNodes (fun _ => false) s.superBinding) ?_
  intro body ih hwf hno result hv hx
  obtain ⟨hbuilt, hch⟩ := (wellFormed_iff body).1 hwf
  cases hbody : isScopeBoundary body.Kind with
  | true =>
    rw [visit_boundary s body hbody] at hv
    cases hv
    exact Or.inl hx
  | false =>
    have hih : ∀ c ∈ body.children, ∀ r, visitSuperAccessNode s c = .ok r → x ∈ allNodes r →
        x ∈ allNodes c ∨ x ∈ pointerNodes (fun _ => false) s.superBinding :=
      fun c hc => ih c hc (hch c hc) (fun m hm => hno m (mem_nodesOf_child hbody hc hm))
    have hlist : ∀ (arguments visited : Option (List (Option Node))),
        (∀ c ∈ listChildren arguments, c ∈ body.children) →
        VisitNodes s arguments = .ok visited →
        x ∈ sliceNodes (fun _ => false) (visited.getD []) →
        x ∈ allNodes body ∨ x ∈ pointerNodes (fun _ => false) s.superBinding := by
      intro arguments visited hsub hvn hxs
      rw [VisitNodes_eq] at hvn
      have hrel := NodeVisitor.VisitNodes_children hvn
      rw [sliceNodes_eq] at hxs
      obtain ⟨c2, hc2, hx2⟩ := List.mem_flatMap.1 hxs
      obtain ⟨c, hc, hvc⟩ := forall₂_mem_right hrel c2 hc2
      rcases hih c (hsub c hc) c2 hvc hx2 with h | h
      · exact Or.inl (mem_allNodes_child (hsub c hc) h)
      · exact Or.inr h
    cases hsite : isSuperAccessSite body with
    | false =>
      have hkept := visit_kept hv hsite hbody
      have hchildren := NodeVisitor.VisitEachChild_children hkept
      rcases (mem_allNodes_iff result x).1 hx with h | ⟨c2, hc2, hx2⟩
      · subst h
        have hnil : body.children = [] := by
          have hrel := hchildren.2.2.2
          rw [hleaf] at hrel
          exact List.forall₂_nil_right_iff.1 hrel
        rw [VisitEachChild_of_no_children hbuilt hnil] at hkept
        cases hkept
        exact Or.inl (mem_nodesOf_self _ _)
      · obtain ⟨c, hc, hvc⟩ := forall₂_mem_right hchildren.2.2.2 c2 hc2
        rcases hih c hc c2 hvc hx2 with h | h
        · exact Or.inl (mem_allNodes_child hc h)
        · exact Or.inr h
    | true =>
      simp only [isSuperAccessSite, Bool.or_eq_true] at hsite
      rcases hsite with (hp | he) | hsuper
      · obtain ⟨f, l, sf, sl, sd, q, nm, rfl⟩ := (isSuperPropertyAccess_iff body).1 hp
        have hname := name_present_of_wellBuilt hbuilt
        rw [visit_superProperty] at hv
        cases hv
        simp only [allNodes, nodesOf, dataNodes, pointerNodes, NewPropertyAccessExpression,
          Bool.false_eq_true, if_false, List.mem_cons, List.mem_append, List.append_nil,
          List.not_mem_nil, or_false, false_or] at hx
        rcases hx with h | hx | hx
        · subst h
          cases nm with
          | none => exact absurd rfl hname
          | some name => simp [Node.children, Node.data, NodeData.children] at hleaf
        · exact Or.inr hx
        · left
          simp only [allNodes, nodesOf, dataNodes, Bool.false_eq_true, if_false, List.mem_cons,
            List.mem_append]
          exact Or.inr (Or.inr hx)
      · rw [hno body (mem_nodesOf_self _ body)] at he
        exact absurd he (by simp)
      · obtain ⟨flags, loc, callee, q, ta, args, rfl, hcallee⟩ := (isSuperCall_iff body).1 hsuper
        have hsub : ∀ c ∈ listChildren args,
            c ∈ (Node.mk Kind.CallExpression flags loc
              (NodeData.CallExpression (some callee) q ta args)).children := by
          intro c hc
          simp [Node.children, Node.data, NodeData.children, hc]
        have hcalleeMem : callee ∈ (Node.mk Kind.CallExpression flags loc
            (NodeData.CallExpression (some callee) q ta args)).children := by
          simp [Node.children, Node.data, NodeData.children]
        rcases hcallee with hp | he
        · obtain ⟨cf, cl, sf, sl, sd, cq, nm, rfl⟩ := (isSuperPropertyAccess_iff callee).1 hp
          have hname := name_present_of_wellBuilt ((wellFormed_iff _).1 (hch _ hcalleeMem)).1
          rw [visit_superPropertyCall] at hv
          cases hargs : VisitNodes s args with
          | error e => simp [hargs, Except.map] at hv
          | ok vargs =>
            simp only [hargs, Except.map, Except.ok.injEq] at hv
            subst hv
            simp only [allNodes, nodesOf, dataNodes, pointerNodes, listNodes, sliceNodes,
              NewPropertyAccessExpression, NewCallExpression, NewNodeList, NewIdentifier,
              NewThisExpression, NewKeywordExpression, Node.setLoc, List.singleton_append,
              Bool.false_eq_true, if_false, List.mem_cons, List.mem_append, List.append_nil,
              List.not_mem_nil, or_false, false_or] at hx
            rcases hx with h | (h | (h | hx | hx) | h) | h | hx
            · subst h
              simp [Node.children, Node.data, NodeData.children] at hleaf
            · subst h
              simp [Node.children, Node.data, NodeData.children] at hleaf
            · subst h
              cases nm with
              | none => exact absurd rfl hname
              | some name => simp [Node.children, Node.data, NodeData.children] at hleaf
            · exact Or.inr hx
            · left
              simp only [allNodes, nodesOf, dataNodes, pointerNodes, Bool.false_eq_true,
                if_false, List.mem_cons, List.mem_append]
              exact Or.inr (Or.inl (Or.inl (Or.inl (Or.inr (Or.inr hx)))))
            · exact absurd h hcall
            · exact absurd h hthis
            · exact hlist args vargs hsub hargs hx
        · have hmem : callee ∈ scopeNodes (Node.mk Kind.CallExpression flags loc
              (NodeData.CallExpression (some callee) q ta args)) :=
            mem_nodesOf_child hbody hcalleeMem (mem_nodesOf_self _ callee)
          rw [hno callee hmem] at he
          exact absurd he (by simp)

/-- C10. The index helper is never referenced without an element access: on a
well-formed body without an element access on `super` in its own scope, the
substitution returns a tree in which the index binding does not occur, and in
which no property access has the name `value` built by the pass, whenever the
binding and that name are not nodes of the body or of `superBinding` already;
and the tree is the same whatever `superIndexBinding` and
`hasSuperPropertyAssignment` are. -/
theorem index_helper_not_referenced (body : Node) (hwf : wellFormed body = true)
    (hno : ∀ m ∈ scopeNodes body, isSuperElementAccess m = false)
    (s : superAccessState) :
    ∃ result : Node,
      substituteSuperAccessesInBody s (some body) = .ok (some result)
      ∧ (∀ binding, s.superIndexBinding = some binding → binding.children = [] →
          binding ≠ NewThisExpression → binding ≠ NewIdentifier "call" →
          binding ∉ allNodes body → binding ∉ pointerNodes (fun _ => false) s.superBinding →
          binding ∉ allNodes result)
      ∧ (NewIdentifier "value" ∉ allNodes body →
          NewIdentifier "value" ∉ pointerNodes (fun _ => false) s.superBinding →
          ∀ m ∈ allNodes result, ∀ kind flags loc expression questionDotToken,
            m ≠ .mk kind flags loc (.PropertyAccessExpression expression questionDotToken
              (some (NewIdentifier "value"))))
      ∧ ∀ s2 : superAccessState, s2.superBinding = s.superBinding →
          substituteSuperAccessesInBody s2 (some body) = .ok (some result) := by
  obtain ⟨result, hres⟩ := substitute_ok s body hwf
  have hv := substitute_eq_ok.1 hres
  refine ⟨result, hres, ?_, ?_, ?_⟩
  · intro binding _ hleaf hthis hcall hbody hbinding hmem
    rcases leaf_from_input s binding hleaf hthis hcall body hwf hno result hv hmem with h | h
    · exact hbody h
    · exact hbinding h
  · intro hbody hbinding m hm kind flags loc expression questionDotToken heq
    subst heq
    have hname : NewIdentifier "value" ∈ allNodes result :=
      mem_allNodes_trans result _ _ hm (mem_allNodes_child
        (by simp [Node.children, Node.data, NodeData.children]) (mem_nodesOf_self _ _))
    rcases leaf_from_input s (NewIdentifier "value") rfl
        (by simp [NewIdentifier, NewThisExpression, NewKeywordExpression])
        (by simp [NewIdentifier]) body hwf hno result hv hname with h | h
    · exact hbody h
    · exact hbinding h
  · intro s2 hb
    rw [substitute_eq_ok, visit_independent_of_index s2 s hb body hwf hno]
    exact hv

/-- C10 at the body `{ super.a; function () { super["q"]; } }`: the identifier
`_superIndex` does not occur in the result. -/
theorem index_helper_not_referenced_witness :
    wellFormed exampleReadsBody = true ∧
    (∀ m ∈ scopeNodes exampleReadsBody, isSuperElementAccess m = false) ∧
    ∃ result : Node,
      substituteSuperAccessesInBody (exampleState true) (some exampleReadsBody)
        = .ok (some result) ∧
      NewIdentifier "_superIndex" ∉ allNodes result :=
  have hwf : wellFormed exampleReadsBody = true := by decide
  have hno : ∀ m ∈ scopeNodes exampleReadsBody, isSuperElementAccess m = false := by
    simp [scopeNodes, nodesOf, dataNodes, pointerNodes, listNodes, sliceNodes, slotsNodes,
      slotNodes, exampleReadsBody, exampleBlock, exampleStatement, exampleFunction,
      exampleSuperDot, exampleSuper, exampleName, spanned, Node.setLoc,
      NewPropertyAccessExpression, NewKeywordExpression, NewIdentifier, isScopeBoundary,
      isSuperElementAccess]
  ⟨hwf, hno,
    (index_helper_not_referenced exampleReadsBody hwf hno (exampleState true)).elim
      fun result h => ⟨result, h.1, h.2.1 (NewIdentifier "_superIndex") rfl rfl
        (by simp [NewIdentifier, NewThisExpression, NewKeywordExpression])
        (by simp [NewIdentifier])
        (by simp [allNodes, nodesOf, dataNodes, pointerNodes, listNodes, sliceNodes, slotsNodes,
          slotNodes, exampleReadsBody, exampleBlock, exampleStatement, exampleFunction,
          exampleSuperDot, exampleSuperIndex, exampleString, exampleSuper, exampleName, spanned,
          Node.setLoc, NewPropertyAccessExpression, NewKeywordExpression, NewIdentifier])
        (by simp [exampleState, freshState, pointerNodes, nodesOf, dataNodes, NewIdentifier])⟩⟩

/-! ## C1: a scope boundary below a rewritten super call -/

/-- C1, counterexample. In `super.m(function () { super.b; })` the nested
function is the child at position 1 of the body; the result is
`_super.m.call(this, function () { super.b; })`, which has `this` at position 1
and the function, unchanged, at position 2. -/
theorem boundary_below_super_call_counterexample :
    wellFormed exampleSuperCallWithFunction = true
      ∧ subtreeAt exampleSuperCallWithFunction [1] = some exampleNestedFunction
      ∧ isScopeBoundary exampleNestedFunction.Kind = true
      ∧ ∃ result, substituteSuperAccessesInBody (exampleState false)
            (some exampleSuperCallWithFunction) = .ok (some result)
          ∧ subtreeAt result [1] = some NewThisExpression
          ∧ subtreeAt result [1] ≠ some exampleNestedFunction
          ∧ subtreeAt result [2] = some exampleNestedFunction := by
  refine ⟨by decide, rfl, by decide, _, rfl, rfl, ?_, rfl⟩
  intro h
  have hk := congrArg (Option.map Node.Kind) h
  simp [subtreeAt, Node.children, Node.data, NodeData.children, listChildren, NewCallExpression,
    NewNodeList, NewThisExpression, NewKeywordExpression, NewPropertyAccessExpression,
    Node.setLoc, exampleNestedFunction, exampleFunction, Node.Kind] at hk

/-! ## C11: the class conversion -/

theorem listChildren_exampleExtractModifiers (emitContext : EmitContext) (modifiers : NodeList)
    (allowed : ModifierFlags) :
    listChildren (exampleExtractModifiers emitContext modifiers allowed)
      = (listChildren modifiers).filter (isAllowedModifier allowed) := by
  cases modifiers with
  | none => rfl
  | some list =>
    simp only [exampleExtractModifiers, listChildren, Option.map_some', Option.getD_some]
    induction list with
    | nil => rfl
    | cons m rest ih =>
      cases m with
      | none => simpa [List.filter_cons] using ih
      | some m =>
        by_cases hk : isAllowedModifier allowed m = true
        · simp [List.filter_cons, hk, ih]
        · simp only [Bool.not_eq_true] at hk
          simp [List.filter_cons, hk, ih]

/-- With the complement of the flags of `export` and `default` as mask, the
nodes that pass are those other than the modifiers `export` and `default`. -/
theorem isAllowedModifier_complement (m : Node) :
    isAllowedModifier (ModifierFlags.complement ModifierFlagsExportDefault) m
      = isKeptModifier m := by
  obtain ⟨kind, flags, loc, data⟩ := m
  cases kind <;>
    simp [isAllowedModifier, isKeptModifier, ModifierToFlag, ModifierFlagsNone,
      ModifierFlagsExport, ModifierFlagsDefault, ModifierFlagsExportDefault,
      ModifierFlags.complement, Node.Kind] <;>
    rfl

/-- The mask matters: with the complement of the flag of `export` alone, the
modifier `default` passes. -/
theorem default_passes_complement_of_export :
    isAllowedModifier (ModifierFlags.complement ModifierFlagsExport)
        (NewToken Kind.DefaultKeyword) = true
      ∧ isAllowedModifier (ModifierFlags.complement ModifierFlagsExportDefault)
        (NewToken Kind.DefaultKeyword) = false := by
  constructor
  · simp [isAllowedModifier, ModifierToFlag, ModifierFlagsNone, ModifierFlagsExport,
      ModifierFlagsDefault, ModifierFlags.complement, NewToken, Node.Kind]
  · simp [isAllowedModifier, ModifierToFlag, ModifierFlagsNone, ModifierFlagsExport,
      ModifierFlagsDefault, ModifierFlagsExportDefault, ModifierFlags.complement, NewToken,
      Node.Kind]
    rfl

/-- C11. `convertClassDeclarationToClassExpression` returns a class expression
that has the span of the declaration, the name, type parameters, heritage
clauses and members of the declaration, and the modifiers `ExtractModifiers`
gives for the modifiers of the declaration and the mask
`^ModifierFlagsExportDefault`; the emit context then holds the link from the
expression to the declaration.  When `ExtractModifiers` keeps, for every mask,
the nodes that are no modifier or whose flag is in the mask, in their order,
the modifiers of the expression are those of the declaration without `export`
and `default`, every other one kept. -/
theorem class_conversion_keeps_provenance
    (ExtractModifiers : EmitContext → NodeList → ModifierFlags → NodeList)
    (emitContext : EmitContext) (d : ClassDeclaration)
    (hextract : ∀ modifiers allowed, listChildren (ExtractModifiers emitContext modifiers allowed)
      = (listChildren modifiers).filter (isAllowedModifier allowed)) :
    let e := (convertClassDeclarationToClassExpression ExtractModifiers emitContext d).1
    let after := (convertClassDeclarationToClassExpression ExtractModifiers emitContext d).2
    e = .mk Kind.ClassExpression NodeFlagsNone d.Loc
          (.Other [.list (ExtractModifiers emitContext d.Modifiers
              (ModifierFlags.complement ModifierFlagsExportDefault)),
            .node d.Name, .list d.TypeParameters, .list d.HeritageClauses, .list d.Members])
      ∧ e.Loc = d.Loc
      ∧ after.original = (e, d.AsNode) :: emitContext.original
      ∧ after.linked e d.AsNode
      ∧ listChildren (ExtractModifiers emitContext d.Modifiers
            (ModifierFlags.complement ModifierFlagsExportDefault))
          = (listChildren d.Modifiers).filter isKeptModifier
      ∧ (∀ m, m ∈ listChildren (ExtractModifiers emitContext d.Modifiers
            (ModifierFlags.complement ModifierFlagsExportDefault))
          ↔ m ∈ listChildren d.Modifiers ∧ m.Kind ≠ Kind.ExportKeyword
            ∧ m.Kind ≠ Kind.DefaultKeyword) := by
  have hmask : listChildren (ExtractModifiers emitContext d.Modifiers
        (ModifierFlags.complement ModifierFlagsExportDefault))
      = (listChildren d.Modifiers).filter isKeptModifier := by
    rw [hextract]
    exact List.filter_congr (fun m _ => isAllowedModifier_complement m)
  refine ⟨rfl, rfl, rfl, ⟨[], emitContext.original, rfl, by simp⟩, hmask, fun m => ?_⟩
  rw [hmask, List.mem_filter]
  simp [isKeptModifier]

theorem class_conversion_keeps_provenance_witness :
    (∀ modifiers allowed,
      listChildren (exampleExtractModifiers exampleEmitContext modifiers allowed)
        = (listChildren modifiers).filter (isAllowedModifier allowed))
    ∧ (convertClassDeclarationToClassExpression exampleExtractModifiers exampleEmitContext
        exampleClassDeclaration).1
      = .mk Kind.ClassExpression NodeFlagsNone (.range 0 34)
          (.Other [.list (some [some (exampleModifier Kind.AbstractKeyword 15 23)]),
            .node (some (spanned 30 31 (NewIdentifier "C"))), .list none, .list none,
            .list (some [])])
    ∧ (convertClassDeclarationToClassExpression exampleExtractModifiers exampleEmitContext
        exampleClassDeclaration).2.linked
          (convertClassDeclarationToClassExpression exampleExtractModifiers exampleEmitContext
            exampleClassDeclaration).1
          exampleClassDeclaration.AsNode :=
  ⟨listChildren_exampleExtractModifiers exampleEmitContext,
    (class_conversion_keeps_provenance exampleExtractModifiers exampleEmitContext
      exampleClassDeclaration (listChildren_exampleExtractModifiers exampleEmitContext)).1,
    (class_conversion_keeps_provenance exampleExtractModifiers exampleEmitContext
      exampleClassDeclaration (listChildren_exampleExtractModifiers exampleEmitContext)).2.2.2.1⟩

end EsTransforms
